import Mathlib

/-!
Verification development for funycode (`src/funycode.c`), a codec mapping
Unicode scalar strings onto the C identifier alphabet.  The source file
contains two revisions of the codec.  We embed the first revision (the
`wfunencode` with the qsort suffix strategy and its `wfundecode`) as the
primary model, plus the parts of the second revision needed by the claims
(the sweep-strategy `wfunencode` and the second revision's base-62 delta
`decode`).

Modelling conventions:
* `wchar_t` symbols and `char` bytes are `Nat`s; arithmetic that the C
  performs in fixed-width unsigned integers uses explicit `% 2 ^ 64`
  where wrap-around matters.
* an output buffer of capacity `len` is a `List Nat` of length `len`;
  callers are modelled as passing zero-initialised memory, and reads of
  memory the buffer does not own yield `0`.  The C macro
  `OUT(buf, len, pos, val)` becomes `outW`, writing only when `pos < len`.
* `intmax_t` quantities (deltas, bias, `last`) are `Int`, with C's
  truncating division `imaxdiv` rendered as `Int.tdiv` / `Int.tmod`.
* fallible functions return `Option _`; `none` models `FUNYCODE_ERR`.
* every `while`/`for` loop is translated structurally: loops that walk a
  list recurse on it, and loops governed by a numeric condition recurse
  on an explicit budget (`fuel`) chosen at the call site to be a proven
  upper bound on the iteration count, so that the out-of-budget branch
  (which repeats the loop-exit state) is unreachable.  Each such
  definition documents its budget.
-/

namespace Funycode

/-! ## Bootstring and compressor parameters (funycode.c lines 42-48, 64-74) -/

/-- `BASE` -/
def BASE : Int := 62

/-- `TMIN` -/
def TMIN : Int := 1

/-- `TMAX` -/
def TMAX : Int := 52

/-- `SKEW` -/
def SKEW : Int := 208

/-- `DAMP` -/
def DAMP : Int := 700

/-- `INITIAL_BIAS = BASE * 2 - TMAX / 2 = 98` -/
def INITIAL_BIAS : Int := 98

/-- `INITIAL_N` -/
def INITIAL_N : Nat := 32

/-- `BACKREF`, the base of the match-token band. -/
def BACKREF : Nat := 0xd800

/-- `MINCOPY` (with `COPYBITS = 4`, `MAXCOPY = 19`). -/
def MINCOPY : Nat := 4

/-- `MAXCOPY` -/
def MAXCOPY : Nat := 19

/-- `MINDIST` (with `DISTBITS = 7`, `MAXDIST = 128`). -/
def MINDIST : Nat := 1

/-- `MAXDIST` -/
def MAXDIST : Nat := 128

/-- `WCHAR_MAX` for a 32-bit signed `wchar_t` (glibc). -/
def WCHAR_MAX : Nat := 0x7fffffff

/-- The `OUT(buf, len, pos, val)` macro: store `val` at `pos` if
`pos < len`.  All buffers in this development are lists whose length is
the capacity `len`, so the guard coincides with `List.set`'s
out-of-range behaviour; we keep it anyway for fidelity. -/
def outW (buf : List Nat) (len pos v : Nat) : List Nat :=
  if pos < len then buf.set pos v else buf

/-! ## The LZRW1-A style compressor (funycode.c lines 87-159)

Both revisions share this compressor; the only difference is that the
second revision zero-initialises the 512-entry hash table while the
first leaves it uninitialised (reading it is then undefined behaviour in
C).  We model the table as zero-initialised, matching the second
revision and reading the first deterministically. -/

/-- One step of FNV-1a, 64-bit (`h = (h ^ buf[i]) * FNVPRIME` on a
64-bit platform). -/
def fnvStep (h x : Nat) : Nat := ((h ^^^ x) * 0x100000001b3) % 2 ^ 64

/-- `hash(buf)`: FNV-1a over the `MINCOPY - 1 = 3` symbols at `buf`,
reduced mod 512.  The C truncates the 64-bit hash to `int` and then
reduces `% nitems(htab)` in `size_t`; because 512 divides `2 ^ 32`, that
composite equals the plain `% 512` of the 64-bit value.  Reads past the
end of the source yield 0 (the C reads unowned memory there; claim C10
is about exactly those reads). -/
def hashIdx (src : List Nat) (p : Nat) : Nat :=
  fnvStep (fnvStep (fnvStep 0xcbf29ce484222325 (src.getD p 0))
    (src.getD (p + 1) 0)) (src.getD (p + 2) 0) % 512

/-- Inner loop of `prefix(src, srclen, a, b)` with running length `len`
and remaining budget `left`; the C condition `len < MAXCOPY` is the
budget being positive (the invariant `len + left = MAXCOPY` holds from
the entry `len = 0`, `left = MAXCOPY`). -/
def matchLenGo (src : List Nat) (srclen a b : Nat) :
    Nat → Nat → Nat
  | len, 0 => len
  | len, left + 1 =>
    if a + len < srclen ∧ b + len < srclen then
      if src.getD (a + len) 0 ≠ src.getD (b + len) 0 then len
      else matchLenGo src srclen a b (len + 1) left
    else len

/-- `prefix(src, srclen, a, b)`: the longest common prefix of
`src[a..]` and `src[b..]`, capped at `MAXCOPY` and at `srclen`. -/
def matchLen (src : List Nat) (srclen a b : Nat) : Nat :=
  matchLenGo src srclen a b 0 MAXCOPY

/-- The advance loop of `compress`: write `htab[h] = srcpos++` for each
of the `len` consumed positions, re-hashing at each subsequent position.
`srcpos` itself advances by exactly `len`, which the caller adds
directly.  (The C loop decrements `len` before testing, so it is only
ever entered with `len ≥ 1`; the `len = 0` case is given the `len = 1`
meaning.) -/
def advanceHtab (src : List Nat) : List Nat → Nat → Nat → Nat → List Nat
  | htab, h, srcpos, 0 => htab.set h srcpos
  | htab, h, srcpos, 1 => htab.set h srcpos
  | htab, h, srcpos, len + 2 =>
    advanceHtab src (htab.set h srcpos) (hashIdx src (srcpos + 1))
      (srcpos + 1) (len + 1)

/-- The priming loop of `compress`
(`while (srcpos + MINCOPY < srclen && srcpos < MINCOPY)`): emit up to
`MINCOPY` leading literals while seeding the hash table.  The budget
realises the `srcpos < MINCOPY` conjunct: the loop starts at
`srcpos = 0` with budget `MINCOPY` and maintains
`srcpos + left = MINCOPY`.  Returns `(dst, srcpos, dstpos, htab)`. -/
def compressPrime (src : List Nat) (srclen : Nat) :
    List Nat → Nat → Nat → Nat → List Nat → Nat →
      List Nat × Nat × Nat × List Nat
  | dst, _, srcpos, dstpos, htab, 0 => (dst, srcpos, dstpos, htab)
  | dst, dstlen, srcpos, dstpos, htab, left + 1 =>
    if srcpos + MINCOPY < srclen then
      compressPrime src srclen (outW dst dstlen dstpos (src.getD srcpos 0))
        dstlen (srcpos + 1) (dstpos + 1)
        (htab.set (hashIdx src srcpos) srcpos) left
    else (dst, srcpos, dstpos, htab)

/-- The trailing literal loop of `compress`
(`while (srcpos < srclen) OUT(..., src[srcpos++])`), walking the
remaining source symbols `src.drop srcpos` as a list. -/
def compressTail (rest : List Nat) (dst : List Nat) (dstlen dstpos : Nat) :
    List Nat × Nat :=
  match rest with
  | [] => (dst, dstpos)
  | x :: rest' => compressTail rest' (outW dst dstlen dstpos x) dstlen
      (dstpos + 1)

/-- The main loop of `compress` (`while (srcpos + MINCOPY < srclen)`).
At each position the 3-symbol fingerprint selects a hash slot `q`; if
`MINDIST ≤ srcpos - q ≤ MAXDIST` and the common prefix is at least
`MINCOPY` long, a match token is emitted, else a literal.  `srcpos - q`
is `Nat` subtraction: table entries are always previously consumed
positions, hence `≤ srcpos` (the C computes the same value in `size_t`).
The C evaluates `prefix(...)` only after the distance tests succeed; the
function is pure, so hoisting it preserves behaviour.  `srcpos`
strictly increases and the loop requires `srcpos + MINCOPY < srclen`,
so the iteration count is below `srclen`; the entry budget is `srclen`
and the out-of-budget branch (identical to the loop exit) is
unreachable. -/
def compressMain (src : List Nat) (srclen : Nat) (fuel : Nat)
    (dst : List Nat) (dstlen srcpos dstpos : Nat) (htab : List Nat) :
    List Nat × Nat :=
  match fuel with
  | 0 => compressTail (src.drop srcpos) dst dstlen dstpos
  | fuel + 1 =>
    if srcpos + MINCOPY < srclen then
      let h := hashIdx src srcpos
      let q := htab.getD h 0
      let len := matchLen src srclen srcpos q
      if MINDIST ≤ srcpos - q ∧ srcpos - q ≤ MAXDIST ∧ MINCOPY ≤ len then
        let tok := BACKREF + (len - MINCOPY) + (srcpos - q - MINDIST) * 16
        compressMain src srclen fuel (outW dst dstlen dstpos tok) dstlen
          (srcpos + len) (dstpos + 1) (advanceHtab src htab h srcpos len)
      else
        compressMain src srclen fuel
          (outW dst dstlen dstpos (src.getD srcpos 0)) dstlen
          (srcpos + 1) (dstpos + 1) (advanceHtab src htab h srcpos 1)
    else compressTail (src.drop srcpos) dst dstlen dstpos

/-- `compress(dst, dstlen, src, srclen)`: returns the written buffer and
the number of symbols produced. -/
def compress (dst : List Nat) (dstlen : Nat) (src : List Nat)
    (srclen : Nat) : List Nat × Nat :=
  let prime := compressPrime src srclen dst dstlen 0 0
    (List.replicate 512 0) MINCOPY
  compressMain src srclen srclen prime.1 dstlen prime.2.1 prime.2.2.1
    prime.2.2.2

/-- The compressed symbol stream of `src`, as `wfunencode` computes it:
`compress` into a scratch buffer of `namelen` wide characters, keeping
the first `dstpos` symbols (the loops never write past `dstpos`, and
`dstpos` never exceeds `srclen`). -/
def compressOut (src : List Nat) : List Nat :=
  let r := compress (List.replicate src.length 0) src.length src src.length
  r.1.take r.2

/-! ## Base-62 digits and the variable-length delta codec
(funycode.c lines 194-269) -/

/-- `satsub(a, b)` (saturating subtraction); identical to `Nat` `-`. -/
def satsub (a b : Nat) : Nat := a - b

/-- `tresh(pos, bias)`: the digit threshold
`clamp((pos + 1) * BASE - bias, TMIN, TMAX)`. -/
def tresh (pos : Nat) (bias : Int) : Int :=
  let t : Int := (pos + 1) * BASE - bias
  if t < TMIN then TMIN else if t > TMAX then TMAX else t

/-- The ASCII byte for a base-62 digit value `0..61`
(`0-9`, `A-Z`, `a-z` in that order). -/
def digitChar (v : Nat) : Nat :=
  if v ≤ 9 then v + 48
  else if v ≤ 35 then v - 10 + 65
  else v - 36 + 97

/-- `put(buf + pos, satsub(len, pos), val)`: store the digit byte for
`val` at `pos` when `val ∈ [0, BASE - 1]` and `pos < len`.  An
out-of-range `val` trips an `assert` in a debug build; with `NDEBUG` the
write is skipped (the `else return;`) while the caller still advances,
which is what we model. -/
def putDigit (buf : List Nat) (len pos : Nat) (v : Int) : List Nat :=
  if 0 ≤ v ∧ v ≤ BASE - 1 then outW buf len pos (digitChar v.toNat) else buf

/-- Lower and upper clamp bounds of `tresh`. -/
theorem tresh_bounds (pos : Nat) (bias : Int) :
    1 ≤ tresh pos bias ∧ tresh pos bias ≤ 52 := by
  simp only [tresh, TMIN, TMAX, BASE]
  split <;> [skip; split] <;> omega

/-- The quotient step of the delta codec shrinks a positive delta. -/
theorem delta_step_lt (t delta : Int) (ht1 : 1 ≤ t) (ht52 : t ≤ 52)
    (hge : t ≤ delta) :
    0 ≤ (delta - t).tdiv (BASE - t) ∧ (delta - t).tdiv (BASE - t) < delta := by
  have hb : (10 : Int) ≤ BASE - t := by simp only [BASE]; omega
  have h0 : 0 ≤ (delta - t).tdiv (BASE - t) :=
    Int.tdiv_nonneg (by omega) (by omega)
  have heq : (delta - t).tdiv (BASE - t) = (delta - t) / (BASE - t) :=
    Int.tdiv_eq_ediv (by omega) (by omega)
  have hdm := Int.ediv_add_emod (delta - t) (BASE - t)
  have hm0 : 0 ≤ (delta - t) % (BASE - t) := Int.emod_nonneg _ (by omega)
  have hmul : 10 * ((delta - t) / (BASE - t)) ≤
      (BASE - t) * ((delta - t) / (BASE - t)) :=
    mul_le_mul_of_nonneg_right hb (by omega)
  omega

/-- The loop of the first revision's `encode(buf, len, bias, delta)`,
writing digit bytes at `base + pos` of `buf` (the C passes `enc +
encpos` as `buf`; we keep the enclosing buffer and add the offset).
Returns the updated buffer and the digit count.  `imaxdiv` truncates
toward zero, hence `Int.tdiv`/`Int.tmod`.  The loop reruns only while
`delta ≥ tresh ≥ 1`, and then `delta` strictly decreases
(`delta_step_lt`), so the entry budget `delta.toNat + 1` bounds the
iteration count. -/
def encodeDeltaGo (len base : Nat) (bias : Int) :
    Nat → List Nat → Nat → Int → List Nat × Nat
  | 0, buf, pos, _ => (buf, pos)
  | fuel + 1, buf, pos, delta =>
    let t := tresh pos bias
    if delta < t then (putDigit buf len (base + pos) delta, pos + 1)
    else
      encodeDeltaGo len base bias fuel
        (putDigit buf len (base + pos) ((delta - t).tmod (BASE - t) + t))
        (pos + 1) ((delta - t).tdiv (BASE - t))

/-- `encode(enc + base, satsub(enclen, base), bias, delta)` of the first
revision, acting on the enclosing buffer. -/
def encodeDelta (buf : List Nat) (len base : Nat) (bias delta : Int) :
    List Nat × Nat :=
  encodeDeltaGo len base bias (delta.toNat + 1) buf 0 delta

/-- `adapt`'s scaling loop
(`for (k = 0; delta > (BASE - TMIN) * TMAX / 2; k += BASE) delta /= BASE - TMIN`)
followed by the final `k + (BASE - TMIN + 1) * delta / (delta + SKEW)`.
`(BASE - TMIN) * TMAX / 2 = 1586`.  The final division truncates toward
zero; its divisor is zero exactly when `delta = -SKEW` (undefined
behaviour in C; `Int.tdiv _ 0 = 0` stands in for it).  The loop reruns
only while `delta > 1586`, when `delta.tdiv 61` strictly decreases, so
the entry budget `delta.toNat + 1` bounds the iteration count. -/
def adaptGo : Nat → Int → Int → Int
  | 0, delta, k => k + ((BASE - TMIN + 1) * delta).tdiv (delta + SKEW)
  | fuel + 1, delta, k =>
    if delta > 1586 then adaptGo fuel (delta.tdiv 61) (k + BASE)
    else k + ((BASE - TMIN + 1) * delta).tdiv (delta + SKEW)

/-- `adapt(delta, outpos, first)`: RFC 3492 bias adaptation.  All `/` on
`intmax_t` truncate toward zero (`Int.tdiv`); `outpos` is never zero at
a call site (C would divide by zero; `Int.tdiv _ 0 = 0` stands in). -/
def adapt (delta : Int) (outpos : Nat) (first : Bool) : Int :=
  let d := (if first then delta.tdiv DAMP else delta.tdiv 2) +
    delta.tdiv outpos
  adaptGo (d.toNat + 1) d 0

/-! ## The first revision's encoder: `wfunencode` (funycode.c 271-403) -/

/-- The total order of `codecmp`: by `wc`, ties by original position.
Positions of distinct entries are distinct, so the order is total and
`qsort`'s result is the unique sorted permutation; we realise it with
insertion sort. -/
def codeLe (a b : Nat × Nat) : Bool :=
  a.1 < b.1 ∨ (a.1 = b.1 ∧ a.2 ≤ b.2)

/-- Insert one entry into a `codeLe`-sorted list. -/
def insertCode (c : Nat × Nat) : List (Nat × Nat) → List (Nat × Nat)
  | [] => [c]
  | d :: rest => if codeLe c d then c :: d :: rest else d :: insertCode c rest

/-- Sort the code entries by `(wc, pos)` (the effect of
`qsort(codes, ncodes, sizeof(codes[0]), codecmp)`). -/
def sortCodes : List (Nat × Nat) → List (Nat × Nat)
  | [] => []
  | c :: rest => insertCode c (sortCodes rest)

/-- `#{entries of l whose pos < p}` — the inner `for (j = i + 1; ...)`
count. -/
def countLtPos (p : Nat) (l : List (Nat × Nat)) : Nat :=
  (l.filter (fun c => c.2 < p)).length

/-- The position-correction pass over the sorted entries
(`codes[i].pos -= #{j > i | codes[j].pos < codes[i].pos}`); each entry
is adjusted against the original positions of the entries after it,
which the C loop leaves untouched while processing `i`. -/
def adjustCodes : List (Nat × Nat) → List (Nat × Nat)
  | [] => []
  | c :: rest => (c.1, c.2 - countLtPos c.2 rest) :: adjustCodes rest

/-- The basic-character test of the first revision's output loop:
`A-Z`, `a-z`, or `0-9` provided `encpos != 0` (no leading digit). -/
def isBasicSym (wc : Nat) (encposNZ : Bool) : Bool :=
  (65 ≤ wc ∧ wc ≤ 90) ∨ (97 ≤ wc ∧ wc ≤ 122) ∨
    (48 ≤ wc ∧ wc ≤ 57 ∧ encposNZ)

/-- The first revision's basic pass (funycode.c 316-339): emit basic
symbols of the compressed stream verbatim (`wctob` of an ASCII
alphanumeric is its own byte), and gather everything else as code
entries `(wc, position)` in stream order.  Returns
`(enc, encpos, codes)`. -/
def basicGo (enclen : Nat) (rest : List Nat) (namepos : Nat)
    (enc : List Nat) (encpos : Nat) (codes : List (Nat × Nat)) :
    List Nat × Nat × List (Nat × Nat) :=
  match rest with
  | [] => (enc, encpos, codes)
  | wc :: rest' =>
    if isBasicSym wc (encpos ≠ 0) then
      basicGo enclen rest' (namepos + 1) (outW enc enclen encpos wc)
        (encpos + 1) codes
    else basicGo enclen rest' (namepos + 1) enc encpos
      (codes ++ [(wc, namepos)])

/-- The suffix-generation loop of the first revision (funycode.c
379-385): for each sorted, position-corrected entry emit
`delta = wc * (rlen + 1) + pos - last`, then advance `rlen`,
`last = wc * (rlen + 1) + pos + 1` (with the incremented `rlen`),
`bias = adapt(delta, rlen, i == 0)`. -/
def suffixGo (enclen : Nat) (codes : List (Nat × Nat)) (enc : List Nat)
    (encpos rlen : Nat) (bias last : Int) (first : Bool) :
    List Nat × Nat :=
  match codes with
  | [] => (enc, encpos)
  | (wc, pos) :: rest =>
    let delta : Int := (wc : Int) * ((rlen : Int) + 1) + (pos : Int) - last
    let r := encodeDelta enc enclen encpos bias delta
    suffixGo enclen rest r.1 (encpos + r.2) (rlen + 1)
      (adapt delta (rlen + 1) first)
      ((wc : Int) * ((rlen : Int) + 2) + (pos : Int) + 1) false

/-- `wfunencode(enc, enclen, name, namelen)`, first revision (funycode.c
289-403).  The caller's buffer is `enclen` zero-initialised bytes; the
result is the written buffer together with the returned required
length.  The `malloc` failure path is not modelled (allocation is the
host's concern).  The final `OUT(enc, enclen, encpos, '\0')` terminator
writes are included for fidelity, though they write `0` over a slot
that is still `0`. -/
def wfunencode (enclen : Nat) (name : List Nat) : List Nat × Nat :=
  let b := compressOut name
  let r := basicGo enclen b 0 (List.replicate enclen 0) 0 []
  let enc1 := r.1
  let plen := r.2.1
  let codes := r.2.2
  if codes.isEmpty then (outW enc1 enclen plen 0, plen)
  else
    let sorted := adjustCodes (sortCodes codes)
    let enc2 := if plen ≠ 0 then outW enc1 enclen plen 95 else enc1
    let encpos2 := if plen ≠ 0 then plen + 1 else plen
    let last0 : Int := (INITIAL_N : Int) * ((plen : Int) + 1) -
      (if plen = 0 then 10 * ((plen : Int) + 1) else 0)
    let r2 := suffixGo enclen sorted enc2 encpos2 plen INITIAL_BIAS last0
      true
    let enc3 := if plen = 0 then outW r2.1 enclen r2.2 95 else r2.1
    let encpos3 := if plen = 0 then r2.2 + 1 else r2.2
    (outW enc3 enclen encpos3 0, encpos3)

/-! ## The decompressor (funycode.c 161-185), shared by both revisions -/

/-- The match-token test `(ch & ~(COPYMASK | DISTMASK)) == BACKREF`:
for the 31-bit non-negative `wchar_t` values that reach it, masking off
the low 11 bits and comparing with `0xD800` holds exactly on the band
`[0xD800, 0xE000)`. -/
def isBackref (ch : Nat) : Bool := BACKREF ≤ ch ∧ ch < BACKREF + 0x800

/-- `((ch & DISTMASK) >> COPYBITS) + MINDIST` for `ch` in the band. -/
def tokDist (ch : Nat) : Nat := (ch - BACKREF) / 16 + MINDIST

/-- `(ch & COPYMASK) + MINCOPY` for `ch` in the band. -/
def tokLen (ch : Nat) : Nat := (ch - BACKREF) % 16 + MINCOPY

/-- The copy loop of `decompress`
(`while (len-- > 0) OUT(dst, dstlen, dstpos++, dst[pos++])`).  `pos` is
a `size_t`; when a match reaches before the start of the output it has
wrapped around to a huge value and the C reads memory the buffer does
not own, which the model reads as `0`. -/
def copyGo (dst : List Nat) (dstlen dstpos pos len : Nat) :
    List Nat × Nat :=
  match len with
  | 0 => (dst, dstpos)
  | len' + 1 =>
    copyGo (outW dst dstlen dstpos (dst.getD pos 0)) dstlen (dstpos + 1)
      ((pos + 1) % 2 ^ 64) len'

/-- `decompress(dst, dstlen, src, srclen)` walking the symbol list:
literals pass through, match tokens copy `tokLen` symbols starting
`tokDist` back in the output.  `pos = dstpos - dist` is computed in
`size_t`, i.e. mod `2 ^ 64` (`dstpos` stays far below `2 ^ 64`). -/
def decompressGo (dst : List Nat) (dstlen : Nat) (src : List Nat)
    (dstpos : Nat) : List Nat × Nat :=
  match src with
  | [] => (dst, dstpos)
  | ch :: rest =>
    if isBackref ch then
      let r := copyGo dst dstlen dstpos
        ((dstpos + 2 ^ 64 - tokDist ch) % 2 ^ 64) (tokLen ch)
      decompressGo r.1 dstlen rest r.2
    else decompressGo (outW dst dstlen dstpos ch) dstlen rest (dstpos + 1)

/-- `decompress` on a destination buffer of capacity `dstlen`. -/
def decompress (dst : List Nat) (dstlen : Nat) (src : List Nat) :
    List Nat × Nat :=
  decompressGo dst dstlen src 0

/-! ## The first revision's decoder: `wfundecode` (funycode.c 441-572) -/

/-- `get(buf, len)` reading at offset `pos` of the suffix: the base-62
value of the byte (`-1` for a byte outside the alphabet), or the
virtual digit `0` past the effective length. -/
def getDigit (enc : List Nat) (len pos : Nat) : Int :=
  if pos < len then
    let c := enc.getD pos 0
    if 48 ≤ c ∧ c ≤ 57 then (c : Int) - 48
    else if 65 ≤ c ∧ c ≤ 90 then (c : Int) - 65 + 10
    else if 97 ≤ c ∧ c ≤ 122 then (c : Int) - 97 + 36
    else -1
  else 0

/-- Reading at or past the effective length yields the virtual digit 0
(`get` with a non-positive remaining length). -/
theorem getDigit_oob (enc : List Nat) (len pos : Nat) (h : ¬ pos < len) :
    getDigit enc len pos = 0 := by
  simp only [getDigit, if_neg h]

/-- The loop of the first revision's `decode(buf, len, bias, delta)`,
reading digits at `base + pos`: accumulate `delta += v * w`,
`w *= BASE - t`, stop at the first digit below threshold, fail on an
invalid byte.  Returns `(digit count, delta)`; `none` is
`FUNYCODE_ERR`.  A digit at or past the effective length reads as the
virtual 0, which is below every threshold, so the loop reruns only
while `base + pos < len`; the entry budget `len - base + 1` therefore
bounds the iteration count. -/
def decodeDeltaGo (enc : List Nat) (len base : Nat) (bias : Int) :
    Nat → Nat → Int → Int → Option (Nat × Int)
  | 0, pos, delta, _ => some (pos, delta)
  | fuel + 1, pos, delta, w =>
    let t := tresh pos bias
    let v := getDigit enc len (base + pos)
    if v < 0 then none
    else if v < t then some (pos + 1, delta + v * w)
    else decodeDeltaGo enc len base bias fuel (pos + 1) (delta + v * w)
      (w * (BASE - t))

/-- `decode(buf, len, bias, delta)` of the first revision. -/
def decodeDelta (enc : List Nat) (len base : Nat) (bias : Int) :
    Option (Nat × Int) :=
  decodeDeltaGo enc len base bias (len - base + 1) 0 0 1

/-- A successful `decodeDeltaGo` with a positive budget consumed at
least one digit beyond its starting offset. -/
theorem decodeDeltaGo_count_gt (enc : List Nat) (len base : Nat)
    (bias : Int) :
    ∀ fuel pos delta w r,
      decodeDeltaGo enc len base bias (fuel + 1) pos delta w = some r →
      pos < r.1 := by
  intro fuel
  induction fuel with
  | zero =>
    intro pos delta w r h
    obtain ⟨r1, r2⟩ := r
    rw [decodeDeltaGo] at h
    split at h
    · exact absurd h (by simp)
    · split at h <;>
        simp only [decodeDeltaGo, Option.some.injEq, Prod.mk.injEq] at h <;>
        omega
  | succ fuel ih =>
    intro pos delta w r h
    obtain ⟨r1, r2⟩ := r
    rw [decodeDeltaGo] at h
    split at h
    · exact absurd h (by simp)
    · split at h
      · simp only [Option.some.injEq, Prod.mk.injEq] at h
        omega
      · have := ih (pos + 1) _ _ (r1, r2) h
        omega

/-- A successful `decodeDelta` consumed at least one digit. -/
theorem decodeDelta_count_pos (enc : List Nat) (len base : Nat)
    (bias : Int) (r : Nat × Int) (h : decodeDelta enc len base bias = some r) :
    1 ≤ r.1 := by
  have : len - base + 1 = (len - base) + 1 := rfl
  rw [decodeDelta, this] at h
  exact decodeDeltaGo_count_gt enc len base bias (len - base) 0 0 1 r h

/-- `memchr(enc, '_', enclen)` as an index. -/
def memchrUnd : List Nat → Option Nat
  | [] => none
  | c :: rest =>
    if c = 95 then some 0 else (memchrUnd rest).map (· + 1)

/-- The split of the encoded string into prefix and suffix (funycode.c
512-522): a trailing `'_'` found first means suffix only (strip it);
otherwise the bytes before the first `'_'` are the prefix; with no `'_'`
everything is prefix.  Returns `(plen, encpos, enclen)` — prefix
length, suffix start, effective length. -/
def splitEnc (enc : List Nat) : Nat × Nat × Nat :=
  let enclen := enc.length
  match memchrUnd enc with
  | some p =>
    if p = enclen - 1 then (0, 0, enclen - 1)
    else (p, p + 1, enclen)
  | none => (enclen, enclen, enclen)

/-- The insertion step of `wfundecode` (funycode.c 545-548): when
`rem < buflen`, `wmemmove` shifts `buf[rem ..]` one slot right
(dropping the last element of the `buflen`-sized buffer) and
`buf[rem] = quot`.  On a list of length `buflen` that is `insertIdx`
followed by `take`. -/
def insertShift (buf : List Nat) (buflen r q : Nat) : List Nat :=
  if r < buflen then (buf.insertIdx r q).take buflen else buf

/-- The suffix-decoding loop of the first revision (funycode.c 536-553),
with `i` the running offset into the suffix.  `delta + last` is split
by `imaxdiv(..., namepos + 1)`; both operands are non-negative in every
reachable state, and the quotient is stored back as a `wchar_t`
(modelled as the `Nat` it is; `Int.toNat` realises the cast).  Returns
`none` for `FUNYCODE_ERR`.  Each iteration advances `i` by the digit
count `len ≥ 1` (`decodeDelta_count_pos`) while `i < enclen - encpos`,
so the entry budget `enclen - encpos + 1` bounds the iteration count
and the out-of-budget branch (repeating the loop-exit state) is
unreachable. -/
def decSuffixGo (enc : List Nat) (enclen encpos : Nat) :
    Nat → List Nat → Nat → Nat → Int → Int → Nat → Bool →
      Option (List Nat × Nat)
  | 0, buf, _, namepos, _, _, _, _ => some (buf, namepos)
  | fuel + 1, buf, buflen, namepos, bias, last, i, first =>
    if i < enclen - encpos then
      match decodeDelta enc enclen (encpos + i) bias with
      | none => none
      | some (len, delta) =>
        let v := delta + last
        let q := v.tdiv ((namepos : Int) + 1)
        let r := v.tmod ((namepos : Int) + 1)
        let buf' := insertShift buf buflen r.toNat q.toNat
        decSuffixGo enc enclen encpos fuel buf' buflen (namepos + 1)
          (adapt delta (namepos + 1) first)
          (q * ((namepos : Int) + 2) + r + 1) (i + len) false
    else some (buf, namepos)

/-- The prefix-output loop of `wfundecode`
(`for (i = 0; i < plen; i++) OUT(buf, buflen, namepos++, enc[i]);`):
a `writeSeq`-style walk over the first `plen` bytes, with
`namepos = plen` afterwards. -/
def copyPrefixGo (rest : List Nat) (buf : List Nat)
    (buflen namepos : Nat) : List Nat × Nat :=
  match rest with
  | [] => (buf, namepos)
  | x :: rest' =>
    copyPrefixGo rest' (outW buf buflen namepos x) buflen (namepos + 1)

/-- `wfundecode(name, namelen, enc, enclen)`, first revision (funycode.c
492-572).  The scratch buffer is `max(namelen, enclen * 2)` wide slots;
`none` models `FUNYCODE_ERR`.  `decompress` cannot return the error
value, so the C's `if (namepos == FUNYCODE_ERR) goto fail` after it is
dead; the model keeps the success path.  The final null terminator
write is included. -/
def wfundecode (namelen : Nat) (enc : List Nat) :
    Option (List Nat × Nat) :=
  let enclen0 := enc.length
  let buflen := max namelen (2 * enclen0)
  let s := splitEnc enc
  let plen := s.1
  let encpos := s.2.1
  let enclen := s.2.2
  let pr := copyPrefixGo (enc.take plen) (List.replicate buflen 0) buflen 0
  let last0 : Int := (INITIAL_N : Int) * ((pr.2 : Int) + 1) -
    (if plen = 0 then 10 * ((pr.2 : Int) + 1) else 0)
  match decSuffixGo enc enclen encpos (enclen - encpos + 1) pr.1 buflen
      pr.2 INITIAL_BIAS last0 0 true with
  | none => none
  | some (buf, namepos) =>
    let d := decompress (List.replicate namelen 0) namelen
      (buf.take namepos)
    some (outW d.1 namelen d.2 0, d.2)

/-! ## The second revision's encoder: sweep-strategy `wfunencode`
(funycode.c, second copy: `isenc`, `encode_value`, `encode`,
`wfunencode`).  The compressor, `adapt` and the threshold formula are
the same as in the first revision and are shared above. -/

/-- `isenc(ch, first)`: true when `ch` must be encoded in the suffix
(everything except `A-Z`, `a-z`, and `0-9` when not `first`). -/
def isenc (ch : Nat) (first : Bool) : Bool :=
  if (65 ≤ ch ∧ ch ≤ 90) ∨ (97 ≤ ch ∧ ch ≤ 122) then false
  else if ¬ first ∧ 48 ≤ ch ∧ ch ≤ 57 then false
  else true

/-- `encode_value(val)`: the digit byte, or `0` for an out-of-range
value (the `assert` path followed by `return 0`). -/
def encodeValue (v : Int) : Nat :=
  if 0 ≤ v ∧ v ≤ 9 then v.toNat + 48
  else if 10 ≤ v ∧ v ≤ 35 then v.toNat - 10 + 65
  else if 36 ≤ v ∧ v ≤ 61 then v.toNat - 36 + 97
  else 0

/-- The second revision's `encode(buf, len, pos, bias, delta)`: like the
first revision's but writing `encode_value` bytes (so an out-of-range
value writes the byte `0` instead of skipping the store).  Budget as in
`encodeDeltaGo`. -/
def encodeDeltaGo2 (len pos : Nat) (bias : Int) :
    Nat → List Nat → Nat → Int → List Nat × Nat
  | 0, buf, i, _ => (buf, i)
  | fuel + 1, buf, i, delta =>
    let t := tresh i bias
    if delta < t then (outW buf len (pos + i) (encodeValue delta), i + 1)
    else
      encodeDeltaGo2 len pos bias fuel
        (outW buf len (pos + i)
          (encodeValue ((delta - t).tmod (BASE - t) + t)))
        (i + 1) ((delta - t).tdiv (BASE - t))

/-- The second revision's `encode` entry. -/
def encodeDelta2 (buf : List Nat) (len pos : Nat) (bias delta : Int) :
    List Nat × Nat :=
  encodeDeltaGo2 len pos bias (delta.toNat + 1) buf 0 delta

/-- The result of one sweep of the second revision's suffix loop. -/
structure SweepRes where
  enc : List Nat
  encpos : Nat
  declen : Nat
  bias : Int
  last : Int
  next : Nat
  first : Bool

/-- One inner sweep of the second revision's `wfunencode`
(`for (i = 0, decpos = 0; i < namelen; i++)`): basic symbols and
extended symbols below `n` advance `decpos`; extended symbols above `n`
lower `next`; each symbol equal to `n` is emitted as an insertion with
the current `decpos`.  Note the C falls through from the counting chain
to the `ch != n` test, so a *basic* digit whose value equals `n` is
both counted and emitted. -/
def sweepScan (enclen n : Nat) (rest : List Nat) (enc : List Nat)
    (encpos declen : Nat) (bias last : Int) (decpos next : Nat)
    (first : Bool) : SweepRes :=
  match rest with
  | [] => ⟨enc, encpos, declen, bias, last, next, first⟩
  | ch :: rest' =>
    let notEnc := ¬ isenc ch first
    let first' := if notEnc then false else first
    let decpos' := if notEnc ∨ (isenc ch first ∧ ch < n) then decpos + 1
      else decpos
    let next' := if isenc ch first ∧ ¬ ch < n ∧ ch > n ∧ ch < next then ch
      else next
    if ch ≠ n then
      sweepScan enclen n rest' enc encpos declen bias last decpos' next'
        first'
    else
      let delta : Int := (ch : Int) * ((declen : Int) + 1) +
        (decpos' : Int) - last
      let useB := if bias < 0 then INITIAL_BIAS else bias
      let r := encodeDelta2 enc enclen encpos useB delta
      sweepScan enclen n rest' r.1 (encpos + r.2) (declen + 1)
        (adapt delta (declen + 1) (decide (bias < 0)))
        ((ch : Int) * ((declen : Int) + 2) + (decpos' : Int) + 1)
        (decpos' + 1) next' first'

/-- A sweep can only lower `next` to an extended symbol strictly above
`n`; starting strictly above `n` it stays strictly above `n`. -/
theorem sweepScan_next_gt (enclen n : Nat) (rest : List Nat)
    (enc : List Nat) (encpos declen : Nat) (bias last : Int)
    (decpos next : Nat) (first : Bool) (h : n < next) :
    n < (sweepScan enclen n rest enc encpos declen bias last decpos next
      first).next := by
  induction rest generalizing enc encpos declen bias last decpos next
      first with
  | nil => exact h
  | cons ch rest' ih =>
    rw [sweepScan]
    dsimp only
    split
    · apply ih
      split
      · rename_i hcond
        omega
      · exact h
    · apply ih
      split
      · rename_i hcond
        omega
      · exact h

/-- The outer sweep loop
(`for (n = INITIAL_N, next = WCHAR_MAX; n < WCHAR_MAX; n = next, ...)`),
with the end-of-final-sweep trailing `'_'` when no basic symbol was
seen (`if (next == WCHAR_MAX && first) OUT(enc, enclen, encpos++, '_')`).
Each iteration either ends the loop (`next = WCHAR_MAX`) or strictly
increases `n` to an extended symbol value occurring in `buf`
(`sweepScan_next_gt` and the update discipline), so the iteration count
is at most the number of distinct symbol values in `buf` plus one; the
entry budget `buf.length + 2` is an upper bound, and the out-of-budget
branch (repeating the loop-exit state) is unreachable. -/
def sweepOuter (enclen : Nat) (buf : List Nat) :
    Nat → List Nat → Nat → Nat → Int → Int → Nat → List Nat × Nat
  | 0, enc, encpos, _, _, _, _ => (enc, encpos)
  | fuel + 1, enc, encpos, declen, bias, last, n =>
    if n < WCHAR_MAX then
      let r := sweepScan enclen n buf enc encpos declen bias last 0
        WCHAR_MAX true
      let tr := r.next = WCHAR_MAX ∧ r.first
      let enc' := if tr then outW r.enc enclen r.encpos 95 else r.enc
      let encpos' := if tr then r.encpos + 1 else r.encpos
      sweepOuter enclen buf fuel enc' encpos' r.declen r.bias r.last r.next
    else (enc, encpos)

/-- The second revision's basic pass
(`for (i = 0; i < namelen; i++) if (!isenc(buf[i], encpos == 0)) OUT(...)`). -/
def basic2Go (enclen : Nat) (rest : List Nat) (enc : List Nat)
    (encpos : Nat) : List Nat × Nat :=
  match rest with
  | [] => (enc, encpos)
  | ch :: rest' =>
    if ¬ isenc ch (encpos = 0) then
      basic2Go enclen rest' (outW enc enclen encpos ch) (encpos + 1)
    else basic2Go enclen rest' enc encpos

/-- `wfunencode(enc, enclen, name, namelen)`, second revision (the sweep
strategy). -/
def wfunencode2 (enclen : Nat) (name : List Nat) : List Nat × Nat :=
  let b := compressOut name
  let r := basic2Go enclen b (List.replicate enclen 0) 0
  if r.2 = b.length then (outW r.1 enclen r.2 0, r.2)
  else
    let declen := r.2
    let enc2 := if r.2 ≠ 0 then outW r.1 enclen r.2 95 else r.1
    let encpos2 := if r.2 ≠ 0 then r.2 + 1 else r.2
    let last0 : Int := (INITIAL_N : Int) * ((declen : Int) + 1) -
      (if encpos2 = 0 then 10 else 0)
    let r2 := sweepOuter enclen b (b.length + 2) enc2 encpos2 declen (-1)
      last0 INITIAL_N
    (outW r2.1 enclen r2.2 0, r2.2)

/-! ## The second revision's base-62 delta decoder (`decode_value` and
`decode`), needed for the error-handling claims -/

/-- The `IN(buf, len, pos)` macro: read, or `0` out of bounds. -/
def inR (buf : List Nat) (len pos : Nat) : Nat :=
  if pos < len then buf.getD pos 0 else 0

/-- `decode_value(ch)`: base-62 value of a byte, `-1` if invalid. -/
def decodeValue (ch : Nat) : Int :=
  if 48 ≤ ch ∧ ch ≤ 57 then (ch : Int) - 48
  else if 65 ≤ ch ∧ ch ≤ 90 then (ch : Int) - 65 + 10
  else if 97 ≤ ch ∧ ch ≤ 122 then (ch : Int) - 97 + 36
  else -1

/-- The second revision's `decode(buf, len, pos, bias, delta)` loop:
digits are read through `IN`, so a digit position past `len` reads the
byte `0`, which `decode_value` rejects — a truncated delta stream
therefore fails.  Budget as in `decodeDeltaGo` (the loop reruns only on
valid digits, which lie below `len`). -/
def decodeDelta2Go (buf : List Nat) (len pos : Nat) (bias : Int) :
    Nat → Nat → Int → Int → Option (Nat × Int)
  | 0, i, delta, _ => some (i, delta)
  | fuel + 1, i, delta, w =>
    let t := tresh i bias
    let v := decodeValue (inR buf len (pos + i))
    if v < 0 then none
    else if v < t then some (i + 1, delta + v * w)
    else decodeDelta2Go buf len pos bias fuel (i + 1) (delta + v * w)
      (w * (BASE - t))

/-- The second revision's `decode` entry (bias already resolved by the
caller through `bias < 0 ? INITIAL_BIAS : bias`). -/
def decodeDelta2 (buf : List Nat) (len pos : Nat) (bias : Int) :
    Option (Nat × Int) :=
  decodeDelta2Go buf len pos bias (len - pos + 1) 0 0 1

/-! ## Instrumentation and predicates used by the claims -/

/-- Instrumented copy of `advanceHtab` recording (in `bad`) whether any
re-hash read the fingerprint at a position `p` with `p + 3 > srclen`,
i.e. read source symbols out of bounds. -/
def advanceHtabOOB (src : List Nat) (srclen : Nat) :
    List Nat → Nat → Nat → Nat → Bool → List Nat × Bool
  | htab, h, srcpos, 0, bad => (htab.set h srcpos, bad)
  | htab, h, srcpos, 1, bad => (htab.set h srcpos, bad)
  | htab, h, srcpos, len + 2, bad =>
    advanceHtabOOB src srclen (htab.set h srcpos)
      (hashIdx src (srcpos + 1)) (srcpos + 1) (len + 1)
      (bad || decide (srcpos + 1 + 3 > srclen))

/-- Instrumented copy of `compressMain` (the priming and tail loops
hash at positions `p` with `p + MINCOPY < srclen` or not at all, so
only the main loop's advance re-hashes can go out of bounds). -/
def compressMainOOB (src : List Nat) (srclen : Nat) :
    Nat → List Nat → Nat → Nat → Nat → List Nat → Bool →
      (List Nat × Nat) × Bool
  | 0, dst, dstlen, srcpos, dstpos, _, bad =>
    (compressTail (src.drop srcpos) dst dstlen dstpos, bad)
  | fuel + 1, dst, dstlen, srcpos, dstpos, htab, bad =>
    if srcpos + MINCOPY < srclen then
      let h := hashIdx src srcpos
      let q := htab.getD h 0
      let len := matchLen src srclen srcpos q
      if MINDIST ≤ srcpos - q ∧ srcpos - q ≤ MAXDIST ∧ MINCOPY ≤ len then
        let tok := BACKREF + (len - MINCOPY) + (srcpos - q - MINDIST) * 16
        let r := advanceHtabOOB src srclen htab h srcpos len bad
        compressMainOOB src srclen fuel (outW dst dstlen dstpos tok)
          dstlen (srcpos + len) (dstpos + 1) r.1 r.2
      else
        let r := advanceHtabOOB src srclen htab h srcpos 1 bad
        compressMainOOB src srclen fuel
          (outW dst dstlen dstpos (src.getD srcpos 0)) dstlen
          (srcpos + 1) (dstpos + 1) r.1 r.2
    else (compressTail (src.drop srcpos) dst dstlen dstpos, bad)

/-- Whether compressing `src` ever applies the fingerprint hash at a
position `p` with `p + 3 > |src|` (reading past the end of the
source).  Mirrors `compress` exactly. -/
def compressOOB (src : List Nat) : Bool :=
  let srclen := src.length
  let prime := compressPrime src srclen (List.replicate srclen 0) srclen
    0 0 (List.replicate 512 0) MINCOPY
  (compressMainOOB src srclen srclen prime.1 srclen prime.2.1
    prime.2.2.1 prime.2.2.2 false).2

/-- The identifier shape of claim C2: non-empty, a letter first, then
letters, digits or underscores (`[A-Za-z][0-9A-Za-z_]*`). -/
def matchesIdent (l : List Nat) : Bool :=
  match l with
  | [] => false
  | c :: rest =>
    ((65 ≤ c ∧ c ≤ 90) ∨ (97 ≤ c ∧ c ≤ 122)) &&
      rest.all fun b =>
        (48 ≤ b ∧ b ≤ 57) ∨ (65 ≤ b ∧ b ≤ 90) ∨ (97 ≤ b ∧ b ≤ 122) ∨
          b = 95

/-- Claim C5's reading of the bounded-match invariant: every match
token's distance is at most its index in the compressed stream. -/
def distLeIdx (b : List Nat) : Bool :=
  (List.range b.length).all fun k =>
    !(isBackref (b.getD k 0)) || decide (tokDist (b.getD k 0) ≤ k)

/-- The number of source symbols a compressed symbol reproduces:
`tokLen` for a match token, 1 for a literal. -/
def symSrcLen (ch : Nat) : Nat := if isBackref ch then tokLen ch else 1

/-- The length of the decompression of a compressed stream. -/
def srcConsumed (b : List Nat) : Nat := (b.map symSrcLen).sum

/-- The amended bounded-match invariant: every match token's distance is
at most the number of source symbols the *preceding* symbols decompress
to (their `srcConsumed`), i.e. a match never refers before the start of
the reconstructed output. -/
def distOk (l : List Nat) : Prop :=
  ∀ k, k < l.length → isBackref (l.getD k 0) = true →
    tokDist (l.getD k 0) ≤ srcConsumed (l.take k)

/-- A byte of the base-62 alphabet `[0-9A-Za-z]`. -/
def validB62 (b : Nat) : Bool :=
  (48 ≤ b ∧ b ≤ 57) ∨ (65 ≤ b ∧ b ≤ 90) ∨ (97 ≤ b ∧ b ≤ 122)

/-- A sequence of `OUT` stores at consecutive positions. -/
def writeSeq (buf : List Nat) (len pos : Nat) : List Nat → List Nat
  | [] => buf
  | v :: vs => writeSeq (outW buf len pos v) len (pos + 1) vs

/-- An alphanumeric byte (`A-Z`, `a-z` or `0-9`). -/
def isAlnum (d : Nat) : Bool :=
  (65 ≤ d ∧ d ≤ 90) ∨ (97 ≤ d ∧ d ≤ 122) ∨ (48 ≤ d ∧ d ≤ 57)

/-- The shape hypothesis of claim C6: a leading `[A-Za-z]` scalar
followed by `[A-Za-z0-9]` scalars (vacuously true of the empty
sequence). -/
def identLike (s : List Nat) : Bool :=
  match s with
  | [] => true
  | c :: rest =>
    ((65 ≤ c ∧ c ≤ 90) ∨ (97 ≤ c ∧ c ≤ 122)) && rest.all isAlnum

/-- The trimmed byte string and returned length of the first revision's
encoder. -/
def encBytes (enclen : Nat) (name : List Nat) : List Nat :=
  (wfunencode enclen name).1.take (wfunencode enclen name).2

/-- The trimmed byte string of the second revision's (sweep) encoder. -/
def encBytes2 (enclen : Nat) (name : List Nat) : List Nat :=
  (wfunencode2 enclen name).1.take (wfunencode2 enclen name).2

/-! ## Concrete evaluations settling claims -/

set_option maxRecDepth 40000

/-- C3: `wfunencode` maps each reference input to exactly the listed
output: `"foo" ↦ "foo"`, `"foo_bar" ↦ "foobar_H7"`,
`"supercalifragilisticexpialidocious" ↦` itself,
`"bücher" ↦ "bcher_eL"`, `"hörbücher" ↦ "hrbcher_5S0u0"`,
`"_" ↦ "C1_"`, `" " ↦ "A0_"`, `"自転車" ↦ "qeE4K2A1_"`,
`"велосипед" ↦ "FH420EHL9G_"` (inputs and outputs as scalar/byte
lists). -/
theorem c3_reference_vectors :
    encBytes 40 [102, 111, 111] = [102, 111, 111] ∧
    encBytes 40 [102, 111, 111, 95, 98, 97, 114] =
      [102, 111, 111, 98, 97, 114, 95, 72, 55] ∧
    encBytes 40 [115, 117, 112, 101, 114, 99, 97, 108, 105, 102, 114, 97,
        103, 105, 108, 105, 115, 116, 105, 99, 101, 120, 112, 105, 97,
        108, 105, 100, 111, 99, 105, 111, 117, 115] =
      [115, 117, 112, 101, 114, 99, 97, 108, 105, 102, 114, 97, 103, 105,
        108, 105, 115, 116, 105, 99, 101, 120, 112, 105, 97, 108, 105,
        100, 111, 99, 105, 111, 117, 115] ∧
    encBytes 40 [98, 252, 99, 104, 101, 114] =
      [98, 99, 104, 101, 114, 95, 101, 76] ∧
    encBytes 40 [104, 246, 114, 98, 252, 99, 104, 101, 114] =
      [104, 114, 98, 99, 104, 101, 114, 95, 53, 83, 48, 117, 48] ∧
    encBytes 40 [95] = [67, 49, 95] ∧
    encBytes 40 [32] = [65, 48, 95] ∧
    encBytes 40 [33258, 36578, 36554] =
      [113, 101, 69, 52, 75, 50, 65, 49, 95] ∧
    encBytes 40 [1074, 1077, 1083, 1086, 1089, 1080, 1087, 1077, 1076] =
      [70, 72, 52, 50, 48, 69, 72, 76, 57, 71, 95] :=
  ⟨by decide, by decide, by decide, by decide, by decide, by decide,
    by decide, by decide, by decide⟩

/-- C7 (counter-evaluation): `"8gO_"` decodes through the Bootstring
layer to the single symbol stream `[0xD800]` — a match token whose
distance 1 exceeds the 0 symbols emitted so far — yet `wfundecode`
returns 4 (copying from memory before the buffer, which the model reads
as zeros) instead of `FUNYCODE_ERR`: `decompress` has no failure path,
so the `if (namepos == FUNYCODE_ERR)` test after it can never fire. -/
theorem c7_no_error_on_bad_match :
    wfundecode 16 [56, 103, 79, 95] = some (List.replicate 16 0, 4) := by
  decide

/-- C10 (counter-evaluation): on `"abcdabcda"` the final match runs to
the end of the source and the advance loop re-hashes positions 7 and 8
of the 9-symbol source, applying the fingerprint hash where `p + 3 > 9`
— an out-of-bounds read of the source. -/
theorem c10_hash_reads_past_end :
    compressOOB [97, 98, 99, 100, 97, 98, 99, 100, 97] = true := by
  decide

/-- C1 counterexample: for the well-formed single-scalar input `[1]`
(U+0001), the suffix delta is negative (`1 - 22 = -21`), `put` skips
the digit write, the encoder emits the byte `0` placeholder followed by
`'_'`, and decoding that fails — so `decode (encode [1]) ≠ [1]`. -/
theorem c1_ce_control_scalar :
    wfundecode 8 (encBytes 8 [1]) = none := by
  decide

/-- C2 counterexample: `wfunencode` on the single scalar `'['` (91)
yields `"81_"`, which starts with a digit and so does not match
`[A-Za-z][0-9A-Za-z_]*`. -/
theorem c2_ce_leading_digit :
    matchesIdent (encBytes 8 [91]) = false := by
  decide

/-- C4 counterexample: on `"0a0"` the sort-strategy encoder emits
`"a0_m0"` (length 5) but the sweep-strategy encoder emits `"a0_m02"`
(length 6): the sweep's counting chain falls through to the emission
test, so the basic digit `'0'` equal to the sweep target `n = 48` is
emitted a second time. -/
theorem c4_ce_basic_digit_double_emit :
    (wfunencode2 8 [48, 97, 48]).2 ≠ (wfunencode 8 [48, 97, 48]).2 := by
  decide

/-- C5 counterexample: compressing `"xyzwabcdabcdabcdxyzwa"` emits at
stream index 9 a match token of distance 16 (referring to the `"xyzw"`
consumed by earlier tokens), and `16 > 9`: a match distance can exceed
the token's position in the compressed stream. -/
theorem c5_ce_dist_exceeds_index :
    distLeIdx (compressOut [120, 121, 122, 119, 97, 98, 99, 100, 97, 98,
      99, 100, 97, 98, 99, 100, 120, 121, 122, 119, 97]) = false := by
  decide

/-- C6 counterexample: `"abcdabcdabcd"` consists solely of letters, yet
the compressor replaces its second half by a match token, which is not
a basic character, so the encoder emits `"abcd_AYt7" ≠ s`. -/
theorem c6_ce_repeated_letters :
    encBytes 16 [97, 98, 99, 100, 97, 98, 99, 100, 97, 98, 99, 100] ≠
      [97, 98, 99, 100, 97, 98, 99, 100, 97, 98, 99, 100] := by
  decide

/-- C8 counterexample: in the first revision, the suffix `"z"` (of
`"z_"`) is a truncated delta stream — its last digit 61 is above every
threshold — yet `wfundecode` reads the virtual digit 0 past the
effective length, terminates the delta, and succeeds (decoding to
`"S"`) instead of returning `FUNYCODE_ERR`. -/
theorem c8_ce_truncated_delta_accepted :
    wfundecode 8 [122, 95] ≠ none := by
  decide

/-! ## Buffer-write infrastructure -/

theorem outW_length (buf : List Nat) (len pos v : Nat) :
    (outW buf len pos v).length = buf.length := by
  simp only [outW]
  split <;> simp

theorem writeSeq_length (vs : List Nat) (buf : List Nat) (len pos : Nat) :
    (writeSeq buf len pos vs).length = buf.length := by
  induction vs generalizing buf pos with
  | nil => rfl
  | cons v vs ih => rw [writeSeq, ih, outW_length]

theorem outW_take_of_le (buf : List Nat) (len pos v k : Nat)
    (hk : k ≤ pos) : (outW buf len pos v).take k = buf.take k := by
  simp only [outW]
  split
  · by_cases hb : pos < buf.length
    · rw [List.set_eq_take_cons_drop _ hb]
      rw [List.take_append_eq_append_take]
      rw [List.length_take]
      have h1 : k - min pos buf.length = 0 := by omega
      rw [h1]
      simp [List.take_take, Nat.min_eq_left hk]
    · rw [List.set_eq_of_length_le (by omega)]
  · rfl

theorem writeSeq_take_of_le (vs : List Nat) (buf : List Nat)
    (len pos k : Nat) (hk : k ≤ pos) :
    (writeSeq buf len pos vs).take k = buf.take k := by
  induction vs generalizing buf pos with
  | nil => rfl
  | cons v vs ih =>
    rw [writeSeq, ih _ _ (by omega), outW_take_of_le _ _ _ _ _ hk]

/-- `writeSeq` into a buffer of length `len`, entirely in bounds,
overwrites exactly the written region. -/
theorem writeSeq_spec (vs : List Nat) (buf : List Nat) (len pos : Nat)
    (hbl : buf.length = len) (hfits : pos + vs.length ≤ len) :
    writeSeq buf len pos vs =
      buf.take pos ++ vs ++ buf.drop (pos + vs.length) := by
  induction vs generalizing buf pos with
  | nil => simp [writeSeq]
  | cons v vs ih =>
    rw [writeSeq]
    have hlt : pos < len := by simp at hfits; omega
    have hset : outW buf len pos v =
        buf.take pos ++ v :: buf.drop (pos + 1) := by
      simp only [outW, if_pos hlt]
      exact List.set_eq_take_cons_drop v (by omega)
    rw [ih (outW buf len pos v) (pos + 1)
      (by rw [outW_length]; exact hbl) (by simp at hfits ⊢; omega)]
    rw [hset]
    have hlen1 : (buf.take pos ++ v :: buf.drop (pos + 1)).take (pos + 1) =
        buf.take pos ++ [v] := by
      rw [List.take_append_eq_append_take, List.length_take]
      have : min pos buf.length = pos := by omega
      rw [this]
      have : pos + 1 - pos = 1 := by omega
      rw [this]
      simp [List.take_take]
    have hlen2 : (buf.take pos ++ v :: buf.drop (pos + 1)).drop
        (pos + 1 + vs.length) = buf.drop (pos + 1 + vs.length) := by
      rw [List.drop_append_eq_append_drop, List.length_take]
      have : min pos buf.length = pos := by omega
      rw [this]
      have h0 : pos + 1 + vs.length - pos = vs.length + 1 := by omega
      rw [h0]
      have h1 : List.drop (pos + 1 + vs.length) (buf.take pos) = [] := by
        apply List.drop_eq_nil_of_le
        rw [List.length_take]
        omega
      rw [h1, List.nil_append]
      rw [List.drop_succ_cons]
      rw [List.drop_drop]
      try congr 1
      try omega
    rw [hlen1, hlen2]
    have : pos + (v :: vs).length = pos + 1 + vs.length := by simp; omega
    rw [this]
    simp

/-! ## Claim C6: prefix idempotence (amended) -/

/-- On an all-alphanumeric tail with a non-zero output position, the
basic pass copies every symbol and collects no codes. -/
theorem basicGo_alnum (enclen : Nat) (rest : List Nat)
    (namepos encpos : Nat) (enc : List Nat) (codes : List (Nat × Nat))
    (hall : rest.all isAlnum = true) (hnz : encpos ≠ 0) :
    basicGo enclen rest namepos enc encpos codes =
      (writeSeq enc enclen encpos rest, encpos + rest.length, codes) := by
  induction rest generalizing namepos encpos enc with
  | nil => rfl
  | cons d rest ih =>
    simp only [List.all_cons, Bool.and_eq_true] at hall
    have hbasic : isBasicSym d (decide (encpos ≠ 0)) = true := by
      simp only [isBasicSym, isAlnum] at hall ⊢
      simp only [decide_eq_true_eq] at *
      rcases hall.1 with h | h | h
      · tauto
      · tauto
      · refine Or.inr (Or.inr ⟨h.1, h.2, ?_⟩)
        simpa using hnz
    rw [basicGo]
    simp only [hbasic]
    rw [if_pos (by simpa using hbasic)]
    rw [ih (namepos + 1) (encpos + 1) _ hall.2 (by omega)]
    simp only [writeSeq, List.length_cons, Prod.mk.injEq, true_and,
      and_true]
    omega

/-- C6 (amended): if every scalar of `s` is `[A-Za-z]` (and `[0-9]` in
non-leading positions) *and the compressor leaves `s` unchanged*, then
`wfunencode` returns `s` itself.  (The original claim, without the
compressor condition, is refuted by `c6_ce_repeated_letters`: repeated
letters produce match tokens, which are encoded in a suffix.) -/
theorem c6_ident_fixed (s : List Nat) (cap : Nat)
    (hident : identLike s = true) (hfix : compressOut s = s)
    (hcap : s.length ≤ cap) :
    (wfunencode cap s).2 = s.length ∧
    (wfunencode cap s).1.take s.length = s := by
  unfold wfunencode
  rw [hfix]
  dsimp only
  cases s with
  | nil =>
    simp [basicGo, outW_take_of_le]
  | cons c rest =>
    simp only [identLike, Bool.and_eq_true] at hident
    have hc : isBasicSym c (decide ((0 : Nat) ≠ 0)) = true := by
      simp only [isBasicSym, decide_eq_true_eq] at *
      tauto
    rw [basicGo]
    rw [if_pos hc]
    rw [basicGo_alnum cap rest 1 1 _ [] hident.2 (by omega)]
    have hws : writeSeq (outW (List.replicate cap 0) cap 0 c) cap 1 rest =
        writeSeq (List.replicate cap 0) cap 0 (c :: rest) := rfl
    simp only [List.isEmpty_nil]
    rw [if_pos trivial]
    dsimp only
    simp only [List.length_cons] at hcap ⊢
    refine ⟨by omega, ?_⟩
    rw [outW_take_of_le _ _ _ _ _ (by omega)]
    rw [hws, writeSeq_spec _ _ _ _ (by simp) (by simp; omega)]
    simp

/-! ## Claim C8: suffix error handling (amended) -/

/-- An in-bounds digit read that does not report `-1` saw an alphabet
byte. -/
theorem getDigit_nonneg_valid (enc : List Nat) (len pos : Nat)
    (hin : pos < len) (h : 0 ≤ getDigit enc len pos) :
    validB62 (enc.getD pos 0) = true := by
  simp only [getDigit, if_pos hin] at h
  simp only [validB62]
  split at h
  · rename_i hc
    simp only [decide_eq_true_eq]
    tauto
  · split at h
    · rename_i hc
      simp only [decide_eq_true_eq]
      tauto
    · split at h
      · rename_i hc
        simp only [decide_eq_true_eq]
        tauto
      · omega

/-- Every in-bounds byte consumed by a successful `decodeDeltaGo` run is
an alphabet byte. -/
theorem decodeDeltaGo_reads_valid (enc : List Nat) (len base : Nat)
    (bias : Int) :
    ∀ fuel pos delta w r,
      decodeDeltaGo enc len base bias fuel pos delta w = some r →
      ∀ p, pos ≤ p → p < r.1 → base + p < len →
      validB62 (enc.getD (base + p) 0) = true := by
  intro fuel
  induction fuel with
  | zero =>
    intro pos delta w r h p hp1 hp2 hp3
    obtain ⟨r1, r2⟩ := r
    rw [decodeDeltaGo] at h
    simp only [Option.some.injEq, Prod.mk.injEq] at h
    omega
  | succ fuel ih =>
    intro pos delta w r h p hp1 hp2 hp3
    rw [decodeDeltaGo] at h
    split at h
    · exact absurd h (by simp)
    · rename_i hv0
      simp only [not_lt] at hv0
      have hv0' : (0 : Int) ≤ getDigit enc len (base + pos) := hv0
      split at h
      · obtain ⟨r1, r2⟩ := r
        simp only [Option.some.injEq, Prod.mk.injEq] at h
        have hpp : p = pos := by omega
        subst hpp
        exact getDigit_nonneg_valid enc len (base + p) hp3 hv0'
      · rcases Nat.eq_or_lt_of_le hp1 with hpp | hlt
        · subst hpp
          exact getDigit_nonneg_valid enc len (base + pos) hp3 hv0'
        · exact ih (pos + 1) _ _ r h p hlt hp2 hp3

/-- Every in-bounds byte consumed by a successful `decodeDelta` is an
alphabet byte. -/
theorem decodeDelta_reads_valid (enc : List Nat) (len base : Nat)
    (bias : Int) (r : Nat × Int) (h : decodeDelta enc len base bias = some r)
    (p : Nat) (hp : p < r.1) (hin : base + p < len) :
    validB62 (enc.getD (base + p) 0) = true :=
  decodeDeltaGo_reads_valid enc len base bias (len - base + 1) 0 0 1 r h p
    (Nat.zero_le p) hp hin

/-- With a non-alphabet byte at position `j` of the suffix region still
ahead, the suffix-decoding loop must eventually consume it and fail. -/
theorem decSuffixGo_invalid (enc : List Nat) (enclen encpos j : Nat)
    (hj2 : j < enclen) (hbad : validB62 (enc.getD j 0) = false) :
    ∀ fuel buf buflen namepos bias last i first,
      encpos + i ≤ j → enclen - encpos - i < fuel →
      decSuffixGo enc enclen encpos fuel buf buflen namepos bias last i
        first = none := by
  intro fuel
  induction fuel with
  | zero =>
    intro buf buflen namepos bias last i first hji hfu
    omega
  | succ fuel ih =>
    intro buf buflen namepos bias last i first hji hfu
    rw [decSuffixGo]
    rw [if_pos (show i < enclen - encpos by omega)]
    cases hdec : decodeDelta enc enclen (encpos + i) bias with
    | none => rfl
    | some r =>
      obtain ⟨dlen, delta⟩ := r
      have hlen1 : 1 ≤ dlen :=
        decodeDelta_count_pos enc enclen (encpos + i) bias (dlen, delta) hdec
      have hjge : encpos + i + dlen ≤ j := by
        by_contra hlt
        have hv := decodeDelta_reads_valid enc enclen (encpos + i) bias
          (dlen, delta) hdec (j - (encpos + i)) (by simp; omega)
          (by omega)
        rw [show encpos + i + (j - (encpos + i)) = j by omega] at hv
        rw [hv] at hbad
        exact absurd hbad (by simp)
      exact ih _ _ _ _ _ (i + dlen) _ (by omega) (by omega)

/-- In the second revision's delta decoder a successful run stays in
bounds: a non-terminal digit is valid hence in bounds, and the terminal
digit is valid too, because an out-of-bounds read produces the byte `0`,
which `decode_value` rejects. -/
theorem decodeDelta2Go_inbounds (buf : List Nat) (len pos : Nat)
    (bias : Int) :
    ∀ fuel i delta w r,
      pos + i + fuel = len + 1 → pos + i ≤ len →
      decodeDelta2Go buf len pos bias fuel i delta w = some r →
      pos + r.1 ≤ len := by
  intro fuel
  induction fuel with
  | zero =>
    intro i delta w r hinv hle h
    omega
  | succ fuel ih =>
    intro i delta w r hinv hle h
    rw [decodeDelta2Go] at h
    split at h
    · exact absurd h (by simp)
    · rename_i hv0
      have hv0' : ¬ decodeValue (inR buf len (pos + i)) < 0 := hv0
      have hin : pos + i < len := by
        by_contra hge
        have h00 : inR buf len (pos + i) = 0 := by
          simp only [inR]
          rw [if_neg hge]
        rw [h00] at hv0'
        norm_num [decodeValue] at hv0'
      split at h
      · obtain ⟨r1, r2⟩ := r
        simp only [Option.some.injEq, Prod.mk.injEq] at h
        omega
      · exact ih (i + 1) _ _ r (by omega) (by omega) h

/-- C8 (amended): a non-alphabet byte strictly inside the suffix region
makes the first revision's `wfundecode` return `FUNYCODE_ERR` (this
covers a second separator underscore); and in the second revision a
delta run in a successful `decode` lies entirely within the input — a
truncated delta stream is rejected there, because the out-of-bounds
read `IN(...) = 0` is not a valid digit.  (The first revision instead
completes a truncated final delta with virtual zero digits and
succeeds: `c8_ce_truncated_delta_accepted`.) -/
theorem c8_suffix_errors :
    (∀ (namelen : Nat) (enc : List Nat) (j : Nat),
      (splitEnc enc).2.1 ≤ j → j < (splitEnc enc).2.2 →
      validB62 (enc.getD j 0) = false → wfundecode namelen enc = none) ∧
    (∀ (buf : List Nat) (len pos : Nat) (bias : Int) (r : Nat × Int),
      decodeDelta2 buf len pos bias = some r → pos + r.1 ≤ len) := by
  constructor
  · intro namelen enc j hj1 hj2 hbad
    unfold wfundecode
    dsimp only
    rw [decSuffixGo_invalid enc (splitEnc enc).2.2 (splitEnc enc).2.1 j
      hj2 hbad ((splitEnc enc).2.2 - (splitEnc enc).2.1 + 1) _ _ _ _ _ 0
      true (by omega) (by omega)]
  · intro buf len pos bias r h
    by_cases hp : pos ≤ len
    · exact decodeDelta2Go_inbounds buf len pos bias (len - pos + 1) 0 0 1
        r (by omega) (by omega) h
    · exfalso
      rw [decodeDelta2] at h
      rw [show len - pos + 1 = 0 + 1 from by omega] at h
      rw [decodeDelta2Go] at h
      have h00 : inR buf len (pos + 0) = 0 := by
        simp only [inR]
        rw [if_neg (by omega)]
      rw [h00] at h
      norm_num [decodeValue] at h
      exact absurd h (by simp)

/-! ## Claim C5: the bounded-match invariant (amended) -/

theorem srcConsumed_append (l m : List Nat) :
    srcConsumed (l ++ m) = srcConsumed l + srcConsumed m := by
  simp [srcConsumed, List.sum_append]

theorem symSrcLen_pos (v : Nat) : 1 ≤ symSrcLen v := by
  simp only [symSrcLen, tokLen, MINCOPY]
  split <;> omega

theorem length_le_srcConsumed (l : List Nat) :
    l.length ≤ srcConsumed l := by
  induction l with
  | nil => simp [srcConsumed]
  | cons v l ih =>
    have := symSrcLen_pos v
    simp only [srcConsumed, List.map_cons, List.sum_cons,
      List.length_cons] at *
    omega

theorem distOk_nil : distOk [] := by
  intro k hk
  simp at hk

theorem distOk_snoc (l : List Nat) (v : Nat) (h : distOk l)
    (hv : isBackref v = true → tokDist v ≤ srcConsumed l) :
    distOk (l ++ [v]) := by
  intro k hk htok
  simp only [List.length_append, List.length_cons, List.length_nil] at hk
  rcases Nat.lt_or_ge k l.length with hlt | hge
  · rw [List.getD_append _ _ _ _ hlt] at htok ⊢
    rw [List.take_append_eq_append_take]
    rw [show k - l.length = 0 from by omega]
    simpa using h k hlt htok
  · have hk' : k = l.length := by omega
    subst hk'
    rw [List.getD_append_right _ _ _ _ (le_refl _)] at htok ⊢
    simp only [Nat.sub_self, List.getD_cons_zero] at htok ⊢
    rw [List.take_left]
    exact hv htok

theorem distOk_append_lits (l m : List Nat) (h : distOk l)
    (hm : ∀ c ∈ m, isBackref c = false) : distOk (l ++ m) := by
  induction m using List.reverseRecOn with
  | nil => simpa using h
  | append_singleton m v ih =>
    rw [show l ++ (m ++ [v]) = (l ++ m) ++ [v] from by simp]
    refine distOk_snoc _ _ (ih ?_) ?_
    · intro c hc
      exact hm c (by simp [hc])
    · intro htok
      have : isBackref v = false := hm v (by simp)
      rw [this] at htok
      cases htok

/-- Setting one slot to a bounded value preserves a pointwise bound. -/
theorem getD_set_le (l : List Nat) (h v bound : Nat)
    (hold : ∀ j, l.getD j 0 ≤ bound) (hv : v ≤ bound) :
    ∀ i, (l.set h v).getD i 0 ≤ bound := by
  intro i
  simp only [List.getD_eq_getElem?_getD, List.getElem?_set]
  split
  · split
    · simpa using hv
    · simp
  · simpa [List.getD_eq_getElem?_getD] using hold i

/-- The advance loop writes only positions in `[srcpos, srcpos + len)`
into the table. -/
theorem advanceHtab_le (src : List Nat) :
    ∀ len htab h srcpos B, (∀ i, htab.getD i 0 ≤ B) →
      srcpos + len ≤ B + 1 → srcpos ≤ B →
      ∀ i, (advanceHtab src htab h srcpos len).getD i 0 ≤ B := by
  intro len
  induction len using Nat.strong_induction_on with
  | _ len ih =>
    intro htab h srcpos B hold hlen hsp i
    match len with
    | 0 => exact getD_set_le htab h srcpos _ hold hsp i
    | 1 => exact getD_set_le htab h srcpos _ hold hsp i
    | len + 2 =>
      rw [advanceHtab]
      exact ih (len + 1) (by omega) _ _ _ B
        (getD_set_le htab h srcpos _ hold hsp) (by omega) (by omega) i

/-- One in-bounds `OUT` extends the written region by its value. -/
theorem outW_take_succ (buf : List Nat) (len pos v : Nat)
    (hb : buf.length = len) (hlt : pos < len) :
    (outW buf len pos v).take (pos + 1) = buf.take pos ++ [v] := by
  have h := writeSeq_spec [v] buf len pos hb (by simp; omega)
  simp only [writeSeq] at h
  rw [h]
  rw [List.take_append_eq_append_take]
  have hl : (buf.take pos ++ [v]).length = pos + 1 := by
    simp
    omega
  rw [hl, Nat.sub_self, List.take_zero, List.append_nil]
  exact List.take_of_length_le (le_of_eq hl)

/-- `compressTail` is a `writeSeq` of the remaining literals. -/
theorem compressTail_eq (rest : List Nat) :
    ∀ dst dstlen dstpos,
      compressTail rest dst dstlen dstpos =
        (writeSeq dst dstlen dstpos rest, dstpos + rest.length) := by
  induction rest with
  | nil => intro dst dstlen dstpos; simp [compressTail, writeSeq]
  | cons x rest ih =>
    intro dst dstlen dstpos
    rw [compressTail, writeSeq, ih]
    simp
    omega

/-- The final literal copy preserves the bounded-match invariant: the
appended symbols are source scalars, which are outside the match band
for well-formed input. -/
theorem compressTail_distOk (src : List Nat) (srclen : Nat)
    (hwf : ∀ c ∈ src, isBackref c = false) (hsl : srclen = src.length)
    (dst : List Nat) (dstlen srcpos dstpos : Nat)
    (hA : dst.length = dstlen) (hdl : srclen ≤ dstlen)
    (hC : dstpos ≤ srcpos) (hS : srcpos ≤ srclen)
    (hE : distOk (dst.take dstpos)) :
    distOk ((compressTail (src.drop srcpos) dst dstlen dstpos).1.take
      (compressTail (src.drop srcpos) dst dstlen dstpos).2) := by
  rw [compressTail_eq]
  dsimp only
  have hrl : (src.drop srcpos).length = srclen - srcpos := by
    simp [hsl]
  have hfits : dstpos + (src.drop srcpos).length ≤ dstlen := by
    omega
  rw [writeSeq_spec _ _ _ _ hA hfits]
  have hlA : (dst.take dstpos ++ src.drop srcpos).length =
      dstpos + (src.drop srcpos).length := by
    simp
    omega
  rw [List.take_append_eq_append_take, hlA, Nat.sub_self, List.take_zero,
    List.append_nil]
  rw [List.take_of_length_le (le_of_eq hlA)]
  exact distOk_append_lits _ _ hE fun c hc =>
    hwf c (List.mem_of_mem_drop hc)

/-- `matchLenGo` adds at most its budget. -/
theorem matchLenGo_le (src : List Nat) (srclen a b : Nat) :
    ∀ left len, matchLenGo src srclen a b len left ≤ len + left := by
  intro left
  induction left with
  | zero => intro len; rw [matchLenGo]; omega
  | succ left ih =>
    intro len
    rw [matchLenGo]
    split
    · split
      · omega
      · have := ih (len + 1)
        omega
    · omega

/-- `matchLen` is at most `MAXCOPY`. -/
theorem matchLen_le (src : List Nat) (srclen a b : Nat) :
    matchLen src srclen a b ≤ MAXCOPY := by
  have := matchLenGo_le src srclen a b MAXCOPY 0
  simpa [matchLen] using this

/-- A match never extends past the end of the source. -/
theorem matchLenGo_add_le (src : List Nat) (srclen a b : Nat) :
    ∀ left len, a + matchLenGo src srclen a b len left ≤
      max (a + len) srclen := by
  intro left
  induction left with
  | zero =>
    intro len
    rw [matchLenGo]
    omega
  | succ left ih =>
    intro len
    rw [matchLenGo]
    split
    · split
      · omega
      · have := ih (len + 1)
        rename_i hin _
        omega
    · omega

/-- `matchLen` keeps `srcpos + len ≤ srclen` whenever
`srcpos ≤ srclen`. -/
theorem matchLen_add_le (src : List Nat) (srclen a b : Nat)
    (ha : a ≤ srclen) : a + matchLen src srclen a b ≤ srclen := by
  have := matchLenGo_add_le src srclen a b MAXCOPY 0
  simp only [matchLen] at *
  omega

/-- The main compression loop preserves the bounded-match invariant. -/
theorem compressMain_distOk (src : List Nat) (srclen : Nat)
    (hwf : ∀ c ∈ src, isBackref c = false) (hsl : srclen = src.length) :
    ∀ fuel dst dstlen srcpos dstpos htab,
      dst.length = dstlen → srclen ≤ dstlen →
      dstpos ≤ srcpos → srcpos ≤ srclen →
      srcpos ≤ srcConsumed (dst.take dstpos) →
      distOk (dst.take dstpos) →
      (∀ i, htab.getD i 0 ≤ srcpos) →
      distOk ((compressMain src srclen fuel dst dstlen srcpos dstpos
          htab).1.take
        (compressMain src srclen fuel dst dstlen srcpos dstpos htab).2) := by
  intro fuel
  induction fuel with
  | zero =>
    intro dst dstlen srcpos dstpos htab hA hdl hC hS hD hE hF
    rw [compressMain]
    exact compressTail_distOk src srclen hwf hsl dst dstlen srcpos dstpos
      hA hdl hC hS hE
  | succ fuel ih =>
    intro dst dstlen srcpos dstpos htab hA hdl hC hS hD hE hF
    rw [compressMain]
    split
    · rename_i hcond
      have hcond4 : srcpos + 4 < srclen := by
        simpa [MINCOPY] using hcond
      have hdp : dstpos < dstlen := by omega
      by_cases hm : MINDIST ≤ srcpos - htab.getD (hashIdx src srcpos) 0 ∧
          srcpos - htab.getD (hashIdx src srcpos) 0 ≤ MAXDIST ∧
          MINCOPY ≤ matchLen src srclen srcpos
            (htab.getD (hashIdx src srcpos) 0)
      · rw [if_pos hm]
        set h0 := hashIdx src srcpos with hh0
        set q := htab.getD h0 0 with hq
        set len := matchLen src srclen srcpos q with hlendef
        set d := srcpos - q with hd
        set tok := BACKREF + (len - MINCOPY) + (d - MINDIST) * 16 with htok
        have hq_le : q ≤ srcpos := hF h0
        have hlen19 : len ≤ 19 := by
          have := matchLen_le src srclen srcpos q
          simpa [MAXCOPY] using this
        have hlen4 : 4 ≤ len := by
          have := hm.2.2
          simpa [MINCOPY] using this
        have hd1 : 1 ≤ d := by
          have := hm.1
          simpa [MINDIST] using this
        have hd128 : d ≤ 128 := by
          have := hm.2.1
          simpa [MAXDIST] using this
        have hsplen : srcpos + len ≤ srclen := by
          have := matchLen_add_le src srclen srcpos q (by omega)
          omega
        have htok_back : isBackref tok = true := by
          simp only [isBackref, BACKREF, htok, MINCOPY, MINDIST,
            decide_eq_true_eq]
          omega
        have htok_dist : tokDist tok = d := by
          simp only [tokDist, BACKREF, htok, MINCOPY, MINDIST]
          omega
        have htok_len : tokLen tok = len := by
          simp only [tokLen, BACKREF, htok, MINCOPY, MINDIST]
          omega
        have htake : (outW dst dstlen dstpos tok).take (dstpos + 1) =
            dst.take dstpos ++ [tok] := outW_take_succ dst dstlen dstpos
          tok hA hdp
        have hsym : symSrcLen tok = len := by
          simp only [symSrcLen, htok_back, if_pos, htok_len]
        have hcons : srcConsumed (dst.take dstpos ++ [tok]) =
            srcConsumed (dst.take dstpos) + len := by
          rw [srcConsumed_append]
          simp [srcConsumed, hsym]
        refine ih (outW dst dstlen dstpos tok) dstlen (srcpos + len)
          (dstpos + 1) _ (by rw [outW_length]; exact hA) hdl
          (by omega) (by omega) ?_ ?_ ?_
        · rw [htake, hcons]
          omega
        · rw [htake]
          refine distOk_snoc _ _ hE fun _ => ?_
          rw [htok_dist]
          omega
        · intro i
          exact advanceHtab_le src len htab h0 srcpos (srcpos + len)
            (fun j => by have := hF j; omega) (by omega) (by omega) i
      · rw [if_neg hm]
        have hv : isBackref (src.getD srcpos 0) = false := by
          apply hwf
          have hlt : srcpos < src.length := by omega
          rw [List.getD_eq_getElem _ _ hlt]
          exact List.getElem_mem hlt
        have htake : (outW dst dstlen dstpos (src.getD srcpos 0)).take
            (dstpos + 1) = dst.take dstpos ++ [src.getD srcpos 0] :=
          outW_take_succ dst dstlen dstpos _ hA hdp
        have hsym : 1 ≤ symSrcLen (src.getD srcpos 0) :=
          symSrcLen_pos _
        refine ih (outW dst dstlen dstpos (src.getD srcpos 0)) dstlen
          (srcpos + 1) (dstpos + 1) _ (by rw [outW_length]; exact hA) hdl
          (by omega) (by omega) ?_ ?_ ?_
        · have hsymeq : srcConsumed [src.getD srcpos 0] =
              symSrcLen (src.getD srcpos 0) := by
            simp [srcConsumed]
          rw [htake, srcConsumed_append, hsymeq]
          omega
        · rw [htake]
          refine distOk_snoc _ _ hE fun hcontra => ?_
          rw [hv] at hcontra
          cases hcontra
        · intro i
          exact advanceHtab_le src 1 htab (hashIdx src srcpos) srcpos
            (srcpos + 1) (fun j => by have := hF j; omega) (by omega)
            (by omega) i
    · rename_i hcond
      exact compressTail_distOk src srclen hwf hsl dst dstlen srcpos
        dstpos hA hdl hC hS hE

/-- The priming loop emits literals one-for-one while seeding the
table, preserving all the main-loop invariants. -/
theorem compressPrime_inv (src : List Nat) (srclen : Nat)
    (hwf : ∀ c ∈ src, isBackref c = false) (hsl : srclen = src.length) :
    ∀ left dst dstlen srcpos dstpos htab,
      dst.length = dstlen → srclen ≤ dstlen →
      dstpos ≤ srcpos → srcpos ≤ srclen →
      srcpos ≤ srcConsumed (dst.take dstpos) →
      distOk (dst.take dstpos) →
      (∀ i, htab.getD i 0 ≤ srcpos) →
      (compressPrime src srclen dst dstlen srcpos dstpos htab left).1.length
          = dstlen ∧
      (compressPrime src srclen dst dstlen srcpos dstpos htab left).2.2.1 ≤
        (compressPrime src srclen dst dstlen srcpos dstpos htab left).2.1 ∧
      (compressPrime src srclen dst dstlen srcpos dstpos htab left).2.1 ≤
        srclen ∧
      (compressPrime src srclen dst dstlen srcpos dstpos htab left).2.1 ≤
        srcConsumed
          ((compressPrime src srclen dst dstlen srcpos dstpos htab
            left).1.take
          (compressPrime src srclen dst dstlen srcpos dstpos htab
            left).2.2.1) ∧
      distOk
        ((compressPrime src srclen dst dstlen srcpos dstpos htab
          left).1.take
        (compressPrime src srclen dst dstlen srcpos dstpos htab
          left).2.2.1) ∧
      (∀ i,
        (compressPrime src srclen dst dstlen srcpos dstpos htab
          left).2.2.2.getD i 0 ≤
        (compressPrime src srclen dst dstlen srcpos dstpos htab
          left).2.1) := by
  intro left
  induction left with
  | zero =>
    intro dst dstlen srcpos dstpos htab hA hdl hC hS hD hE hF
    rw [compressPrime]
    exact ⟨hA, hC, hS, hD, hE, hF⟩
  | succ left ih =>
    intro dst dstlen srcpos dstpos htab hA hdl hC hS hD hE hF
    rw [compressPrime]
    split
    · rename_i hcond
      have hcond4 : srcpos + 4 < srclen := by
        simpa [MINCOPY] using hcond
      have hdp : dstpos < dstlen := by omega
      have hv : isBackref (src.getD srcpos 0) = false := by
        apply hwf
        have hlt : srcpos < src.length := by omega
        rw [List.getD_eq_getElem _ _ hlt]
        exact List.getElem_mem hlt
      have htake : (outW dst dstlen dstpos (src.getD srcpos 0)).take
          (dstpos + 1) = dst.take dstpos ++ [src.getD srcpos 0] :=
        outW_take_succ dst dstlen dstpos _ hA hdp
      refine ih (outW dst dstlen dstpos (src.getD srcpos 0)) dstlen
        (srcpos + 1) (dstpos + 1) _ (by rw [outW_length]; exact hA) hdl
        (by omega) (by omega) ?_ ?_ ?_
      · have hsymeq : srcConsumed [src.getD srcpos 0] =
            symSrcLen (src.getD srcpos 0) := by
          simp [srcConsumed]
        have := symSrcLen_pos (src.getD srcpos 0)
        rw [htake, srcConsumed_append, hsymeq]
        omega
      · rw [htake]
        refine distOk_snoc _ _ hE fun hcontra => ?_
        rw [hv] at hcontra
        cases hcontra
      · exact getD_set_le htab (hashIdx src srcpos) srcpos (srcpos + 1)
          (fun j => by have := hF j; omega) (by omega)
    · exact ⟨hA, hC, hS, hD, hE, hF⟩

/-- C5 (amended): for well-formed input (no scalar in the match band),
every match token emitted by the compressor refers no farther back than
the number of source symbols consumed before it — `dist` is bounded by
the length of the *decompression* of the preceding symbols, not by the
token's index in the compressed stream (the latter is refuted by
`c5_ce_dist_exceeds_index`). -/
theorem c5_dist_bounded (src : List Nat)
    (hwf : ∀ c ∈ src, isBackref c = false) :
    distOk (compressOut src) := by
  unfold compressOut compress
  dsimp only
  have hp := compressPrime_inv src src.length hwf rfl MINCOPY
    (List.replicate src.length 0) src.length 0 0 (List.replicate 512 0)
    (by simp) (le_refl _) (le_refl _) (by simp)
    (by simp [srcConsumed]) (by simpa using distOk_nil)
    (by
      intro i
      rw [List.getD_eq_getElem?_getD, List.getElem?_replicate]
      split <;> simp)
  obtain ⟨h1, h2, h3, h4, h5, h6⟩ := hp
  exact compressMain_distOk src src.length hwf rfl src.length _ _ _ _ _
    h1 (le_refl _) h2 h3 h4 h5 h6

/-- Witness for `c5_dist_bounded` at the `"xyzwabcdabcdabcdxyzwa"`
input of the counterexample (whose token at index 9 is tight:
`dist = 16 = srcConsumed` of the 9 preceding symbols). -/
theorem c5_dist_bounded_witness :
    (∀ c ∈ ([120, 121, 122, 119, 97, 98, 99, 100, 97, 98, 99, 100, 97,
      98, 99, 100, 120, 121, 122, 119, 97] : List Nat),
      isBackref c = false) ∧
    distOk (compressOut [120, 121, 122, 119, 97, 98, 99, 100, 97, 98,
      99, 100, 97, 98, 99, 100, 120, 121, 122, 119, 97]) :=
  ⟨by decide, c5_dist_bounded _ (by decide)⟩

/-- Witness for `c8_suffix_errors`: the first conjunct at
`enc = "a_$"` (invalid suffix byte `'$'`), the second at the
single-digit suffix `"0"`. -/
theorem c8_suffix_errors_witness :
    wfundecode 4 [97, 95, 36] = none ∧ 0 + (1 : Nat) ≤ 1 :=
  ⟨c8_suffix_errors.1 4 [97, 95, 36] 2 (by decide) (by decide) (by decide),
    c8_suffix_errors.2 [48] 1 0 98 (1, 0) (by decide)⟩

/-- Witness for `c6_ident_fixed` at `s = "foo"`, `cap = 8`. -/
theorem c6_ident_fixed_witness :
    identLike [102, 111, 111] = true ∧
    compressOut [102, 111, 111] = [102, 111, 111] ∧
    ((wfunencode 8 [102, 111, 111]).2 = 3 ∧
      (wfunencode 8 [102, 111, 111]).1.take 3 = [102, 111, 111]) :=
  ⟨by decide, by decide,
    c6_ident_fixed [102, 111, 111] 8 (by decide) (by decide) (by decide)⟩

/-! ## Claim C9: the returned sizes are capacity-independent

The encoder threads its output buffer through `outW`/`putDigit` stores
but never reads it back, so every loop counter — and hence the returned
required length — is the same for every buffer capacity, and the bytes
written up to any common capacity agree.  The decoder builds the decoded
symbols in a scratch buffer of `max(namelen, 2 * enclen)` slots whose
meaningful region never exceeds `2 * enclen` slots; `decSuffixCore`
below is the capacity-free reference of that loop, and `decSuffixGo`
refines it for every capacity. -/

/-- The truncating remainder takes the dividend's sign. -/
theorem tmod_nonpos_of_nonpos (v n : Int) (hv : v ≤ 0) : v.tmod n ≤ 0 := by
  cases v with
  | ofNat m =>
    simp only [Int.ofNat_eq_natCast] at hv
    have h0 : m = 0 := by omega
    subst h0
    simp [Int.zero_tmod]
  | negSucc m =>
    unfold Int.tmod
    cases n <;> simp <;> norm_cast <;> exact Nat.zero_le _

/-- The insertion index `v.tmod (namepos + 1)` never exceeds
`namepos`. -/
theorem tmod_toNat_le (v : Int) (n : Nat) :
    (v.tmod ((n : Int) + 1)).toNat ≤ n := by
  by_cases hv : 0 ≤ v
  · have h1 : v.tmod ((n : Int) + 1) = v % ((n : Int) + 1) :=
      Int.tmod_eq_emod hv (by positivity)
    have h2 : v % ((n : Int) + 1) < (n : Int) + 1 :=
      Int.emod_lt_of_pos v (by positivity)
    omega
  · have := tmod_nonpos_of_nonpos v ((n : Int) + 1) (by omega)
    omega

/-- Inserting within the first part of an append stays in that part. -/
theorem insertIdx_append_left (l1 l2 : List Nat) (a : Nat) :
    ∀ n, n ≤ l1.length →
      (l1 ++ l2).insertIdx n a = l1.insertIdx n a ++ l2 := by
  induction l1 with
  | nil =>
    intro n hn
    simp only [List.length_nil, Nat.le_zero] at hn
    subst hn
    rfl
  | cons x l1 ih =>
    intro n hn
    cases n with
    | zero => rfl
    | succ m =>
      simp only [List.cons_append, List.insertIdx_succ_cons]
      rw [ih m (by simp only [List.length_cons] at hn; omega)]

/-- Two `OUT` stores of the same value at the same position agree on any
shared in-capacity region of two buffers. -/
theorem outW_take_congr (buf buf' : List Nat) (len len' pos v k : Nat)
    (hk : k ≤ len) (hk' : k ≤ len') (h : buf.take k = buf'.take k) :
    (outW buf len pos v).take k = (outW buf' len' pos v).take k := by
  by_cases hp : pos < k
  · rw [outW, if_pos (by omega), outW, if_pos (by omega)]
    rw [List.set_take, List.set_take, h]
  · rw [outW_take_of_le _ _ _ _ _ (by omega),
      outW_take_of_le _ _ _ _ _ (by omega), h]

/-- `put` agrees likewise on a shared in-capacity region. -/
theorem putDigit_take_congr (buf buf' : List Nat) (len len' pos : Nat)
    (v : Int) (k : Nat) (hk : k ≤ len) (hk' : k ≤ len')
    (h : buf.take k = buf'.take k) :
    (putDigit buf len pos v).take k = (putDigit buf' len' pos v).take k := by
  simp only [putDigit]
  split
  · exact outW_take_congr _ _ _ _ _ _ _ hk hk' h
  · exact h

/-- The basic pass returns the same `(encpos, codes)` for every capacity
and writes the same bytes on any shared in-capacity region. -/
theorem basicGo_congr (rest : List Nat) :
    ∀ namepos encpos codes enc enc' len len' k,
      k ≤ len → k ≤ len' → enc.take k = enc'.take k →
      (basicGo len rest namepos enc encpos codes).2 =
          (basicGo len' rest namepos enc' encpos codes).2 ∧
      (basicGo len rest namepos enc encpos codes).1.take k =
          (basicGo len' rest namepos enc' encpos codes).1.take k := by
  induction rest with
  | nil =>
    intro namepos encpos codes enc enc' len len' k hk hk' h
    exact ⟨rfl, h⟩
  | cons wc rest ih =>
    intro namepos encpos codes enc enc' len len' k hk hk' h
    rw [basicGo, basicGo]
    split
    · exact ih _ _ _ _ _ _ _ _ hk hk'
        (outW_take_congr _ _ _ _ _ _ _ hk hk' h)
    · exact ih _ _ _ _ _ _ _ _ hk hk' h

/-- The delta writer returns the same digit count for every capacity and
writes the same bytes on any shared in-capacity region. -/
theorem encodeDeltaGo_congr (base : Nat) (bias : Int) :
    ∀ fuel buf buf' len len' pos delta k,
      k ≤ len → k ≤ len' → buf.take k = buf'.take k →
      (encodeDeltaGo len base bias fuel buf pos delta).2 =
          (encodeDeltaGo len' base bias fuel buf' pos delta).2 ∧
      (encodeDeltaGo len base bias fuel buf pos delta).1.take k =
          (encodeDeltaGo len' base bias fuel buf' pos delta).1.take k := by
  intro fuel
  induction fuel with
  | zero =>
    intro buf buf' len len' pos delta k hk hk' h
    exact ⟨rfl, h⟩
  | succ fuel ih =>
    intro buf buf' len len' pos delta k hk hk' h
    rw [encodeDeltaGo, encodeDeltaGo]
    split
    · exact ⟨rfl, putDigit_take_congr _ _ _ _ _ _ _ hk hk' h⟩
    · exact ih _ _ _ _ _ _ _ hk hk'
        (putDigit_take_congr _ _ _ _ _ _ _ hk hk' h)

/-- `encode` likewise. -/
theorem encodeDelta_congr (buf buf' : List Nat) (len len' base : Nat)
    (bias delta : Int) (k : Nat) (hk : k ≤ len) (hk' : k ≤ len')
    (h : buf.take k = buf'.take k) :
    (encodeDelta buf len base bias delta).2 =
        (encodeDelta buf' len' base bias delta).2 ∧
    (encodeDelta buf len base bias delta).1.take k =
        (encodeDelta buf' len' base bias delta).1.take k := by
  exact encodeDeltaGo_congr base bias _ _ _ _ _ _ _ _ hk hk' h

/-- The suffix loop returns the same output position for every capacity
and writes the same bytes on any shared in-capacity region. -/
theorem suffixGo_congr (codes : List (Nat × Nat)) :
    ∀ enc enc' len len' encpos rlen bias last first k,
      k ≤ len → k ≤ len' → enc.take k = enc'.take k →
      (suffixGo len codes enc encpos rlen bias last first).2 =
          (suffixGo len' codes enc' encpos rlen bias last first).2 ∧
      (suffixGo len codes enc encpos rlen bias last first).1.take k =
          (suffixGo len' codes enc' encpos rlen bias last first).1.take k := by
  induction codes with
  | nil =>
    intro enc enc' len len' encpos rlen bias last first k hk hk' h
    exact ⟨rfl, h⟩
  | cons c rest ih =>
    intro enc enc' len len' encpos rlen bias last first k hk hk' h
    obtain ⟨wc, pos⟩ := c
    rw [suffixGo, suffixGo]
    obtain ⟨hE2, hE1⟩ := encodeDelta_congr enc enc' len len' encpos bias
      ((wc : Int) * ((rlen : Int) + 1) + (pos : Int) - last) k hk hk' h
    rw [← hE2]
    exact ih _ _ _ _ _ _ _ _ _ _ hk hk' hE1

/-- `wfunencode` returns the same required length for every capacity and
writes the same bytes on any shared in-capacity region. -/
theorem wfunencode_congr (name : List Nat) (cap cap' k : Nat)
    (hk : k ≤ cap) (hk' : k ≤ cap') :
    (wfunencode cap name).2 = (wfunencode cap' name).2 ∧
    (wfunencode cap name).1.take k = (wfunencode cap' name).1.take k := by
  rw [wfunencode, wfunencode]
  dsimp only
  have hrep : (List.replicate cap 0).take k =
      (List.replicate cap' (0 : Nat)).take k := by
    rw [List.take_replicate, List.take_replicate]
    congr 1
    omega
  obtain ⟨hB2, hB1⟩ := basicGo_congr (compressOut name) 0 0 [] _ _ cap cap'
    k hk hk' hrep
  rw [← hB2]
  set r := basicGo cap (compressOut name) 0 (List.replicate cap 0) 0 []
    with hrdef
  set r' := basicGo cap' (compressOut name) 0 (List.replicate cap' 0) 0 []
    with hrdef'
  split
  · exact ⟨rfl, outW_take_congr _ _ _ _ _ _ _ hk hk' hB1⟩
  · by_cases h1 : r.2.1 = 0
    · have h2 : ¬(r.2.1 ≠ 0) := not_not_intro h1
      simp only [if_neg h2, if_pos h1]
      obtain ⟨hS2, hS1⟩ := suffixGo_congr (adjustCodes (sortCodes r.2.2))
        r.1 r'.1 cap cap' r.2.1 r.2.1 INITIAL_BIAS
        ((INITIAL_N : Int) * ((r.2.1 : Int) + 1) -
          10 * ((r.2.1 : Int) + 1)) true k hk hk' hB1
      rw [← hS2]
      exact ⟨rfl, outW_take_congr _ _ _ _ _ _ _ hk hk'
        (outW_take_congr _ _ _ _ _ _ _ hk hk' hS1)⟩
    · have h2 : r.2.1 ≠ 0 := h1
      simp only [if_pos h2, if_neg h1]
      obtain ⟨hS2, hS1⟩ := suffixGo_congr (adjustCodes (sortCodes r.2.2))
        (outW r.1 cap r.2.1 95) (outW r'.1 cap' r.2.1 95) cap cap'
        (r.2.1 + 1) r.2.1 INITIAL_BIAS
        ((INITIAL_N : Int) * ((r.2.1 : Int) + 1) - 0) true k hk hk'
        (outW_take_congr _ _ _ _ _ _ _ hk hk' hB1)
      rw [← hS2]
      exact ⟨rfl, outW_take_congr _ _ _ _ _ _ _ hk hk' hS1⟩

/-- The prefix-output loop is a `writeSeq` advancing `namepos` by the
number of copied bytes. -/
theorem copyPrefixGo_eq (rest : List Nat) :
    ∀ buf buflen namepos,
      copyPrefixGo rest buf buflen namepos =
        (writeSeq buf buflen namepos rest, namepos + rest.length) := by
  induction rest with
  | nil => intro buf buflen namepos; simp [copyPrefixGo, writeSeq]
  | cons x rest ih =>
    intro buf buflen namepos
    rw [copyPrefixGo, ih]
    conv_rhs => rw [writeSeq]
    simp only [List.length_cons, Prod.mk.injEq, true_and]
    omega

/-- The capacity-free reference of the suffix-decoding loop: the scratch
buffer holds exactly the `namepos` decoded symbols, and insertion needs
no truncation. -/
def decSuffixCore (enc : List Nat) (enclen encpos : Nat) :
    Nat → List Nat → Nat → Int → Int → Nat → Bool →
      Option (List Nat × Nat)
  | 0, core, namepos, _, _, _, _ => some (core, namepos)
  | fuel + 1, core, namepos, bias, last, i, first =>
    if i < enclen - encpos then
      match decodeDelta enc enclen (encpos + i) bias with
      | none => none
      | some (len, delta) =>
        let v := delta + last
        let q := v.tdiv ((namepos : Int) + 1)
        let r := v.tmod ((namepos : Int) + 1)
        decSuffixCore enc enclen encpos fuel
          (core.insertIdx r.toNat q.toNat) (namepos + 1)
          (adapt delta (namepos + 1) first)
          (q * ((namepos : Int) + 2) + r + 1) (i + len) false
    else some (core, namepos)

/-- `decSuffixCore` keeps `core.length = namepos`. -/
theorem decSuffixCore_length (enc : List Nat) (enclen encpos : Nat) :
    ∀ fuel core namepos bias last i first p,
      core.length = namepos →
      decSuffixCore enc enclen encpos fuel core namepos bias last i
          first = some p →
      p.1.length = p.2 := by
  intro fuel
  induction fuel with
  | zero =>
    intro core namepos bias last i first p hlen h
    rw [decSuffixCore] at h
    simp only [Option.some.injEq] at h
    subst h
    exact hlen
  | succ fuel ih =>
    intro core namepos bias last i first p hlen h
    rw [decSuffixCore] at h
    split at h
    · cases hd : decodeDelta enc enclen (encpos + i) bias with
      | none => rw [hd] at h; exact absurd h (by simp)
      | some ld =>
        obtain ⟨len, delta⟩ := ld
        rw [hd] at h
        dsimp only at h
        refine ih _ _ _ _ _ _ _ ?_ h
        rw [List.length_insertIdx _ _ (by rw [hlen]; exact tmod_toNat_le _ _)]
        omega
    · simp only [Option.some.injEq] at h
      subst h
      exact hlen

/-- Refinement: on a scratch buffer of capacity `buflen` that is the
meaningful `core` followed by untouched zeros, and with enough headroom
for the remaining insertions, the suffix-decoding loop computes exactly
`decSuffixCore` padded with zeros. -/
theorem decSuffixGo_core (enc : List Nat) (enclen encpos buflen : Nat) :
    ∀ fuel core namepos bias last i first,
      core.length = namepos →
      namepos + (enclen - encpos - i) ≤ buflen →
      decSuffixGo enc enclen encpos fuel
          (core ++ List.replicate (buflen - namepos) 0) buflen namepos
          bias last i first =
        (decSuffixCore enc enclen encpos fuel core namepos bias last i
            first).map
          (fun p => (p.1 ++ List.replicate (buflen - p.2) 0, p.2)) := by
  intro fuel
  induction fuel with
  | zero =>
    intro core namepos bias last i first hlen hle
    rw [decSuffixGo, decSuffixCore]
    rfl
  | succ fuel ih =>
    intro core namepos bias last i first hlen hle
    rw [decSuffixGo, decSuffixCore]
    split
    · rename_i hi
      cases hd : decodeDelta enc enclen (encpos + i) bias with
      | none => rfl
      | some ld =>
        obtain ⟨len, delta⟩ := ld
        dsimp only
        have hlen1 : 1 ≤ len :=
          decodeDelta_count_pos enc enclen (encpos + i) bias (len, delta) hd
        have hidx : ((delta + last).tmod ((namepos : Int) + 1)).toNat ≤
            namepos := tmod_toNat_le _ _
        have hnp : namepos < buflen := by omega
        have hins : insertShift
            (core ++ List.replicate (buflen - namepos) 0) buflen
            ((delta + last).tmod ((namepos : Int) + 1)).toNat
            ((delta + last).tdiv ((namepos : Int) + 1)).toNat =
            core.insertIdx
                ((delta + last).tmod ((namepos : Int) + 1)).toNat
                ((delta + last).tdiv ((namepos : Int) + 1)).toNat ++
              List.replicate (buflen - (namepos + 1)) 0 := by
          rw [insertShift, if_pos (by omega)]
          rw [insertIdx_append_left _ _ _ _ (by omega)]
          rw [List.take_append_eq_append_take]
          have hlA : (core.insertIdx
              ((delta + last).tmod ((namepos : Int) + 1)).toNat
              ((delta + last).tdiv ((namepos : Int) + 1)).toNat).length =
              namepos + 1 := by
            rw [List.length_insertIdx _ _ (by omega)]
            omega
          rw [List.take_of_length_le (by omega), hlA,
            List.take_replicate]
          congr 1
          congr 1
          omega
        rw [hins]
        exact ih _ (namepos + 1) _ _ (i + len) false
          (by rw [List.length_insertIdx _ _ (by omega)]; omega)
          (by omega)
    · rfl

/-- The copy loop advances the output position by exactly `len`. -/
theorem copyGo_snd (len : Nat) :
    ∀ dst dstlen dstpos pos,
      (copyGo dst dstlen dstpos pos len).2 = dstpos + len := by
  induction len with
  | zero => intro dst dstlen dstpos pos; rfl
  | succ len ih =>
    intro dst dstlen dstpos pos
    rw [copyGo, ih]
    omega

/-- The decompressor's returned position is the decompressed length of
the symbol stream, independent of the buffer and its capacity. -/
theorem decompressGo_snd (src : List Nat) :
    ∀ dst dstlen dstpos,
      (decompressGo dst dstlen src dstpos).2 = dstpos + srcConsumed src := by
  induction src with
  | nil =>
    intro dst dstlen dstpos
    simp [decompressGo, srcConsumed]
  | cons ch rest ih =>
    intro dst dstlen dstpos
    rw [decompressGo]
    have hcons : srcConsumed (ch :: rest) =
        symSrcLen ch + srcConsumed rest := by
      simp [srcConsumed]
    split
    · rename_i hbr
      rw [ih, copyGo_snd, hcons]
      simp only [symSrcLen, if_pos hbr]
      omega
    · rename_i hbr
      rw [ih, hcons]
      simp only [symSrcLen, if_neg hbr]
      omega

/-- `memchr` finds only in-bounds indices. -/
theorem memchrUnd_lt :
    ∀ (l : List Nat) p, memchrUnd l = some p → p < l.length := by
  intro l
  induction l with
  | nil => intro p h; exact absurd h (by simp [memchrUnd])
  | cons c rest ih =>
    intro p h
    rw [memchrUnd] at h
    split at h
    · simp only [Option.some.injEq] at h
      simp only [List.length_cons]
      omega
    · cases hm : memchrUnd rest with
      | none => rw [hm] at h; exact absurd h (by simp)
      | some q =>
        rw [hm] at h
        simp only [Option.map_some', Option.some.injEq] at h
        have := ih q hm
        simp only [List.length_cons]
        omega

/-- Bounds of the prefix/suffix split: the prefix fits in the encoded
string and prefix plus suffix fit in twice its length. -/
theorem splitEnc_bounds (enc : List Nat) :
    (splitEnc enc).1 ≤ enc.length ∧
    (splitEnc enc).1 + ((splitEnc enc).2.2 - (splitEnc enc).2.1) ≤
      2 * enc.length := by
  rw [splitEnc]
  cases hm : memchrUnd enc with
  | none =>
    dsimp only
    exact ⟨le_refl _, by omega⟩
  | some p =>
    have hp := memchrUnd_lt enc p hm
    dsimp only
    by_cases hpe : p = enc.length - 1
    · simp only [if_pos hpe]
      exact ⟨by omega, by omega⟩
    · simp only [if_neg hpe]
      exact ⟨by omega, by omega⟩

/-- The decoder's returned size — and whether it fails — depends only on
the encoded input: `wfundecode` computes the capacity-free
`decSuffixCore` on the split input and returns the decompressed length
of the decoded symbol stream, whatever `namelen` is. -/
theorem wfundecode_snd_char (enc : List Nat) (nl : Nat) :
    (wfundecode nl enc).map Prod.snd =
      (decSuffixCore enc (splitEnc enc).2.2 (splitEnc enc).2.1
          ((splitEnc enc).2.2 - (splitEnc enc).2.1 + 1)
          (enc.take (splitEnc enc).1) (splitEnc enc).1 INITIAL_BIAS
          ((INITIAL_N : Int) * (((splitEnc enc).1 : Int) + 1) -
            (if (splitEnc enc).1 = 0 then
              10 * (((splitEnc enc).1 : Int) + 1) else 0))
          0 true).map (fun p => srcConsumed p.1) := by
  obtain ⟨hb1, hb2⟩ := splitEnc_bounds enc
  have hlen : (enc.take (splitEnc enc).1).length = (splitEnc enc).1 := by
    rw [List.length_take]
    exact min_eq_left hb1
  rw [wfundecode]
  dsimp only
  rw [copyPrefixGo_eq]
  have hws : writeSeq (List.replicate (max nl (2 * enc.length)) 0)
      (max nl (2 * enc.length)) 0 (enc.take (splitEnc enc).1) =
      enc.take (splitEnc enc).1 ++
        List.replicate (max nl (2 * enc.length) - (splitEnc enc).1) 0 := by
    rw [writeSeq_spec _ _ _ _ (by simp) (by rw [hlen]; omega)]
    simp [List.drop_replicate, hlen]
  rw [hws]
  simp only [Nat.zero_add, hlen]
  rw [decSuffixGo_core enc (splitEnc enc).2.2 (splitEnc enc).2.1
    (max nl (2 * enc.length)) ((splitEnc enc).2.2 - (splitEnc enc).2.1 + 1)
    (enc.take (splitEnc enc).1) (splitEnc enc).1 INITIAL_BIAS
    ((INITIAL_N : Int) * (((splitEnc enc).1 : Int) + 1) -
      (if (splitEnc enc).1 = 0 then
        10 * (((splitEnc enc).1 : Int) + 1) else 0))
    0 true hlen (by omega)]
  cases hC : decSuffixCore enc (splitEnc enc).2.2 (splitEnc enc).2.1
      ((splitEnc enc).2.2 - (splitEnc enc).2.1 + 1)
      (enc.take (splitEnc enc).1) (splitEnc enc).1 INITIAL_BIAS
      ((INITIAL_N : Int) * (((splitEnc enc).1 : Int) + 1) -
        (if (splitEnc enc).1 = 0 then
          10 * (((splitEnc enc).1 : Int) + 1) else 0))
      0 true with
  | none => rfl
  | some pr2 =>
    obtain ⟨core, np⟩ := pr2
    have hnp : core.length = np :=
      decSuffixCore_length enc _ _ _ _ _ _ _ _ _ _ hlen hC
    simp only [Option.map_some']
    rw [List.take_left' hnp]
    simp [decompress, decompressGo_snd]

/-- C9: the size returned by `wfunencode` is the same for every output
capacity (including 0), a smaller capacity only truncating the written
bytes; and both the failure verdict and the size returned by
`wfundecode` are the same for every `namelen`. -/
theorem c9_capacity_independent (name enc : List Nat)
    (cap cap' namelen namelen' : Nat) :
    (wfunencode cap name).2 = (wfunencode cap' name).2 ∧
    (wfunencode cap name).1.take (min cap cap') =
      (wfunencode cap' name).1.take (min cap cap') ∧
    (wfundecode namelen enc).map Prod.snd =
      (wfundecode namelen' enc).map Prod.snd := by
  obtain ⟨h2, h1⟩ := wfunencode_congr name cap cap' (min cap cap')
    (min_le_left _ _) (min_le_right _ _)
  exact ⟨h2, h1, (wfundecode_snd_char enc namelen).trans
    (wfundecode_snd_char enc namelen').symm⟩

/-! ## Claim C2: shape of the encoder's output (amended)

The original claim fails in two ways (`c2_ce_leading_digit`): a
suffix-only output can begin with a digit, and the empty input gives an
empty output.  The amended statement: for a nonempty input all of whose
scalars are `≥ 32` (and with a capacity that fits the output), the
output is nonempty, begins with an alphanumeric byte — never `'_'` —
and consists solely of bytes in `[0-9A-Za-z_]`.  The proof tracks every
store: basic bytes are alphanumeric, the separator is `'_'`, and every
suffix digit is valid because every delta handed to `encode` is
non-negative, which in turn rests on the sortedness and the position
correction of the code entries. -/

/-- Reading away from the stored position is unchanged. -/
theorem outW_getD_ne (buf : List Nat) (len pos v j : Nat) (h : j ≠ pos) :
    (outW buf len pos v).getD j 0 = buf.getD j 0 := by
  simp only [outW]
  split
  · simp [List.getD_eq_getElem?_getD, List.getElem?_set,
      (Ne.symm h : pos ≠ j)]
  · rfl

/-- Reading the stored position yields the stored value when the store
is within both the capacity and the buffer. -/
theorem outW_getD_eq (buf : List Nat) (len pos v : Nat)
    (hlen : buf.length = len) (hp : pos < len) :
    (outW buf len pos v).getD pos 0 = v := by
  simp [outW, if_pos hp, List.getD_eq_getElem?_getD, List.getElem?_set,
    hlen, hp]

/-- Every base-62 digit byte is alphanumeric. -/
theorem digitChar_valid (v : Nat) (h : v ≤ 61) :
    validB62 (digitChar v) = true := by
  simp only [digitChar, validB62]
  split_ifs <;> simp <;> omega

/-- The delta writer: digit positions advance, bytes written are valid
base-62 digits (for a non-negative delta), and everything outside the
written band is untouched. -/
theorem encodeDeltaGo_bytes (len base : Nat) (bias : Int) :
    ∀ fuel buf pos delta r,
      encodeDeltaGo len base bias fuel buf pos delta = r →
      0 ≤ delta → buf.length = len →
      r.1.length = len ∧ pos ≤ r.2 ∧
      (∀ j, j < base + pos ∨ base + r.2 ≤ j →
        r.1.getD j 0 = buf.getD j 0) ∧
      (∀ j, base + pos ≤ j → j < base + r.2 → j < len →
        validB62 (r.1.getD j 0) = true) := by
  intro fuel
  induction fuel with
  | zero =>
    intro buf pos delta r heq hd hlen
    rw [encodeDeltaGo] at heq
    subst heq
    exact ⟨hlen, le_refl _, fun j _ => rfl, fun j h1 h2 _ => by omega⟩
  | succ fuel ih =>
    intro buf pos delta r heq hd hlen
    rw [encodeDeltaGo] at heq
    obtain ⟨ht1, ht2⟩ := tresh_bounds pos bias
    split at heq
    · rename_i hlt
      subst heq
      have hput : putDigit buf len (base + pos) delta =
          outW buf len (base + pos) (digitChar delta.toNat) := by
        rw [putDigit, if_pos ⟨hd, by simp only [BASE]; omega⟩]
      refine ⟨by rw [hput, outW_length]; exact hlen, by omega, ?_, ?_⟩
      · intro j hj
        rw [hput]
        exact outW_getD_ne _ _ _ _ _ (by omega)
      · intro j h1 h2 h3
        have hj : j = base + pos := by omega
        subst hj
        rw [hput, outW_getD_eq _ _ _ _ hlen h3]
        exact digitChar_valid _ (by omega)
    · rename_i hge
      have hw0 : (0 : Int) ≤ (delta - tresh pos bias).tmod
          (BASE - tresh pos bias) :=
        Int.tmod_nonneg _ (by omega)
      have hw1 : (delta - tresh pos bias).tmod (BASE - tresh pos bias) <
          BASE - tresh pos bias :=
        Int.tmod_lt_of_pos _ (by simp only [BASE]; omega)
      have hput : putDigit buf len (base + pos)
          ((delta - tresh pos bias).tmod (BASE - tresh pos bias) +
            tresh pos bias) =
          outW buf len (base + pos)
            (digitChar ((delta - tresh pos bias).tmod
              (BASE - tresh pos bias) + tresh pos bias).toNat) := by
        rw [putDigit, if_pos ⟨by omega, by simp only [BASE] at *; omega⟩]
      rw [hput] at heq
      have hd' : (0 : Int) ≤ (delta - tresh pos bias).tdiv
          (BASE - tresh pos bias) :=
        Int.tdiv_nonneg (by omega) (by simp only [BASE]; omega)
      obtain ⟨ihl, ihpos, ihout, ihin⟩ := ih _ _ _ _ heq hd'
        (by rw [outW_length]; exact hlen)
      refine ⟨ihl, by omega, ?_, ?_⟩
      · intro j hj
        rw [ihout j (by omega)]
        exact outW_getD_ne _ _ _ _ _ (by omega)
      · intro j h1 h2 h3
        by_cases hj : j = base + pos
        · subst hj
          rw [ihout _ (by omega), outW_getD_eq _ _ _ _ hlen h3]
          exact digitChar_valid _ (by simp only [BASE] at hw1 hw0 ⊢; omega)
        · exact ihin j (by omega) h2 h3

/-- `encode` writes at least one digit. -/
theorem encodeDelta_pos (buf : List Nat) (len base : Nat)
    (bias delta : Int) : 1 ≤ (encodeDelta buf len base bias delta).2 := by
  rw [encodeDelta]
  have h : ∀ fuel buf0 pos d,
      pos + 1 ≤ (encodeDeltaGo len base bias (fuel + 1) buf0 pos d).2 := by
    intro fuel
    induction fuel with
    | zero =>
      intro buf0 pos d
      rw [encodeDeltaGo]
      split
      · simp
      · rw [encodeDeltaGo]
    | succ fuel ih =>
      intro buf0 pos d
      rw [encodeDeltaGo]
      split
      · simp
      · have := ih (putDigit buf0 len (base + pos)
          ((d - tresh pos bias).tmod (BASE - tresh pos bias) +
            tresh pos bias)) (pos + 1)
          ((d - tresh pos bias).tdiv (BASE - tresh pos bias))
        omega
  have h2 : delta.toNat + 1 = delta.toNat + 1 := rfl
  exact h delta.toNat buf 0 delta

/-- `writeSeq` reads pointwise: positions below the write window are
unchanged. -/
theorem writeSeq_getD_lt (vs : List Nat) :
    ∀ buf len pos j, j < pos →
      (writeSeq buf len pos vs).getD j 0 = buf.getD j 0 := by
  induction vs with
  | nil => intro buf len pos j h; rfl
  | cons v vs ih =>
    intro buf len pos j h
    rw [writeSeq, ih _ _ _ _ (by omega), outW_getD_ne _ _ _ _ _ (by omega)]

/-- `writeSeq` of source symbols: each written slot holds the written
symbol (all writes in capacity). -/
theorem writeSeq_getD_in (vs : List Nat) :
    ∀ buf len pos j, pos ≤ j → j < pos + vs.length → pos + vs.length ≤ len →
      buf.length = len →
      (writeSeq buf len pos vs).getD j 0 = vs.getD (j - pos) 0 := by
  induction vs with
  | nil => intro buf len pos j h1 h2 h3 h4; simp at h2; omega
  | cons v vs ih =>
    intro buf len pos j h1 h2 h3 h4
    simp only [List.length_cons] at h2 h3
    rw [writeSeq]
    by_cases hj : j = pos
    · subst hj
      rw [writeSeq_getD_lt _ _ _ _ _ (by omega),
        outW_getD_eq _ _ _ _ h4 (by omega)]
      simp
    · rw [ih _ _ _ _ (by omega) (by omega) (by omega)
        (by rw [outW_length]; exact h4)]
      have : j - pos = (j - (pos + 1)) + 1 := by omega
      rw [this]
      simp

/-- The main compressor loop only emits symbols `≥ 32` when every
source scalar is `≥ 32` (literals are source scalars, match tokens are
`≥ 0xD800`), stays within the buffer, and emits at least one symbol
when the source is nonempty. -/
theorem compressMain_ge32 (src : List Nat) (srclen : Nat)
    (h32 : ∀ c ∈ src, 32 ≤ c) (hsl : srclen = src.length) :
    ∀ fuel dst dstlen srcpos dstpos htab r,
      compressMain src srclen fuel dst dstlen srcpos dstpos htab = r →
      dst.length = dstlen → srclen ≤ dstlen →
      dstpos ≤ srcpos → srcpos ≤ srclen → (dstpos = 0 → srcpos = 0) →
      (∀ j, j < dstpos → 32 ≤ dst.getD j 0) →
      (∀ j, j < r.2 → 32 ≤ r.1.getD j 0) ∧ r.2 ≤ dstlen ∧
        r.1.length = dstlen ∧ (1 ≤ srclen → 1 ≤ r.2) := by
  intro fuel
  induction fuel with
  | zero =>
    intro dst dstlen srcpos dstpos htab r heq hA hdl hC hS hz hB
    rw [compressMain, compressTail_eq] at heq
    subst heq
    have hdrop : (src.drop srcpos).length = srclen - srcpos := by
      rw [List.length_drop]
      omega
    refine ⟨?_, by simp only [hdrop]; omega,
      by rw [writeSeq_length]; exact hA, ?_⟩
    · intro j hj
      simp only [hdrop] at hj
      by_cases hjlt : j < dstpos
      · rw [writeSeq_getD_lt _ _ _ _ _ hjlt]
        exact hB j hjlt
      · rw [writeSeq_getD_in _ _ _ _ _ (by omega)
          (by simp only [hdrop]; omega) (by simp only [hdrop]; omega) hA]
        apply h32
        have hlt : j - dstpos < (src.drop srcpos).length := by omega
        rw [List.getD_eq_getElem _ _ hlt]
        exact List.mem_of_mem_drop (List.getElem_mem hlt)
    · intro hs1
      simp only [hdrop]
      omega
  | succ fuel ih =>
    intro dst dstlen srcpos dstpos htab r heq hA hdl hC hS hz hB
    rw [compressMain] at heq
    split at heq
    · rename_i hcond
      have hcond4 : srcpos + 4 < srclen := by
        simpa [MINCOPY] using hcond
      have hdp : dstpos < dstlen := by omega
      dsimp only at heq
      split at heq
      · rename_i hm
        set h0 := hashIdx src srcpos with hh0
        set q := htab.getD h0 0 with hq
        set len := matchLen src srclen srcpos q with hlendef
        have hlen4 : 4 ≤ len := by
          have := hm.2.2
          simpa [MINCOPY] using this
        have hsplen : srcpos + len ≤ srclen := by
          have := matchLen_add_le src srclen srcpos q (by omega)
          omega
        refine ih _ _ _ _ _ _ heq (by rw [outW_length]; exact hA) hdl
          (by omega) (by omega) (by omega) ?_
        intro j hj
        by_cases hjd : j = dstpos
        · subst hjd
          rw [outW_getD_eq _ _ _ _ hA hdp]
          simp only [BACKREF]
          omega
        · rw [outW_getD_ne _ _ _ _ _ hjd]
          exact hB j (by omega)
      · rename_i hm
        refine ih _ _ _ _ _ _ heq (by rw [outW_length]; exact hA) hdl
          (by omega) (by omega) (by omega) ?_
        intro j hj
        by_cases hjd : j = dstpos
        · subst hjd
          rw [outW_getD_eq _ _ _ _ hA hdp]
          apply h32
          have hlt : srcpos < src.length := by omega
          rw [List.getD_eq_getElem _ _ hlt]
          exact List.getElem_mem hlt
        · rw [outW_getD_ne _ _ _ _ _ hjd]
          exact hB j (by omega)
    · rw [compressTail_eq] at heq
      subst heq
      have hdrop : (src.drop srcpos).length = srclen - srcpos := by
        rw [List.length_drop]
        omega
      refine ⟨?_, by simp only [hdrop]; omega,
        by rw [writeSeq_length]; exact hA, ?_⟩
      · intro j hj
        simp only [hdrop] at hj
        by_cases hjlt : j < dstpos
        · rw [writeSeq_getD_lt _ _ _ _ _ hjlt]
          exact hB j hjlt
        · rw [writeSeq_getD_in _ _ _ _ _ (by omega)
            (by simp only [hdrop]; omega) (by simp only [hdrop]; omega)
            hA]
          apply h32
          have hlt : j - dstpos < (src.drop srcpos).length := by omega
          rw [List.getD_eq_getElem _ _ hlt]
          exact List.mem_of_mem_drop (List.getElem_mem hlt)
      · intro hs1
        simp only [hdrop]
        omega

/-- The priming loop keeps `dstpos = srcpos`, stays within bounds, and
emits only source scalars. -/
theorem compressPrime_ge32 (src : List Nat) (srclen : Nat)
    (h32 : ∀ c ∈ src, 32 ≤ c) (hsl : srclen = src.length) :
    ∀ left dst dstlen srcpos dstpos htab r,
      compressPrime src srclen dst dstlen srcpos dstpos htab left = r →
      dst.length = dstlen → srclen ≤ dstlen →
      dstpos = srcpos → srcpos ≤ srclen →
      (∀ j, j < dstpos → 32 ≤ dst.getD j 0) →
      r.1.length = dstlen ∧ r.2.2.1 = r.2.1 ∧ r.2.1 ≤ srclen ∧
        (∀ j, j < r.2.2.1 → 32 ≤ r.1.getD j 0) := by
  intro left
  induction left with
  | zero =>
    intro dst dstlen srcpos dstpos htab r heq hA hdl hC hS hB
    rw [compressPrime] at heq
    subst heq
    exact ⟨hA, hC, hS, hB⟩
  | succ left ih =>
    intro dst dstlen srcpos dstpos htab r heq hA hdl hC hS hB
    rw [compressPrime] at heq
    split at heq
    · rename_i hcond
      have hdp : dstpos < dstlen := by simp only [MINCOPY] at hcond; omega
      refine ih _ _ _ _ _ _ heq (by rw [outW_length]; exact hA) hdl
        (by omega) (by simp only [MINCOPY] at hcond; omega) ?_
      intro j hj
      by_cases hjd : j = dstpos
      · subst hjd
        rw [outW_getD_eq _ _ _ _ hA hdp]
        apply h32
        have hlt : srcpos < src.length := by
          simp only [MINCOPY] at hcond
          omega
        rw [List.getD_eq_getElem _ _ hlt]
        exact List.getElem_mem hlt
      · rw [outW_getD_ne _ _ _ _ _ hjd]
        exact hB j (by omega)
    · subst heq
      exact ⟨hA, hC, hS, hB⟩

/-- The compressed stream of an all-`≥ 32` source consists of symbols
`≥ 32`, and is nonempty when the source is. -/
theorem compressOut_ge32 (src : List Nat) (h32 : ∀ c ∈ src, 32 ≤ c) :
    (∀ c ∈ compressOut src, 32 ≤ c) ∧
      (src ≠ [] → compressOut src ≠ []) := by
  set pr := compressPrime src src.length (List.replicate src.length 0)
    src.length 0 0 (List.replicate 512 0) MINCOPY with hpr
  obtain ⟨hP1, hP2, hP3, hP4⟩ := compressPrime_ge32 src src.length h32 rfl
    MINCOPY (List.replicate src.length 0) src.length 0 0
    (List.replicate 512 0) pr hpr.symm (by simp) (le_refl _) rfl
    (by omega) (fun j hj => absurd hj (by omega))
  set cm := compressMain src src.length src.length pr.1 src.length
    pr.2.1 pr.2.2.1 pr.2.2.2 with hcm
  obtain ⟨hM1, hM2, hM3, hM4⟩ := compressMain_ge32 src src.length h32 rfl
    src.length pr.1 src.length pr.2.1 pr.2.2.1 pr.2.2.2 cm hcm.symm hP1
    (le_refl _) (le_of_eq hP2) hP3 (fun h0 => by rw [← hP2]; exact h0)
    hP4
  have hceq : compress (List.replicate src.length 0) src.length src
      src.length = cm := by
    rw [compress, hcm, hpr]
  constructor
  · intro c hc
    rw [compressOut] at hc
    rw [hceq] at hc
    obtain ⟨i, hi, hgi⟩ := List.mem_take_iff_getElem.mp hc
    rw [← hgi]
    have hgd := hM1 i (by omega)
    rw [List.getD_eq_getElem _ _ (by omega : i < cm.1.length)] at hgd
    exact hgd
  · intro hne hcon
    have hlen1 : 1 ≤ src.length := by
      cases src with
      | nil => exact absurd rfl hne
      | cons a l => simp
    have h1 := hM4 hlen1
    rw [compressOut] at hcon
    rw [hceq] at hcon
    rcases List.take_eq_nil_iff.mp hcon with h | h
    · omega
    · rw [h] at hM3
      simp at hM3
      omega

/-- The main loop also keeps every emitted symbol below `WCHAR_MAX`:
literals are source scalars and a match token is at most
`0xD800 + 15 + 127 * 16`. -/
theorem compressMain_lt_max (src : List Nat) (srclen : Nat)
    (hmax : ∀ c ∈ src, c < WCHAR_MAX) (hsl : srclen = src.length) :
    ∀ fuel dst dstlen srcpos dstpos htab r,
      compressMain src srclen fuel dst dstlen srcpos dstpos htab = r →
      dst.length = dstlen → srclen ≤ dstlen →
      dstpos ≤ srcpos → srcpos ≤ srclen → (dstpos = 0 → srcpos = 0) →
      (∀ j, j < dstpos → dst.getD j 0 < WCHAR_MAX) →
      (∀ j, j < r.2 → r.1.getD j 0 < WCHAR_MAX) := by
  intro fuel
  induction fuel with
  | zero =>
    intro dst dstlen srcpos dstpos htab r heq hA hdl hC hS hz hB
    rw [compressMain, compressTail_eq] at heq
    subst heq
    have hdrop : (src.drop srcpos).length = srclen - srcpos := by
      rw [List.length_drop]
      omega
    intro j hj
    simp only [hdrop] at hj
    by_cases hjlt : j < dstpos
    · rw [writeSeq_getD_lt _ _ _ _ _ hjlt]
      exact hB j hjlt
    · rw [writeSeq_getD_in _ _ _ _ _ (by omega)
        (by simp only [hdrop]; omega) (by simp only [hdrop]; omega) hA]
      apply hmax
      have hlt : j - dstpos < (src.drop srcpos).length := by omega
      rw [List.getD_eq_getElem _ _ hlt]
      exact List.mem_of_mem_drop (List.getElem_mem hlt)
  | succ fuel ih =>
    intro dst dstlen srcpos dstpos htab r heq hA hdl hC hS hz hB
    rw [compressMain] at heq
    split at heq
    · rename_i hcond
      have hcond4 : srcpos + 4 < srclen := by
        simpa [MINCOPY] using hcond
      have hdp : dstpos < dstlen := by omega
      dsimp only at heq
      split at heq
      · rename_i hm
        set h0 := hashIdx src srcpos with hh0
        set q := htab.getD h0 0 with hq
        set len := matchLen src srclen srcpos q with hlendef
        have hlen4 : 4 ≤ len := by
          have := hm.2.2
          simpa [MINCOPY] using this
        have hlen19 : len ≤ MAXCOPY := by
          rw [hlendef]
          exact matchLen_le src srclen srcpos q
        have hsplen : srcpos + len ≤ srclen := by
          have := matchLen_add_le src srclen srcpos q (by omega)
          omega
        refine ih _ _ _ _ _ _ heq (by rw [outW_length]; exact hA) hdl
          (by omega) (by omega) (by omega) ?_
        intro j hj
        by_cases hjd : j = dstpos
        · subst hjd
          rw [outW_getD_eq _ _ _ _ hA hdp]
          have hd128 : srcpos - q ≤ MAXDIST := hm.2.1
          simp only [BACKREF, WCHAR_MAX, MAXDIST, MAXCOPY, MINCOPY,
            MINDIST] at *
          omega
        · rw [outW_getD_ne _ _ _ _ _ hjd]
          exact hB j (by omega)
      · rename_i hm
        refine ih _ _ _ _ _ _ heq (by rw [outW_length]; exact hA) hdl
          (by omega) (by omega) (by omega) ?_
        intro j hj
        by_cases hjd : j = dstpos
        · subst hjd
          rw [outW_getD_eq _ _ _ _ hA hdp]
          apply hmax
          have hlt : srcpos < src.length := by omega
          rw [List.getD_eq_getElem _ _ hlt]
          exact List.getElem_mem hlt
        · rw [outW_getD_ne _ _ _ _ _ hjd]
          exact hB j (by omega)
    · rw [compressTail_eq] at heq
      subst heq
      have hdrop : (src.drop srcpos).length = srclen - srcpos := by
        rw [List.length_drop]
        omega
      intro j hj
      simp only [hdrop] at hj
      by_cases hjlt : j < dstpos
      · rw [writeSeq_getD_lt _ _ _ _ _ hjlt]
        exact hB j hjlt
      · rw [writeSeq_getD_in _ _ _ _ _ (by omega)
          (by simp only [hdrop]; omega) (by simp only [hdrop]; omega)
          hA]
        apply hmax
        have hlt : j - dstpos < (src.drop srcpos).length := by omega
        rw [List.getD_eq_getElem _ _ hlt]
        exact List.mem_of_mem_drop (List.getElem_mem hlt)

/-- The priming loop also keeps every emitted symbol below
`WCHAR_MAX`. -/
theorem compressPrime_lt_max (src : List Nat) (srclen : Nat)
    (hmax : ∀ c ∈ src, c < WCHAR_MAX) (hsl : srclen = src.length) :
    ∀ left dst dstlen srcpos dstpos htab r,
      compressPrime src srclen dst dstlen srcpos dstpos htab left = r →
      dst.length = dstlen → srclen ≤ dstlen →
      dstpos = srcpos → srcpos ≤ srclen →
      (∀ j, j < dstpos → dst.getD j 0 < WCHAR_MAX) →
      (∀ j, j < r.2.2.1 → r.1.getD j 0 < WCHAR_MAX) := by
  intro left
  induction left with
  | zero =>
    intro dst dstlen srcpos dstpos htab r heq hA hdl hC hS hB
    rw [compressPrime] at heq
    subst heq
    exact hB
  | succ left ih =>
    intro dst dstlen srcpos dstpos htab r heq hA hdl hC hS hB
    rw [compressPrime] at heq
    split at heq
    · rename_i hcond
      have hdp : dstpos < dstlen := by simp only [MINCOPY] at hcond; omega
      refine ih _ _ _ _ _ _ heq (by rw [outW_length]; exact hA) hdl
        (by omega) (by simp only [MINCOPY] at hcond; omega) ?_
      intro j hj
      by_cases hjd : j = dstpos
      · subst hjd
        rw [outW_getD_eq _ _ _ _ hA hdp]
        apply hmax
        have hlt : srcpos < src.length := by
          simp only [MINCOPY] at hcond
          omega
        rw [List.getD_eq_getElem _ _ hlt]
        exact List.getElem_mem hlt
      · rw [outW_getD_ne _ _ _ _ _ hjd]
        exact hB j (by omega)
    · subst heq
      exact hB

/-- The compressed stream of a below-`WCHAR_MAX` source stays below
`WCHAR_MAX`. -/
theorem compressOut_lt_max (src : List Nat)
    (h32 : ∀ c ∈ src, 32 ≤ c) (hmax : ∀ c ∈ src, c < WCHAR_MAX) :
    ∀ c ∈ compressOut src, c < WCHAR_MAX := by
  set pr := compressPrime src src.length (List.replicate src.length 0)
    src.length 0 0 (List.replicate 512 0) MINCOPY with hpr
  obtain ⟨hP1, hP2, hP3, hP4g⟩ := compressPrime_ge32 src src.length h32
    rfl MINCOPY (List.replicate src.length 0) src.length 0 0
    (List.replicate 512 0) pr hpr.symm (by simp) (le_refl _) rfl
    (by omega) (fun j hj => absurd hj (by omega))
  have hP4 := compressPrime_lt_max src src.length hmax rfl
    MINCOPY (List.replicate src.length 0) src.length 0 0
    (List.replicate 512 0) pr hpr.symm (by simp) (le_refl _) rfl
    (by omega) (fun j hj => absurd hj (by omega))
  set cm := compressMain src src.length src.length pr.1 src.length
    pr.2.1 pr.2.2.1 pr.2.2.2 with hcm
  obtain ⟨-, hM2, hM3, -⟩ := compressMain_ge32 src src.length h32
    rfl src.length pr.1 src.length pr.2.1 pr.2.2.1 pr.2.2.2 cm hcm.symm
    hP1 (le_refl _) (le_of_eq hP2) hP3 (fun h0 => by rw [← hP2]; exact h0)
    hP4g
  have hM1 := compressMain_lt_max src src.length hmax rfl
    src.length pr.1 src.length pr.2.1 pr.2.2.1 pr.2.2.2 cm hcm.symm hP1
    (le_refl _) (le_of_eq hP2) hP3 (fun h0 => by rw [← hP2]; exact h0)
    hP4
  have hceq : compress (List.replicate src.length 0) src.length src
      src.length = cm := by
    rw [compress, hcm, hpr]
  intro c hc
  rw [compressOut] at hc
  rw [hceq] at hc
  obtain ⟨i, hi, hgi⟩ := List.mem_take_iff_getElem.mp hc
  rw [← hgi]
  have hgd := hM1 i (by omega)
  rw [List.getD_eq_getElem _ _ (by omega : i < cm.1.length)] at hgd
  exact hgd

/-- `countLtPos` over an append. -/
theorem countLtPos_append (p : Nat) (l m : List (Nat × Nat)) :
    countLtPos p (l ++ m) = countLtPos p l + countLtPos p m := by
  simp [countLtPos, List.filter_append]

/-- `countLtPos` of a one-entry list. -/
theorem countLtPos_single (p w q : Nat) :
    countLtPos p [(w, q)] = if q < p then 1 else 0 := by
  simp only [countLtPos, List.filter_cons, List.filter_nil]
  by_cases h : q < p
  · simp [h]
  · simp [h]

/-- When every position is below `p`, everything is counted. -/
theorem countLtPos_all_lt (p : Nat) (l : List (Nat × Nat))
    (h : ∀ e ∈ l, e.2 < p) : countLtPos p l = l.length := by
  rw [countLtPos, List.filter_eq_self.mpr]
  intro a ha
  simp [h a ha]

/-- `countLtPos` never exceeds the list length. -/
theorem countLtPos_le_length (p : Nat) (l : List (Nat × Nat)) :
    countLtPos p l ≤ l.length :=
  List.length_filter_le _ _

/-- `countLtPos` is invariant under permutation. -/
theorem countLtPos_perm (p : Nat) (l l' : List (Nat × Nat))
    (h : l.Perm l') : countLtPos p l = countLtPos p l' :=
  (h.filter _).length_eq

/-- With pairwise-distinct positions, fewer than `p` entries can have a
position below `p`. -/
theorem countLtPos_lt_bound (l : List (Nat × Nat)) (p : Nat)
    (h : (l.map Prod.snd).Nodup) : countLtPos p l ≤ p := by
  have hlen : countLtPos p l =
      ((l.map Prod.snd).filter (fun x => x < p)).length := by
    rw [countLtPos, ← List.countP_eq_length_filter,
      ← List.countP_eq_length_filter, List.countP_map]
    rfl
  rw [hlen]
  have hnd : ((l.map Prod.snd).filter (fun x => x < p)).Nodup :=
    h.filter _
  have hsub : ((l.map Prod.snd).filter (fun x => x < p)).toFinset ⊆
      Finset.range p := by
    intro x hx
    rw [List.mem_toFinset, List.mem_filter] at hx
    simp only [decide_eq_true_eq] at hx
    exact Finset.mem_range.mpr hx.2
  have := Finset.card_le_card hsub
  rwa [List.toFinset_card_of_nodup hnd, Finset.card_range] at this

/-- With pairwise-distinct positions, at most `p2 - p1 - 1` entries have
a position strictly between `p1` and `p2`. -/
theorem count_between_bound (l : List (Nat × Nat)) (p1 p2 : Nat)
    (h : (l.map Prod.snd).Nodup) :
    (l.filter (fun c => p1 < c.2 ∧ c.2 < p2)).length ≤ p2 - p1 - 1 := by
  have hlen : (l.filter (fun c => p1 < c.2 ∧ c.2 < p2)).length =
      ((l.map Prod.snd).filter (fun x => p1 < x ∧ x < p2)).length := by
    rw [← List.countP_eq_length_filter, ← List.countP_eq_length_filter,
      List.countP_map]
    rfl
  rw [hlen]
  have hnd : ((l.map Prod.snd).filter (fun x => p1 < x ∧ x < p2)).Nodup :=
    h.filter _
  have hsub : ((l.map Prod.snd).filter
      (fun x => p1 < x ∧ x < p2)).toFinset ⊆ Finset.Ioo p1 p2 := by
    intro x hx
    rw [List.mem_toFinset, List.mem_filter] at hx
    simp only [decide_eq_true_eq] at hx
    exact Finset.mem_Ioo.mpr hx.2
  have := Finset.card_le_card hsub
  rwa [List.toFinset_card_of_nodup hnd, Nat.card_Ioo] at this

/-- Splitting a position count at an intermediate position. -/
theorem countLtPos_split (l : List (Nat × Nat)) (p1 p2 : Nat)
    (hlt : p1 < p2) :
    countLtPos p2 l = countLtPos p1 l +
      (l.filter (fun c => c.2 = p1)).length +
      (l.filter (fun c => p1 < c.2 ∧ c.2 < p2)).length := by
  induction l with
  | nil => simp [countLtPos]
  | cons e t ih =>
    obtain ⟨w, q⟩ := e
    simp only [countLtPos] at ih ⊢
    simp only [List.filter_cons]
    by_cases h1 : q < p2 <;> by_cases h2 : q < p1 <;>
      by_cases h3 : q = p1 <;> by_cases h4 : p1 < q <;>
      simp [h1, h2, h3, h4, hlt, Bool.decide_and] at ih ⊢ <;> omega

/-- No entry of `l` sits at a position missing from `l`. -/
theorem count_eq_zero_of_not_mem (l : List (Nat × Nat)) (p : Nat)
    (h : p ∉ l.map Prod.snd) :
    (l.filter (fun c => c.2 = p)).length = 0 := by
  rw [List.length_eq_zero, List.filter_eq_nil_iff]
  intro c hc
  simp only [decide_eq_true_eq]
  intro hcp
  exact h (List.mem_map.mpr ⟨c, hc, hcp⟩)

/-- Inserting into a list is a permutation of consing. -/
theorem insertCode_perm (c : Nat × Nat) (l : List (Nat × Nat)) :
    (insertCode c l).Perm (c :: l) := by
  induction l with
  | nil => exact List.Perm.refl _
  | cons d rest ih =>
    rw [insertCode]
    split
    · exact List.Perm.refl _
    · exact (ih.cons d).trans (List.Perm.swap c d rest)

/-- Insertion sort permutes its input. -/
theorem sortCodes_perm (l : List (Nat × Nat)) :
    (sortCodes l).Perm l := by
  induction l with
  | nil => exact List.Perm.refl _
  | cons c rest ih =>
    exact (insertCode_perm c (sortCodes rest)).trans (ih.cons c)

/-- `codecmp`'s order is total. -/
theorem codeLe_total (a b : Nat × Nat) :
    codeLe a b = true ∨ codeLe b a = true := by
  simp only [codeLe, decide_eq_true_eq]
  omega

/-- `codecmp`'s order is transitive. -/
theorem codeLe_trans (a b c : Nat × Nat) (h1 : codeLe a b = true)
    (h2 : codeLe b c = true) : codeLe a c = true := by
  simp only [codeLe, decide_eq_true_eq] at *
  omega

/-- Membership in an insertion. -/
theorem mem_insertCode (c e : Nat × Nat) (l : List (Nat × Nat))
    (h : e ∈ insertCode c l) : e = c ∨ e ∈ l := by
  have := (insertCode_perm c l).mem_iff.mp h
  simpa using this

/-- Insertion preserves sortedness. -/
theorem insertCode_pairwise (c : Nat × Nat) (l : List (Nat × Nat))
    (h : List.Pairwise (fun a b => codeLe a b = true) l) :
    List.Pairwise (fun a b => codeLe a b = true) (insertCode c l) := by
  induction l with
  | nil => exact List.pairwise_singleton _ _
  | cons d rest ih =>
    rw [insertCode]
    rw [List.pairwise_cons] at h
    split
    · rename_i hcd
      rw [List.pairwise_cons]
      refine ⟨?_, List.pairwise_cons.mpr h⟩
      intro e he
      rcases List.mem_cons.mp he with he | he
      · subst he
        exact hcd
      · exact codeLe_trans c d e hcd (h.1 e he)
    · rename_i hcd
      rw [List.pairwise_cons]
      refine ⟨?_, ih h.2⟩
      intro e he
      rcases mem_insertCode c e rest he with he | he
      · subst he
        rcases codeLe_total e d with h' | h'
        · exact absurd h' hcd
        · exact h'
      · exact h.1 e he

/-- Insertion sort sorts. -/
theorem sortCodes_pairwise (l : List (Nat × Nat)) :
    List.Pairwise (fun a b => codeLe a b = true) (sortCodes l) := by
  induction l with
  | nil => exact List.Pairwise.nil
  | cons c rest ih => exact insertCode_pairwise c (sortCodes rest) ih

/-- `countLtPos` over a cons. -/
theorem countLtPos_cons (p : Nat) (e : Nat × Nat) (l : List (Nat × Nat)) :
    countLtPos p (e :: l) = (if e.2 < p then 1 else 0) + countLtPos p l := by
  simp only [countLtPos, List.filter_cons]
  by_cases h : e.2 < p <;> simp [h] <;> omega

/-- The property of the sorted, position-corrected code list that makes
every suffix delta non-negative: each position is at most the current
insertion length `f`, and consecutive entries grow in `(wc, pos)` lex
order with strictly growing positions on equal `wc`. -/
def sortedAdj : Nat → List (Nat × Nat) → Prop
  | _, [] => True
  | f, [(_, p)] => p ≤ f
  | f, (w1, p1) :: (w2, p2) :: rest =>
    p1 ≤ f ∧ (w1 < w2 ∨ (w1 = w2 ∧ p1 < p2)) ∧
      sortedAdj (f + 1) ((w2, p2) :: rest)

/-- The first delta of the suffix loop is non-negative. -/
def headDelta (last : Int) (rlen : Nat) : List (Nat × Nat) → Prop
  | [] => True
  | (w, p) :: _ => last ≤ (w : Int) * ((rlen : Int) + 1) + (p : Int)

/-- `adjustCodes` keeps the first components. -/
theorem adjustCodes_fst (l : List (Nat × Nat))
    (h : ∀ e ∈ l, 32 ≤ e.1) : ∀ e ∈ adjustCodes l, 32 ≤ e.1 := by
  induction l with
  | nil => intro e he; exact absurd he (by simp [adjustCodes])
  | cons c rest ih =>
    intro e he
    rw [adjustCodes] at he
    rcases List.mem_cons.mp he with he | he
    · subst he
      exact h c (by simp)
    · exact ih (fun d hd => h d (List.mem_cons_of_mem _ hd)) e he

/-- `adjustCodes` keeps the length. -/
theorem adjustCodes_length (l : List (Nat × Nat)) :
    (adjustCodes l).length = l.length := by
  induction l with
  | nil => rfl
  | cons c rest ih => simp [adjustCodes, ih]

/-- The position-correction pass turns a sorted code list with distinct,
stream-consistent positions into a `sortedAdj` list. -/
theorem adjust_sortedAdj :
    ∀ (S : List (Nat × Nat)) (f : Nat),
      List.Pairwise (fun a b => codeLe a b = true) S →
      (S.map Prod.snd).Nodup →
      (∀ e ∈ S, e.2 ≤ f + countLtPos e.2 S) →
      sortedAdj f (adjustCodes S) := by
  intro S
  induction S with
  | nil => intro f _ _ _; rw [adjustCodes]; trivial
  | cons e rest ih =>
    intro f hsort hnd hbound
    obtain ⟨w1, p1⟩ := e
    rw [List.pairwise_cons] at hsort
    simp only [List.map_cons, List.nodup_cons] at hnd
    have hc1 : countLtPos p1 ((w1, p1) :: rest) = countLtPos p1 rest := by
      rw [countLtPos_cons]
      simp
    have hp1f : p1 - countLtPos p1 rest ≤ f := by
      have := hbound (w1, p1) (by simp)
      rw [hc1] at this
      omega
    have hboundrest : ∀ e ∈ rest, e.2 ≤ (f + 1) + countLtPos e.2 rest := by
      intro e he
      have := hbound e (List.mem_cons_of_mem _ he)
      rw [countLtPos_cons] at this
      split at this <;> omega
    cases rest with
    | nil =>
      rw [adjustCodes, adjustCodes, sortedAdj]
      simpa [countLtPos] using hp1f
    | cons e2 rest2 =>
      obtain ⟨w2, p2⟩ := e2
      rw [adjustCodes, adjustCodes, sortedAdj]
      refine ⟨?_, ?_, ?_⟩
      · exact hp1f
      · have hle12 : codeLe (w1, p1) (w2, p2) = true :=
          hsort.1 (w2, p2) (by simp)
        simp only [codeLe, decide_eq_true_eq] at hle12
        rcases hle12 with h | ⟨heq, hle⟩
        · exact Or.inl h
        · have hne : p1 ≠ p2 := by
            intro hcon
            exact hnd.1 (by simp [hcon])
          have hplt : p1 < p2 := by omega
          refine Or.inr ⟨heq, ?_⟩
          dsimp only
          have hndrest : (((w2, p2) :: rest2).map Prod.snd).Nodup := hnd.2
          have hcsplit := countLtPos_split ((w2, p2) :: rest2) p1 p2 hplt
          have hzero : (((w2, p2) :: rest2).filter
              (fun c => c.2 = p1)).length = 0 :=
            count_eq_zero_of_not_mem _ _ hnd.1
          have hbet : (((w2, p2) :: rest2).filter
              (fun c => p1 < c.2 ∧ c.2 < p2)).length ≤ p2 - p1 - 1 :=
            count_between_bound _ _ _ hndrest
          have hc1le : countLtPos p1 ((w2, p2) :: rest2) ≤ p1 :=
            countLtPos_lt_bound _ _ hndrest
          have hc2 : countLtPos p2 ((w2, p2) :: rest2) =
              countLtPos p2 rest2 := by
            rw [countLtPos_cons]
            simp
          have hc1r : countLtPos p1 ((w2, p2) :: rest2) =
              (if p2 < p1 then 1 else 0) + countLtPos p1 rest2 :=
            countLtPos_cons _ _ _
          rw [if_neg (by omega)] at hc1r
          omega
      · exact ih (f + 1) hsort.2 hnd.2 hboundrest

/-- A basic symbol is alphanumeric. -/
theorem isBasicSym_alnum (wc : Nat) (b : Bool)
    (h : isBasicSym wc b = true) : isAlnum wc = true := by
  simp only [isBasicSym, decide_eq_true_eq] at h
  simp only [isAlnum, decide_eq_true_eq]
  tauto

/-- The two alphabet predicates agree. -/
theorem validB62_eq_isAlnum (b : Nat) : validB62 b = isAlnum b := by
  simp only [validB62, isAlnum]
  by_cases h1 : 48 ≤ b ∧ b ≤ 57 <;> by_cases h2 : 65 ≤ b ∧ b ≤ 90 <;>
    by_cases h3 : 97 ≤ b ∧ b ≤ 122 <;> simp [h1, h2, h3]

/-- The basic pass: output bytes are alphanumeric, earlier bytes are
untouched, and the collected code entries are stream-consistent —
positions strictly increase, each position is bounded by the output
position plus the number of earlier entries, and values are `≥ 32`. -/
theorem basicGo_inv (cap : Nat) :
    ∀ (rest : List Nat) namepos enc encpos codes r,
      basicGo cap rest namepos enc encpos codes = r →
      (∀ c ∈ rest, 32 ≤ c) →
      enc.length = cap →
      namepos = encpos + codes.length →
      (∀ e ∈ codes, e.2 < namepos) →
      List.Pairwise (fun (a b : Nat × Nat) => a.2 < b.2) codes →
      (∀ e ∈ codes, e.2 ≤ encpos + countLtPos e.2 codes) →
      (∀ e ∈ codes, 32 ≤ e.1) →
      r.1.length = cap ∧ encpos ≤ r.2.1 ∧
        r.2.1 + r.2.2.length = encpos + codes.length + rest.length ∧
        (∀ j, j < encpos → r.1.getD j 0 = enc.getD j 0) ∧
        (∀ j, encpos ≤ j → j < r.2.1 → j < cap →
          isAlnum (r.1.getD j 0) = true) ∧
        (∀ e ∈ r.2.2, e.2 < r.2.1 + r.2.2.length) ∧
        List.Pairwise (fun (a b : Nat × Nat) => a.2 < b.2) r.2.2 ∧
        (∀ e ∈ r.2.2, e.2 ≤ r.2.1 + countLtPos e.2 r.2.2) ∧
        (∀ e ∈ r.2.2, 32 ≤ e.1) := by
  intro rest
  induction rest with
  | nil =>
    intro namepos enc encpos codes r heq h32 hlen hnp hb hpw hd hwc
    rw [basicGo] at heq
    subst heq
    dsimp only
    exact ⟨hlen, le_refl _, by rfl, fun j _ => rfl,
      fun j h1 h2 _ => by omega, fun e he => by have := hb e he; omega,
      hpw, hd, hwc⟩
  | cons wc rest ih =>
    intro namepos enc encpos codes r heq h32 hlen hnp hb hpw hd hwc
    rw [basicGo] at heq
    split at heq
    · rename_i hbasic
      obtain ⟨ih1, ih2, ih3, ih4, ih5, ih6, ih7, ih8, ih9⟩ :=
        ih (namepos + 1) _ (encpos + 1) codes r heq
          (fun c hc => h32 c (List.mem_cons_of_mem _ hc))
          (by rw [outW_length]; exact hlen) (by omega)
          (fun e he => by have := hb e he; omega) hpw
          (fun e he => by have := hd e he; omega) hwc
      have hcount : r.2.1 + r.2.2.length =
          encpos + codes.length + (wc :: rest).length := by
        simp only [List.length_cons]
        omega
      refine ⟨ih1, by omega, hcount, ?_, ?_, ih6, ih7, ih8, ih9⟩
      · intro j hj
        rw [ih4 j (by omega), outW_getD_ne _ _ _ _ _ (by omega)]
      · intro j h1 h2 h3
        by_cases hje : j = encpos
        · subst hje
          rw [ih4 _ (by omega), outW_getD_eq _ _ _ _ hlen h3]
          exact isBasicSym_alnum _ _ hbasic
        · exact ih5 j (by omega) h2 h3
    · rename_i hbasic
      have hcnt : countLtPos namepos (codes ++ [(wc, namepos)]) =
          codes.length := by
        rw [countLtPos_append, countLtPos_single, if_neg (by omega),
          countLtPos_all_lt _ _ hb]
        omega
      obtain ⟨ih1, ih2, ih3, ih4, ih5, ih6, ih7, ih8, ih9⟩ :=
        ih (namepos + 1) enc encpos (codes ++ [(wc, namepos)]) r heq
          (fun c hc => h32 c (List.mem_cons_of_mem _ hc)) hlen
          (by
            simp only [List.length_append, List.length_cons,
              List.length_nil]
            omega)
          (by
            intro e he
            rcases List.mem_append.mp he with he | he
            · have := hb e he; omega
            · simp at he; subst he; omega)
          (by
            rw [List.pairwise_append]
            exact ⟨hpw, List.pairwise_singleton _ _,
              fun a ha b hb2 => by simp at hb2; subst hb2; exact hb a ha⟩)
          (by
            intro e he
            rcases List.mem_append.mp he with he | he
            · have := hd e he
              have hmono : countLtPos e.2 codes ≤
                  countLtPos e.2 (codes ++ [(wc, namepos)]) := by
                rw [countLtPos_append]
                omega
              omega
            · simp at he
              rw [he]
              dsimp only
              rw [hcnt]
              omega)
          (by
            intro e he
            rcases List.mem_append.mp he with he | he
            · exact hwc e he
            · simp at he; subst he; exact h32 wc (by simp))
      have hcount : r.2.1 + r.2.2.length =
          encpos + codes.length + (wc :: rest).length := by
        simp only [List.length_append, List.length_cons,
          List.length_nil] at ih3
        simp only [List.length_cons]
        omega
      exact ⟨ih1, ih2, hcount, ih4, ih5, ih6, ih7, ih8, ih9⟩

/-- The suffix loop: bytes in the written band are valid base-62
digits, earlier bytes are untouched, the buffer length is preserved,
and at least one digit is written per code entry. -/
theorem suffixGo_bytes (cap : Nat) :
    ∀ (cs : List (Nat × Nat)) enc encpos rlen bias last first r,
      suffixGo cap cs enc encpos rlen bias last first = r →
      enc.length = cap →
      (∀ e ∈ cs, 32 ≤ e.1) →
      sortedAdj rlen cs →
      headDelta last rlen cs →
      r.1.length = cap ∧ encpos ≤ r.2 ∧
        (∀ j, j < encpos → r.1.getD j 0 = enc.getD j 0) ∧
        (∀ j, encpos ≤ j → j < r.2 → j < cap →
          validB62 (r.1.getD j 0) = true) ∧
        (cs ≠ [] → encpos + 1 ≤ r.2) := by
  intro cs
  induction cs with
  | nil =>
    intro enc encpos rlen bias last first r heq hlen h32 hadj hhd
    rw [suffixGo] at heq
    subst heq
    exact ⟨hlen, le_refl _, fun j _ => rfl, fun j h1 h2 _ => by omega,
      fun h => absurd rfl h⟩
  | cons e rest ih =>
    intro enc encpos rlen bias last first r heq hlen h32 hadj hhd
    obtain ⟨w, p⟩ := e
    rw [suffixGo] at heq
    set d : Int := (w : Int) * ((rlen : Int) + 1) + (p : Int) - last
      with hddef
    set r0 := encodeDelta enc cap encpos bias d with hr0
    have hdelta : (0 : Int) ≤ d := by
      simp only [headDelta] at hhd
      omega
    obtain ⟨hE1, hE2, hE3, hE4⟩ := encodeDeltaGo_bytes cap encpos bias
      (d.toNat + 1) enc 0 d r0 (by rw [hr0, encodeDelta]) hdelta hlen
    have hEpos : 1 ≤ r0.2 := by
      rw [hr0]
      exact encodeDelta_pos _ _ _ _ _
    have hprest : p ≤ rlen ∧ (rest = [] ∨ sortedAdj (rlen + 1) rest) ∧
        headDelta ((w : Int) * ((rlen : Int) + 2) + (p : Int) + 1)
          (rlen + 1) rest := by
      cases rest with
      | nil =>
        simp only [sortedAdj] at hadj
        exact ⟨hadj, Or.inl rfl, trivial⟩
      | cons e2 rest2 =>
        obtain ⟨w2, p2⟩ := e2
        simp only [sortedAdj] at hadj
        obtain ⟨hp, hrel, hrest⟩ := hadj
        refine ⟨hp, Or.inr hrest, ?_⟩
        simp only [headDelta]
        rcases hrel with h | ⟨heql, hlt⟩
        · have h1 : ((w : Int) + 1) * ((rlen : Int) + 2) ≤
              (w2 : Int) * ((rlen : Int) + 2) :=
            mul_le_mul_of_nonneg_right (by omega) (by omega)
          have hple : (p : Int) ≤ (rlen : Int) := by exact_mod_cast hp
          push_cast
          nlinarith [h1, hple, Int.natCast_nonneg p2]
        · subst heql
          have hplt : (p : Int) < (p2 : Int) := by exact_mod_cast hlt
          push_cast
          linarith
    obtain ⟨ih1, ih2, ih3, ih4, ih5⟩ := ih r0.1 (encpos + r0.2)
      (rlen + 1) _ _ false r heq hE1
      (fun e he => h32 e (List.mem_cons_of_mem _ he))
      (by
        rcases hprest.2.1 with h | h
        · subst h; trivial
        · exact h)
      hprest.2.2
    refine ⟨ih1, by omega, ?_, ?_, fun _ => by omega⟩
    · intro j hj
      rw [ih3 j (by omega), hE3 j (by omega)]
    · intro j h1 h2 h3
      by_cases hband : j < encpos + r0.2
      · rw [ih3 j hband]
        exact hE4 j (by omega) (by omega) h3
      · exact ih4 j (by omega) h2 h3

/-- The amended output shape: nonempty, first byte alphanumeric, all
bytes alphanumeric or `'_'`. -/
def identShape (l : List Nat) : Bool :=
  match l with
  | [] => false
  | c :: rest => isAlnum c && rest.all (fun d => isAlnum d || d == 95)

/-- Pointwise byte facts give the shape. -/
theorem identShape_of_getD (l : List Nat) (hne : l ≠ [])
    (hall : ∀ j, j < l.length →
      isAlnum (l.getD j 0) = true ∨ l.getD j 0 = 95)
    (hhead : isAlnum (l.getD 0 0) = true) :
    identShape l = true := by
  cases l with
  | nil => exact absurd rfl hne
  | cons c rest =>
    rw [identShape]
    rw [Bool.and_eq_true]
    constructor
    · exact hhead
    · rw [List.all_eq_true]
      intro d hd
      obtain ⟨i, hi, hgi⟩ := List.mem_iff_getElem.mp hd
      have hj := hall (i + 1) (by simp; omega)
      have hget : (c :: rest).getD (i + 1) 0 = d := by
        rw [List.getD_eq_getElem _ _ (by simp; omega)]
        simp [hgi]
      rw [hget] at hj
      rcases hj with hj | hj
      · simp [hj]
      · simp [hj]

/-- C2 (amended): for a nonempty input of scalars `≥ 32` and a capacity
that holds the output, `wfunencode` returns a positive length and the
output bytes match `[0-9A-Za-z][0-9A-Za-z_]*` — first byte alphanumeric
(possibly a digit, contra the original claim), never an underscore. -/
theorem c2_identifier_shape (s : List Nat) (cap : Nat)
    (hne : s ≠ []) (h32 : ∀ c ∈ s, 32 ≤ c)
    (hcap : (wfunencode cap s).2 ≤ cap) :
    1 ≤ (wfunencode cap s).2 ∧ identShape (encBytes cap s) = true := by
  obtain ⟨hb32, hbne'⟩ := compressOut_ge32 s h32
  have hbne := hbne' hne
  have hblen : 1 ≤ (compressOut s).length := List.length_pos.mpr hbne
  have hmain : 1 ≤ (wfunencode cap s).2 ∧
      (wfunencode cap s).1.length = cap ∧
      (∀ j, j < (wfunencode cap s).2 → j < cap →
        (isAlnum ((wfunencode cap s).1.getD j 0) = true ∨
          (wfunencode cap s).1.getD j 0 = 95)) ∧
      (0 < cap → isAlnum ((wfunencode cap s).1.getD 0 0) = true) := by
    rw [wfunencode]
    dsimp only
    set r := basicGo cap (compressOut s) 0 (List.replicate cap 0) 0 []
      with hrdef
    obtain ⟨hB1, hB2, hB3, hB4, hB5, hB6, hB7, hB8, hB9⟩ :=
      basicGo_inv cap (compressOut s) 0 (List.replicate cap 0) 0 [] r
        hrdef.symm hb32 (by simp) (by simp) (by simp)
        List.Pairwise.nil (by simp) (by simp)
    split
    · rename_i hemp
      have hclen : r.2.2.length = 0 :=
        List.length_eq_zero.mpr (List.isEmpty_iff.mp hemp)
      dsimp only
      refine ⟨by omega, by rw [outW_length]; exact hB1, ?_, ?_⟩
      · intro j hj hjc
        left
        rw [outW_getD_ne _ _ _ _ _ (by omega)]
        exact hB5 j (by omega) (by omega) hjc
      · intro hc0
        rw [outW_getD_ne _ _ _ _ _ (by omega)]
        exact hB5 0 (by omega) (by omega) hc0
    · rename_i hemp
      have hcne : r.2.2.length ≠ 0 := by
        intro hcon
        rw [List.isEmpty_iff] at hemp
        exact hemp (List.length_eq_zero.mp hcon)
      have hperm := sortCodes_perm r.2.2
      have hpairs := sortCodes_pairwise r.2.2
      have hnodup : ((sortCodes r.2.2).map Prod.snd).Nodup := by
        have hmapped : (r.2.2.map Prod.snd).Pairwise (· < ·) :=
          List.pairwise_map.mpr hB7
        exact ((hperm.map Prod.snd).nodup_iff).mpr
          (hmapped.imp fun h => Nat.ne_of_lt h)
      have hbound : ∀ e ∈ sortCodes r.2.2,
          e.2 ≤ r.2.1 + countLtPos e.2 (sortCodes r.2.2) := by
        intro e he
        rw [countLtPos_perm _ _ _ hperm]
        exact hB8 e (hperm.mem_iff.mp he)
      have hadj := adjust_sortedAdj (sortCodes r.2.2) r.2.1 hpairs hnodup
        hbound
      have hwcs : ∀ e ∈ adjustCodes (sortCodes r.2.2), 32 ≤ e.1 :=
        adjustCodes_fst _ (fun e he => hB9 e (hperm.mem_iff.mp he))
      have hsne : adjustCodes (sortCodes r.2.2) ≠ [] := by
        intro hcon
        have hl := adjustCodes_length (sortCodes r.2.2)
        rw [hcon] at hl
        have := hperm.length_eq
        simp at hl
        omega
      by_cases h1 : r.2.1 = 0
      · have h2 : ¬(r.2.1 ≠ 0) := not_not_intro h1
        simp only [if_neg h2, if_pos h1]
        have hhd : headDelta ((INITIAL_N : Int) * ((r.2.1 : Int) + 1) -
            10 * ((r.2.1 : Int) + 1)) r.2.1
            (adjustCodes (sortCodes r.2.2)) := by
          cases hA : adjustCodes (sortCodes r.2.2) with
          | nil => simp [headDelta]
          | cons e0 tl =>
            obtain ⟨w0, p0⟩ := e0
            have hw0 : 32 ≤ w0 := hwcs (w0, p0) (by rw [hA]; simp)
            simp only [headDelta, INITIAL_N]
            have hm : (32 : Int) * ((r.2.1 : Int) + 1) ≤
                (w0 : Int) * ((r.2.1 : Int) + 1) :=
              mul_le_mul_of_nonneg_right (by omega) (by omega)
            have hp0 : (0 : Int) ≤ (p0 : Int) := Int.natCast_nonneg p0
            have hx : (0 : Int) ≤ (r.2.1 : Int) + 1 := by omega
            push_cast
            push_cast at hm
            linarith
        set r2 := suffixGo cap (adjustCodes (sortCodes r.2.2)) r.1 r.2.1
          r.2.1 INITIAL_BIAS
          ((INITIAL_N : Int) * ((r.2.1 : Int) + 1) -
            10 * ((r.2.1 : Int) + 1)) true with hr2
        obtain ⟨hS1, hS2, hS3, hS4, hS5⟩ := suffixGo_bytes cap
          (adjustCodes (sortCodes r.2.2)) r.1 r.2.1 r.2.1 INITIAL_BIAS
          ((INITIAL_N : Int) * ((r.2.1 : Int) + 1) -
            10 * ((r.2.1 : Int) + 1)) true r2 hr2.symm hB1 hwcs hadj hhd
        have hS5' := hS5 hsne
        refine ⟨by omega, by rw [outW_length, outW_length]; exact hS1,
          ?_, ?_⟩
        · intro j hj hjc
          rw [outW_getD_ne _ _ _ _ _ (by omega)]
          by_cases hj2 : j = r2.2
          · subst hj2
            right
            rw [outW_getD_eq _ _ _ _ hS1 hjc]
          · left
            rw [outW_getD_ne _ _ _ _ _ hj2, ← validB62_eq_isAlnum]
            exact hS4 j (by omega) (by omega) hjc
        · intro hc0
          rw [outW_getD_ne _ _ _ _ _ (by omega),
            outW_getD_ne _ _ _ _ _ (by omega), ← validB62_eq_isAlnum]
          exact hS4 0 (by omega) (by omega) hc0
      · have h2 : r.2.1 ≠ 0 := h1
        simp only [if_pos h2, if_neg h1]
        have hhd : headDelta ((INITIAL_N : Int) * ((r.2.1 : Int) + 1) -
            0) r.2.1 (adjustCodes (sortCodes r.2.2)) := by
          cases hA : adjustCodes (sortCodes r.2.2) with
          | nil => simp [headDelta]
          | cons e0 tl =>
            obtain ⟨w0, p0⟩ := e0
            have hw0 : 32 ≤ w0 := hwcs (w0, p0) (by rw [hA]; simp)
            simp only [headDelta, INITIAL_N]
            have hm : (32 : Int) * ((r.2.1 : Int) + 1) ≤
                (w0 : Int) * ((r.2.1 : Int) + 1) :=
              mul_le_mul_of_nonneg_right (by omega) (by omega)
            have hp0 : (0 : Int) ≤ (p0 : Int) := Int.natCast_nonneg p0
            push_cast
            push_cast at hm
            linarith
        set r2 := suffixGo cap (adjustCodes (sortCodes r.2.2))
          (outW r.1 cap r.2.1 95) (r.2.1 + 1) r.2.1 INITIAL_BIAS
          ((INITIAL_N : Int) * ((r.2.1 : Int) + 1) - 0) true with hr2
        obtain ⟨hS1, hS2, hS3, hS4, hS5⟩ := suffixGo_bytes cap
          (adjustCodes (sortCodes r.2.2)) (outW r.1 cap r.2.1 95)
          (r.2.1 + 1) r.2.1 INITIAL_BIAS
          ((INITIAL_N : Int) * ((r.2.1 : Int) + 1) - 0) true r2 hr2.symm
          (by rw [outW_length]; exact hB1) hwcs hadj hhd
        refine ⟨by omega, by rw [outW_length]; exact hS1, ?_, ?_⟩
        · intro j hj hjc
          rw [outW_getD_ne _ _ _ _ _ (by omega)]
          by_cases hjp : j < r.2.1
          · left
            rw [hS3 j (by omega), outW_getD_ne _ _ _ _ _ (by omega)]
            exact hB5 j (by omega) (by omega) hjc
          · by_cases hjp2 : j = r.2.1
            · subst hjp2
              right
              rw [hS3 _ (by omega), outW_getD_eq _ _ _ _ hB1 hjc]
            · left
              rw [← validB62_eq_isAlnum]
              exact hS4 j (by omega) (by omega) hjc
        · intro hc0
          rw [outW_getD_ne _ _ _ _ _ (by omega), hS3 0 (by omega),
            outW_getD_ne _ _ _ _ _ (by omega)]
          exact hB5 0 (by omega) (by omega) hc0
  obtain ⟨hpos, hlen, hall, hhead⟩ := hmain
  refine ⟨hpos, ?_⟩
  rw [encBytes]
  have htl : ((wfunencode cap s).1.take (wfunencode cap s).2).length =
      (wfunencode cap s).2 := by
    rw [List.length_take]
    omega
  apply identShape_of_getD
  · intro hcon
    rw [hcon] at htl
    simp at htl
    omega
  · intro j hj
    rw [htl] at hj
    have hget : ((wfunencode cap s).1.take (wfunencode cap s).2).getD j
        0 = (wfunencode cap s).1.getD j 0 := by
      rw [List.getD_eq_getElem _ _ (by rw [htl]; omega),
        List.getD_eq_getElem _ _ (by omega), List.getElem_take]
    rw [hget]
    exact hall j hj (by omega)
  · have hget : ((wfunencode cap s).1.take (wfunencode cap s).2).getD 0
        0 = (wfunencode cap s).1.getD 0 0 := by
      rw [List.getD_eq_getElem _ _ (by rw [htl]; omega),
        List.getD_eq_getElem _ _ (by omega), List.getElem_take]
    rw [hget]
    exact hhead (by omega)

/-! ## Claim C1: round trip (amended)

`decode(encode(s)) = s` is proved for inputs whose scalars are `≥ 32`
and outside the match band, in three parts: the LZ layer
(`decompress ∘ compress = id`), the delta codec
(`decode ∘ encode = id` digit by digit), and the insertion layer (the
decoder's sorted insertions rebuild the compressed stream). -/

/-- Positions below the running length of `prefix`'s match agree. -/
theorem matchLenGo_eq (src : List Nat) (srclen a b : Nat) :
    ∀ left len i, len ≤ i → i < matchLenGo src srclen a b len left →
      src.getD (a + i) 0 = src.getD (b + i) 0 := by
  intro left
  induction left with
  | zero =>
    intro len i h1 h2
    rw [matchLenGo] at h2
    omega
  | succ left ih =>
    intro len i h1 h2
    rw [matchLenGo] at h2
    split at h2
    · split at h2
      · omega
      · rename_i hb he
        by_cases hi : i = len
        · subst hi
          simpa using he
        · exact ih (len + 1) i (by omega) h2
    · omega

/-- Positions below the match length agree. -/
theorem matchLen_eq (src : List Nat) (srclen a b i : Nat)
    (h : i < matchLen src srclen a b) :
    src.getD (a + i) 0 = src.getD (b + i) 0 :=
  matchLenGo_eq src srclen a b MAXCOPY 0 i (by omega) h

/-- `decompressGo` over an append runs the two halves in sequence. -/
theorem decompressGo_append (dstlen : Nat) (a : List Nat) :
    ∀ b dst p,
      decompressGo dst dstlen (a ++ b) p =
        decompressGo (decompressGo dst dstlen a p).1 dstlen b
          (decompressGo dst dstlen a p).2 := by
  induction a with
  | nil => intro b dst p; rfl
  | cons ch rest ih =>
    intro b dst p
    rw [List.cons_append, decompressGo, decompressGo]
    split
    · exact ih b _ _
    · exact ih b _ _

/-- Writing the next source symbol onto a mirrored buffer extends the
mirror by one. -/
theorem padded_write (src : List Nat) (B n : Nat) (hn : n < B)
    (hs : n < src.length) :
    outW (src.take n ++ List.replicate (B - n) 0) B n (src.getD n 0) =
      src.take (n + 1) ++ List.replicate (B - (n + 1)) 0 := by
  rw [outW, if_pos hn]
  have hlt : n < (src.take n ++ List.replicate (B - n) 0).length := by
    simp [List.length_take]
    omega
  rw [List.set_eq_take_cons_drop _ hlt]
  have h1 : (src.take n ++ List.replicate (B - n) 0).take n =
      src.take n := by
    rw [List.take_append_eq_append_take, List.length_take,
      List.take_take]
    have : min n n = n := by omega
    rw [this]
    have : n - min n src.length = 0 := by omega
    rw [this]
    simp
  have h2 : (src.take n ++ List.replicate (B - n) 0).drop (n + 1) =
      List.replicate (B - (n + 1)) 0 := by
    rw [List.drop_append_eq_append_drop, List.length_take]
    have hmin : min n src.length = n := by omega
    rw [hmin]
    have : List.drop (n + 1) (src.take n) = [] := by
      apply List.drop_eq_nil_of_le
      rw [List.length_take]
      omega
    rw [this, List.nil_append, List.drop_replicate]
    congr 1
    omega
  rw [h1, h2]
  have h3 : src.take (n + 1) = src.take n ++ [src.getD n 0] := by
    rw [List.take_succ, List.getD_eq_getElem _ _ hs]
    simp [List.getElem?_eq_getElem hs]
  rw [h3, List.append_assoc, List.singleton_append]

/-- Reading a mirrored buffer below the mirror point reads the
source. -/
theorem mirror_getD (src : List Nat) (B n q : Nat) (hq : q < n)
    (hn : n ≤ src.length) :
    (src.take n ++ List.replicate (B - n) 0).getD q 0 = src.getD q 0 := by
  have hlt : q < (src.take n).length := by
    rw [List.length_take]
    omega
  rw [List.getD_eq_getElem _ _ (by simp [List.length_take]; omega),
    List.getD_eq_getElem _ _ (by omega : q < src.length)]
  rw [List.getElem_append_left hlt]
  exact List.getElem_take _

/-- The copy loop on a mirrored buffer: copying an in-source match
extends the mirror. -/
theorem copyGo_mirror (src : List Nat) (B : Nat) (hsB : src.length ≤ B) :
    ∀ len q n, q < n → n + len ≤ src.length → n + len < 2 ^ 64 →
      (∀ i, i < len → src.getD (q + i) 0 = src.getD (n + i) 0) →
      copyGo (src.take n ++ List.replicate (B - n) 0) B n q len =
        (src.take (n + len) ++ List.replicate (B - (n + len)) 0,
          n + len) := by
  intro len
  induction len with
  | zero => intro q n h1 h2 h3 h4; rw [copyGo]; simp
  | succ len ih =>
    intro q n h1 h2 h3 h4
    rw [copyGo]
    have hread : (src.take n ++ List.replicate (B - n) 0).getD q 0 =
        src.getD n 0 := by
      rw [mirror_getD src B n q h1 (by omega)]
      have := h4 0 (by omega)
      simpa using this
    rw [hread, padded_write src B n (by omega) (by omega)]
    have hmod : (q + 1) % 2 ^ 64 = q + 1 := Nat.mod_eq_of_lt (by omega)
    rw [hmod]
    have := ih (q + 1) (n + 1) (by omega) (by omega) (by omega)
      (fun i hi => by
        have := h4 (i + 1) (by omega)
        convert this using 2 <;> omega)
    rw [show n + 1 + len = n + (len + 1) by omega] at this
    exact this

/-- A literal run on a mirrored buffer extends the mirror. -/
theorem decompressGo_literals (src : List Nat) (B : Nat)
    (hsB : src.length ≤ B) :
    ∀ (l : List Nat) n, n + l.length ≤ src.length →
      (∀ i, i < l.length → l.getD i 0 = src.getD (n + i) 0) →
      (∀ c ∈ l, isBackref c = false) →
      decompressGo (src.take n ++ List.replicate (B - n) 0) B l n =
        (src.take (n + l.length) ++
          List.replicate (B - (n + l.length)) 0, n + l.length) := by
  intro l
  induction l with
  | nil => intro n h1 h2 h3; rw [decompressGo]; simp
  | cons x rest ih =>
    intro n h1 h2 h3
    simp only [List.length_cons] at h1
    rw [decompressGo]
    rw [if_neg (by simp [h3 x (by simp)])]
    have hx : x = src.getD n 0 := by
      have := h2 0 (by simp)
      simpa using this
    rw [hx, padded_write src B n (by omega) (by omega)]
    have := ih (n + 1) (by omega)
      (fun i hi => by
        have := h2 (i + 1) (by simp; omega)
        simp only [List.getD_cons_succ] at this
        rw [this]
        congr 1
        omega)
      (fun c hc => h3 c (List.mem_cons_of_mem _ hc))
    rw [this]
    have hlen : n + 1 + rest.length = n + (rest.length + 1) := by omega
    rw [hlen]
    simp

/-- `writeSeq`'s written region, trimmed. -/
theorem writeSeq_take (vs : List Nat) (buf : List Nat) (len pos : Nat)
    (hbl : buf.length = len) (hfit : pos + vs.length ≤ len) :
    (writeSeq buf len pos vs).take (pos + vs.length) =
      buf.take pos ++ vs := by
  rw [writeSeq_spec vs buf len pos hbl hfit]
  rw [List.take_append_eq_append_take]
  have h1 : (buf.take pos ++ vs).length = pos + vs.length := by
    simp [List.length_take]
    omega
  rw [List.take_of_length_le (by omega), h1]
  have : pos + vs.length - (pos + vs.length) = 0 := by omega
  rw [this, List.take_zero, List.append_nil]

/-- The main compressor loop preserves the decode mirror: decompressing
the emitted prefix reproduces the consumed source prefix. -/
theorem compressMain_lz (src : List Nat) (srclen : Nat)
    (hwf : ∀ c ∈ src, isBackref c = false) (hsl : srclen = src.length)
    (hsmall : srclen < 2 ^ 64) (B : Nat) (hB : srclen ≤ B) :
    ∀ fuel dst dstlen srcpos dstpos htab r,
      compressMain src srclen fuel dst dstlen srcpos dstpos htab = r →
      dst.length = dstlen → srclen ≤ dstlen →
      dstpos ≤ srcpos → srcpos ≤ srclen →
      (∀ i, htab.getD i 0 ≤ srcpos) →
      decompressGo (List.replicate B 0) B (dst.take dstpos) 0 =
        (src.take srcpos ++ List.replicate (B - srcpos) 0, srcpos) →
      decompressGo (List.replicate B 0) B (r.1.take r.2) 0 =
        (src ++ List.replicate (B - srclen) 0, srclen) := by
  have hexit : ∀ dst dstlen srcpos dstpos,
      dst.length = dstlen → srclen ≤ dstlen →
      dstpos ≤ srcpos → srcpos ≤ srclen →
      decompressGo (List.replicate B 0) B (dst.take dstpos) 0 =
        (src.take srcpos ++ List.replicate (B - srcpos) 0, srcpos) →
      decompressGo (List.replicate B 0) B
          ((compressTail (src.drop srcpos) dst dstlen dstpos).1.take
            (compressTail (src.drop srcpos) dst dstlen dstpos).2) 0 =
        (src ++ List.replicate (B - srclen) 0, srclen) := by
    intro dst dstlen srcpos dstpos hA hdl hC hS hdec
    rw [compressTail_eq]
    have hdlen : (src.drop srcpos).length = srclen - srcpos := by
      rw [List.length_drop]
      omega
    have htk : (writeSeq dst dstlen dstpos (src.drop srcpos)).take
        (dstpos + (src.drop srcpos).length) =
        dst.take dstpos ++ src.drop srcpos :=
      writeSeq_take _ _ _ _ hA (by omega)
    dsimp only
    rw [htk, decompressGo_append, hdec]
    have hlit := decompressGo_literals src B (by omega) (src.drop srcpos)
      srcpos (by omega)
      (fun i hi => by
        rw [List.getD_eq_getElem _ _ hi, List.getElem_drop,
          List.getD_eq_getElem _ _ (by
            rw [hdlen] at hi
            omega)])
      (fun c hc => hwf c (List.mem_of_mem_drop hc))
    rw [hlit, hdlen]
    have h1 : srcpos + (srclen - srcpos) = srclen := by omega
    rw [h1, hsl, List.take_length]
  intro fuel
  induction fuel with
  | zero =>
    intro dst dstlen srcpos dstpos htab r heq hA hdl hC hS hF hdec
    rw [compressMain] at heq
    subst heq
    exact hexit dst dstlen srcpos dstpos hA hdl hC hS hdec
  | succ fuel ih =>
    intro dst dstlen srcpos dstpos htab r heq hA hdl hC hS hF hdec
    rw [compressMain] at heq
    split at heq
    · rename_i hcond
      have hcond4 : srcpos + 4 < srclen := by
        simpa [MINCOPY] using hcond
      have hdp : dstpos < dstlen := by omega
      dsimp only at heq
      split at heq
      · rename_i hm
        set h0 := hashIdx src srcpos with hh0
        set q := htab.getD h0 0 with hq
        set len := matchLen src srclen srcpos q with hlendef
        set d := srcpos - q with hd
        set tok := BACKREF + (len - MINCOPY) + (d - MINDIST) * 16
          with htok
        have hq_le : q ≤ srcpos := hF h0
        have hlen19 : len ≤ 19 := by
          have := matchLen_le src srclen srcpos q
          simpa [MAXCOPY] using this
        have hlen4 : 4 ≤ len := by
          have := hm.2.2
          simpa [MINCOPY] using this
        have hd1 : 1 ≤ d := by
          have := hm.1
          simpa [MINDIST] using this
        have hd128 : d ≤ 128 := by
          have := hm.2.1
          simpa [MAXDIST] using this
        have hsplen : srcpos + len ≤ srclen := by
          have := matchLen_add_le src srclen srcpos q (by omega)
          omega
        have htok_back : isBackref tok = true := by
          simp only [isBackref, BACKREF, htok, MINCOPY, MINDIST,
            decide_eq_true_eq]
          omega
        have htok_dist : tokDist tok = d := by
          simp only [tokDist, BACKREF, htok, MINCOPY, MINDIST]
          omega
        have htok_len : tokLen tok = len := by
          simp only [tokLen, BACKREF, htok, MINCOPY, MINDIST]
          omega
        have htake : (outW dst dstlen dstpos tok).take (dstpos + 1) =
            dst.take dstpos ++ [tok] :=
          outW_take_succ dst dstlen dstpos tok hA hdp
        have hdec' : decompressGo (List.replicate B 0) B
            ((outW dst dstlen dstpos tok).take (dstpos + 1)) 0 =
            (src.take (srcpos + len) ++
              List.replicate (B - (srcpos + len)) 0, srcpos + len) := by
          rw [htake, decompressGo_append, hdec]
          rw [decompressGo, if_pos htok_back]
          have hpos : (srcpos + 2 ^ 64 - tokDist tok) % 2 ^ 64 = q := by
            rw [htok_dist]
            have h2 : srcpos + 2 ^ 64 - d = (srcpos - d) + 2 ^ 64 := by
              omega
            rw [h2, Nat.add_mod_right, Nat.mod_eq_of_lt (by omega)]
            omega
          rw [hpos, htok_len]
          have hcopy := copyGo_mirror src B (by omega) len q srcpos
            (by omega) (by omega) (by omega)
            (fun i hi => (matchLen_eq src srclen srcpos q i
              (by omega)).symm)
          rw [hcopy]
          rw [decompressGo]
        exact ih _ _ (srcpos + len) (dstpos + 1) _ _ heq
          (by rw [outW_length]; exact hA) hdl (by omega) (by omega)
          (fun i => advanceHtab_le src len htab h0 srcpos (srcpos + len)
            (fun j => by have := hF j; omega) (by omega) (by omega) i)
          hdec'
      · rename_i hm
        have hv : isBackref (src.getD srcpos 0) = false := by
          apply hwf
          have hlt : srcpos < src.length := by omega
          rw [List.getD_eq_getElem _ _ hlt]
          exact List.getElem_mem hlt
        have htake : (outW dst dstlen dstpos (src.getD srcpos 0)).take
            (dstpos + 1) = dst.take dstpos ++ [src.getD srcpos 0] :=
          outW_take_succ dst dstlen dstpos _ hA hdp
        have hdec' : decompressGo (List.replicate B 0) B
            ((outW dst dstlen dstpos (src.getD srcpos 0)).take
              (dstpos + 1)) 0 =
            (src.take (srcpos + 1) ++
              List.replicate (B - (srcpos + 1)) 0, srcpos + 1) := by
          rw [htake, decompressGo_append, hdec]
          rw [decompressGo, if_neg (by simp only [hv]; exact
            Bool.false_ne_true)]
          rw [padded_write src B srcpos (by omega) (by omega)]
          rw [decompressGo]
        exact ih _ _ (srcpos + 1) (dstpos + 1) _ _ heq
          (by rw [outW_length]; exact hA) hdl (by omega) (by omega)
          (fun i => advanceHtab_le src 1 htab (hashIdx src srcpos)
            srcpos (srcpos + 1) (fun j => by have := hF j; omega)
            (by omega) (by omega) i)
          hdec'
    · subst heq
      exact hexit dst dstlen srcpos dstpos hA hdl hC hS hdec

/-- The priming loop preserves the decode mirror. -/
theorem compressPrime_lz (src : List Nat) (srclen : Nat)
    (hwf : ∀ c ∈ src, isBackref c = false) (hsl : srclen = src.length)
    (B : Nat) (hB : srclen ≤ B) :
    ∀ left dst dstlen srcpos dstpos htab r,
      compressPrime src srclen dst dstlen srcpos dstpos htab left = r →
      dst.length = dstlen → srclen ≤ dstlen →
      dstpos = srcpos → srcpos ≤ srclen →
      decompressGo (List.replicate B 0) B (dst.take dstpos) 0 =
        (src.take srcpos ++ List.replicate (B - srcpos) 0, srcpos) →
      r.1.length = dstlen ∧ r.2.2.1 = r.2.1 ∧ r.2.1 ≤ srclen ∧
        decompressGo (List.replicate B 0) B (r.1.take r.2.2.1) 0 =
          (src.take r.2.1 ++ List.replicate (B - r.2.1) 0, r.2.1) := by
  intro left
  induction left with
  | zero =>
    intro dst dstlen srcpos dstpos htab r heq hA hdl hC hS hdec
    rw [compressPrime] at heq
    subst heq
    subst hC
    exact ⟨hA, rfl, hS, hdec⟩
  | succ left ih =>
    intro dst dstlen srcpos dstpos htab r heq hA hdl hC hS hdec
    rw [compressPrime] at heq
    split at heq
    · rename_i hcond
      have hlt : srcpos < srclen := by
        simp only [MINCOPY] at hcond
        omega
      have hdp : dstpos < dstlen := by omega
      refine ih _ _ (srcpos + 1) (dstpos + 1) _ _ heq
        (by rw [outW_length]; exact hA) hdl (by omega) (by omega) ?_
      rw [outW_take_succ dst dstlen dstpos _ hA hdp,
        decompressGo_append, hdec]
      rw [decompressGo, if_neg (by
        simp only [Bool.not_eq_true]
        apply hwf
        have hlt2 : srcpos < src.length := by omega
        rw [List.getD_eq_getElem _ _ hlt2]
        exact List.getElem_mem hlt2)]
      rw [padded_write src B srcpos (by omega) (by omega)]
      rw [decompressGo]
    · subst heq
      subst hC
      exact ⟨hA, rfl, hS, hdec⟩

/-- LZ round trip: decompressing the compressed stream of a well-formed
source into any sufficiently large buffer reproduces the source. -/
theorem compressOut_lz (src : List Nat)
    (hwf : ∀ c ∈ src, isBackref c = false)
    (hsmall : src.length < 2 ^ 64) (B : Nat) (hB : src.length ≤ B) :
    decompressGo (List.replicate B 0) B (compressOut src) 0 =
      (src ++ List.replicate (B - src.length) 0, src.length) := by
  set pr := compressPrime src src.length (List.replicate src.length 0)
    src.length 0 0 (List.replicate 512 0) MINCOPY with hpr
  obtain ⟨hP1, hP2, hP3, hP4⟩ := compressPrime_lz src src.length hwf rfl
    B hB MINCOPY (List.replicate src.length 0) src.length 0 0
    (List.replicate 512 0) pr hpr.symm (by simp) (le_refl _) rfl
    (by omega) (by rw [List.take_zero, decompressGo]; simp)
  obtain ⟨hQ1, hQ2, hQ3, hQ4, hQ5, hQ6⟩ := compressPrime_inv src
    src.length hwf rfl MINCOPY (List.replicate src.length 0) src.length
    0 0 (List.replicate 512 0) (by simp) (le_refl _) (le_refl _)
    (by simp) (by simp [srcConsumed]) (by simpa using distOk_nil)
    (by
      intro i
      rw [List.getD_eq_getElem?_getD, List.getElem?_replicate]
      split <;> simp)
  set cm := compressMain src src.length src.length pr.1 src.length
    pr.2.1 pr.2.2.1 pr.2.2.2 with hcm
  have hceq : compress (List.replicate src.length 0) src.length src
      src.length = cm := by
    rw [compress, hcm, hpr]
  have hmain := compressMain_lz src src.length hwf rfl hsmall B hB
    src.length pr.1 src.length pr.2.1 pr.2.2.1 pr.2.2.2 cm hcm.symm hP1
    (le_refl _) (le_of_eq hP2) hP3 hQ6 hP4
  rw [compressOut, hceq]
  exact hmain

/-- Reading back a stored digit byte. -/
theorem getDigit_at (enc : List Nat) (len pos : Nat) (hpos : pos < len)
    (v : Nat) (hv : v ≤ 61) (hb : enc.getD pos 0 = digitChar v) :
    getDigit enc len pos = (v : Int) := by
  rw [getDigit, if_pos hpos]
  dsimp only
  rw [hb]
  simp only [digitChar]
  split_ifs <;> push_cast <;> omega

/-- The delta codec round trip: decoding the digits written by `encode`
(from any buffer agreeing on the written band) recovers the delta and
consumes exactly the written digits. -/
theorem codec_roundtrip (cap base : Nat) (bias : Int) :
    ∀ fuel buf pos delta r,
      encodeDeltaGo cap base bias fuel buf pos delta = r →
      0 ≤ delta → delta.toNat < fuel → buf.length = cap →
      ∀ (encB : List Nat) (efflen : Nat) (fuel2 : Nat) (acc w : Int),
        base + r.2 ≤ efflen → efflen ≤ cap →
        (∀ j, base + pos ≤ j → j < base + r.2 →
          encB.getD j 0 = r.1.getD j 0) →
        r.2 - pos < fuel2 →
        decodeDeltaGo encB efflen base bias fuel2 pos acc w =
          some (r.2, acc + delta * w) := by
  intro fuel
  induction fuel with
  | zero => intro buf pos delta r heq hd hfuel; omega
  | succ fuel ih =>
    intro buf pos delta r heq hd hfuel hbl encB efflen fuel2 acc w hr2
      heff hagree hf2
    obtain ⟨ht1, ht2⟩ := tresh_bounds pos bias
    rw [encodeDeltaGo] at heq
    split at heq
    · rename_i hlt
      subst heq
      dsimp only at hr2 hagree hf2 ⊢
      obtain ⟨f2, rfl⟩ : ∃ f2, fuel2 = f2 + 1 :=
        ⟨fuel2 - 1, by omega⟩
      rw [decodeDeltaGo]
      have hbyte : encB.getD (base + pos) 0 = digitChar delta.toNat := by
        rw [hagree (base + pos) (by omega) (by omega)]
        rw [putDigit, if_pos ⟨hd, by simp only [BASE]; omega⟩]
        exact outW_getD_eq _ _ _ _ hbl (by omega)
      have hv := getDigit_at encB efflen (base + pos) (by omega)
        delta.toNat (by omega) hbyte
      rw [hv]
      rw [if_neg (by omega), if_pos (by omega)]
      rw [Int.toNat_of_nonneg hd]
    · rename_i hge
      have hw0 : (0 : Int) ≤ (delta - tresh pos bias).tmod
          (BASE - tresh pos bias) :=
        Int.tmod_nonneg _ (by omega)
      have hw1 : (delta - tresh pos bias).tmod (BASE - tresh pos bias) <
          BASE - tresh pos bias :=
        Int.tmod_lt_of_pos _ (by simp only [BASE]; omega)
      have hd' : (0 : Int) ≤ (delta - tresh pos bias).tdiv
          (BASE - tresh pos bias) :=
        Int.tdiv_nonneg (by omega) (by simp only [BASE]; omega)
      have hstep := delta_step_lt (tresh pos bias) delta ht1 ht2
        (by omega)
      obtain ⟨hE1, hE2, hE3, hE4⟩ := encodeDeltaGo_bytes cap base bias
        fuel _ _ _ r heq hd'
        (by
          rw [putDigit]
          split
          · rw [outW_length]; exact hbl
          · exact hbl)
      obtain ⟨f2, rfl⟩ : ∃ f2, fuel2 = f2 + 1 :=
        ⟨fuel2 - 1, by omega⟩
      rw [decodeDeltaGo]
      have hbyte : encB.getD (base + pos) 0 =
          digitChar ((delta - tresh pos bias).tmod
            (BASE - tresh pos bias) + tresh pos bias).toNat := by
        rw [hagree (base + pos) (by omega) (by omega)]
        rw [hE3 (base + pos) (by omega)]
        rw [putDigit, if_pos ⟨by omega, by simp only [BASE] at *; omega⟩]
        exact outW_getD_eq _ _ _ _ hbl (by omega)
      have hv := getDigit_at encB efflen (base + pos) (by omega)
        ((delta - tresh pos bias).tmod (BASE - tresh pos bias) +
          tresh pos bias).toNat
        (by simp only [BASE] at hw0 hw1 ⊢; omega) hbyte
      rw [hv]
      have htoNat : ((((delta - tresh pos bias).tmod
          (BASE - tresh pos bias) + tresh pos bias).toNat : Int)) =
          (delta - tresh pos bias).tmod (BASE - tresh pos bias) +
            tresh pos bias := by
        omega
      rw [htoNat]
      rw [if_neg (by omega), if_neg (by omega)]
      have hih := ih _ _ _ _ heq hd' (by omega)
        (by
          rw [putDigit]
          split
          · rw [outW_length]; exact hbl
          · exact hbl)
        encB efflen f2
        (acc + ((delta - tresh pos bias).tmod (BASE - tresh pos bias) +
          tresh pos bias) * w)
        (w * (BASE - tresh pos bias)) hr2 heff
        (fun j h1 h2 => hagree j (by omega) h2) (by omega)
      rw [hih]
      congr 2
      have hid := Int.tdiv_add_tmod (delta - tresh pos bias)
        (BASE - tresh pos bias)
      linear_combination w * hid

/-! ## Reconstruction: a stream is rebuilt from its kept symbols and
its sorted, position-corrected extended entries.  This is the heart of
the round trip: the decoder replays, in sorted order, exactly the
insertions whose removal the encoder recorded. -/

/-- Decrement every recorded position strictly above `p`: the effect on
a code list of deleting the stream symbol at slot `p`. -/
def shiftAbove (p : Nat) (l : List (Nat × Nat)) : List (Nat × Nat) :=
  l.map (fun c => (c.1, if p < c.2 then c.2 - 1 else c.2))

/-- Replay `(symbol, insertion position)` instructions by list
insertion — the decoder's `memmove` plus store, without capacity. -/
def insertAll : List Nat → List (Nat × Nat) → List Nat
  | L, [] => L
  | L, c :: rest => insertAll (L.insertIdx c.2 c.1) rest

/-- The basic symbols of a stream under a keep mask. -/
def maskKeep : List Nat → List Bool → List Nat
  | [], _ => []
  | _ :: _, [] => []
  | x :: xs, k :: ms => if k then x :: maskKeep xs ms else maskKeep xs ms

/-- The extended symbols of a stream under a keep mask, paired with
their stream positions counted from `i`. -/
def maskCodes : List Nat → List Bool → Nat → List (Nat × Nat)
  | [], _, _ => []
  | _ :: _, [], _ => []
  | x :: xs, k :: ms, i =>
    if k then maskCodes xs ms (i + 1)
    else (x, i) :: maskCodes xs ms (i + 1)

/-- An empty mask records no codes. -/
theorem maskCodes_nil_mask : ∀ (b : List Nat) (i : Nat),
    maskCodes b [] i = [] := by
  intro b i; cases b <;> rfl

/-- An empty mask keeps no symbols. -/
theorem maskKeep_nil_mask : ∀ (b : List Nat), maskKeep b [] = [] := by
  intro b; cases b <;> rfl

/-- Every recorded code carries the symbol of its (masked-out,
in-range) stream slot. -/
theorem mem_maskCodes :
    ∀ (b : List Nat) (m : List Bool) (i : Nat) (e : Nat × Nat),
      e ∈ maskCodes b m i →
      i ≤ e.2 ∧ e.2 - i < b.length ∧ b.getD (e.2 - i) 0 = e.1 ∧
        m.getD (e.2 - i) false = false := by
  intro b
  induction b with
  | nil => intro m i e he; rw [maskCodes] at he; exact absurd he (by simp)
  | cons x xs ih =>
    intro m i e he
    cases m with
    | nil => rw [maskCodes] at he; exact absurd he (by simp)
    | cons k ms =>
      cases k with
      | true =>
        rw [maskCodes, if_pos rfl] at he
        obtain ⟨h1, h2, h3, h4⟩ := ih ms (i + 1) e he
        have hsub : e.2 - i = (e.2 - (i + 1)) + 1 := by omega
        rw [hsub]
        refine ⟨by omega, ?_, ?_, ?_⟩
        · simp only [List.length_cons]; omega
        · rw [List.getD_cons_succ]; exact h3
        · rw [List.getD_cons_succ]; exact h4
      | false =>
        rw [maskCodes, if_neg Bool.false_ne_true] at he
        rcases List.mem_cons.mp he with h | h
        · subst h
          refine ⟨le_refl _, by simp, by simp, by simp⟩
        · obtain ⟨h1, h2, h3, h4⟩ := ih ms (i + 1) e h
          have hsub : e.2 - i = (e.2 - (i + 1)) + 1 := by omega
          rw [hsub]
          refine ⟨by omega, ?_, ?_, ?_⟩
          · simp only [List.length_cons]; omega
          · rw [List.getD_cons_succ]; exact h3
          · rw [List.getD_cons_succ]; exact h4

/-- Shifting the start index shifts every recorded position. -/
theorem maskCodes_shift :
    ∀ (b : List Nat) (m : List Bool) (i : Nat),
      maskCodes b m (i + 1) =
        (maskCodes b m i).map (fun c => (c.1, c.2 + 1)) := by
  intro b
  induction b with
  | nil => intro m i; rw [maskCodes, maskCodes]; rfl
  | cons x xs ih =>
    intro m i
    cases m with
    | nil => rw [maskCodes_nil_mask, maskCodes_nil_mask]; rfl
    | cons k ms =>
      cases k with
      | true =>
        rw [maskCodes, if_pos rfl, maskCodes, if_pos rfl]
        exact ih ms (i + 1)
      | false =>
        rw [maskCodes, if_neg Bool.false_ne_true, maskCodes,
          if_neg Bool.false_ne_true, List.map_cons]
        rw [ih ms (i + 1)]

/-- Recorded positions grow strictly. -/
theorem maskCodes_pairwise :
    ∀ (b : List Nat) (m : List Bool) (i : Nat),
      (maskCodes b m i).Pairwise (fun a c => a.2 < c.2) := by
  intro b
  induction b with
  | nil => intro m i; rw [maskCodes]; exact List.Pairwise.nil
  | cons x xs ih =>
    intro m i
    cases m with
    | nil => rw [maskCodes_nil_mask]; exact List.Pairwise.nil
    | cons k ms =>
      cases k with
      | true => rw [maskCodes, if_pos rfl]; exact ih ms (i + 1)
      | false =>
        rw [maskCodes, if_neg Bool.false_ne_true]
        refine List.Pairwise.cons ?_ (ih ms (i + 1))
        intro e he
        have h1 := (mem_maskCodes xs ms (i + 1) e he).1
        show i < e.2
        omega

/-- Deleting a stream slot not recorded in `l` preserves the
below-`x` counts after the matching shift. -/
theorem countLt_shift (p : Nat) :
    ∀ (l : List (Nat × Nat)) (x : Nat), x ≠ p → (∀ c ∈ l, c.2 ≠ p) →
      countLtPos (if p < x then x - 1 else x) (shiftAbove p l) =
        countLtPos x l := by
  intro l
  induction l with
  | nil => intro x hx hl; simp [countLtPos, shiftAbove]
  | cons e t ih =>
    intro x hx hl
    have hep : e.2 ≠ p := hl e (List.mem_cons_self e t)
    simp only [shiftAbove, List.map_cons]
    rw [countLtPos_cons, countLtPos_cons]
    have h1 : ((e.1, if p < e.2 then e.2 - 1 else e.2).2 <
        (if p < x then x - 1 else x)) ↔ e.2 < x := by
      show ((if p < e.2 then e.2 - 1 else e.2) <
        (if p < x then x - 1 else x)) ↔ e.2 < x
      split_ifs <;> omega
    rw [if_congr h1 rfl rfl]
    have h2 := ih x hx (fun c hc => hl c (List.mem_cons_of_mem e hc))
    simp only [shiftAbove] at h2
    rw [h2]

/-- Adjusting with a final entry whose position no earlier entry
shares: the final entry adjusts to itself and the earlier ones adjust
as if its stream slot were already deleted. -/
theorem adjust_append_last :
    ∀ (l : List (Nat × Nat)) (e : Nat × Nat), (∀ c ∈ l, c.2 ≠ e.2) →
      adjustCodes (l ++ [e]) =
        adjustCodes (shiftAbove e.2 l) ++ [e] := by
  intro l e
  obtain ⟨w, p⟩ := e
  induction l with
  | nil =>
    intro hl
    simp [adjustCodes, countLtPos, shiftAbove]
  | cons c t ih =>
    intro hl
    have hcp : c.2 ≠ p := hl c (List.mem_cons_self c t)
    have htail : ∀ x ∈ t, x.2 ≠ p :=
      fun x hx => hl x (List.mem_cons_of_mem c hx)
    have hshift := countLt_shift p t c.2 hcp htail
    have hih := ih htail
    simp only [shiftAbove] at hshift hih ⊢
    simp only [List.cons_append, List.map_cons, adjustCodes,
      List.append_eq]
    rw [hih]
    congr 1
    simp only [Prod.mk.injEq, true_and]
    rw [countLtPos_append, countLtPos_single, hshift]
    split_ifs <;> omega

/-- Reinserting the deleted value restores the stream. -/
theorem eraseIdx_insertIdx :
    ∀ (b : List Nat) (p : Nat), p < b.length →
      (b.eraseIdx p).insertIdx p (b.getD p 0) = b := by
  intro b
  induction b with
  | nil => intro p hp; simp at hp
  | cons x xs ih =>
    intro p hp
    cases p with
    | zero => simp [List.eraseIdx_cons_zero, List.getD_cons_zero]
    | succ q =>
      rw [List.eraseIdx_cons_succ, List.getD_cons_succ,
        List.insertIdx_succ_cons]
      rw [ih q (by simp only [List.length_cons] at hp; omega)]

/-- No recorded codes means every symbol was kept. -/
theorem maskKeep_of_no_codes :
    ∀ (b : List Nat) (m : List Bool) (i : Nat), m.length = b.length →
      maskCodes b m i = [] → maskKeep b m = b := by
  intro b
  induction b with
  | nil => intro m i _ _; cases m <;> rfl
  | cons x xs ih =>
    intro m i hlen hmc
    cases m with
    | nil => simp at hlen
    | cons k ms =>
      cases k with
      | true =>
        rw [maskCodes, if_pos rfl] at hmc
        rw [maskKeep, if_pos rfl]
        rw [ih ms (i + 1) (by simpa using hlen) hmc]
      | false =>
        rw [maskCodes, if_neg Bool.false_ne_true] at hmc
        exact absurd hmc (by simp)

/-- Deleting a masked-out slot leaves the kept symbols unchanged. -/
theorem maskKeep_eraseIdx :
    ∀ (b : List Nat) (m : List Bool) (p : Nat),
      m.getD p false = false →
      maskKeep (b.eraseIdx p) (m.eraseIdx p) = maskKeep b m := by
  intro b
  induction b with
  | nil =>
    intro m p _
    rw [List.eraseIdx_nil]
    cases m.eraseIdx p <;> cases m <;> rfl
  | cons x xs ih =>
    intro m p hm
    cases m with
    | nil =>
      rw [List.eraseIdx_nil, maskKeep_nil_mask, maskKeep_nil_mask]
    | cons k ms =>
      cases p with
      | zero =>
        rw [List.getD_cons_zero] at hm
        subst hm
        rw [List.eraseIdx_cons_zero, List.eraseIdx_cons_zero]
        conv_rhs => rw [maskKeep, if_neg Bool.false_ne_true]
      | succ q =>
        rw [List.getD_cons_succ] at hm
        rw [List.eraseIdx_cons_succ, List.eraseIdx_cons_succ]
        cases k with
        | true =>
          rw [maskKeep, if_pos rfl, maskKeep, if_pos rfl,
            ih ms q hm]
        | false =>
          rw [maskKeep, if_neg Bool.false_ne_true, maskKeep,
            if_neg Bool.false_ne_true, ih ms q hm]

/-- Filtering out a slot below every recorded position and shifting
down undoes an index shift. -/
theorem shift_filter_head (i : Nat) :
    ∀ (X : List (Nat × Nat)), (∀ c ∈ X, i ≤ c.2) →
      shiftAbove i ((X.map (fun c => (c.1, c.2 + 1))).filter
        (fun c => c.2 ≠ i)) = X := by
  intro X
  induction X with
  | nil => intro hX; simp [shiftAbove]
  | cons c t ih =>
    intro hX
    have hic := hX c (List.mem_cons_self c t)
    have hrest : ∀ x ∈ t, i ≤ x.2 :=
      fun x hx => hX x (List.mem_cons_of_mem c hx)
    simp only [List.map_cons, List.filter_cons]
    rw [if_pos (by simp only [decide_eq_true_eq]; show c.2 + 1 ≠ i; omega)]
    simp only [shiftAbove, List.map_cons]
    rw [if_pos (by omega), Nat.add_sub_cancel]
    have h2 := ih hrest
    simp only [shiftAbove] at h2
    rw [h2]

/-- Deleting one stream slot drops its code (if any) and shifts the
recorded positions above it down by one. -/
theorem maskCodes_eraseIdx :
    ∀ (b : List Nat) (m : List Bool) (p i : Nat), p < b.length →
      maskCodes (b.eraseIdx p) (m.eraseIdx p) i =
        shiftAbove (i + p)
          ((maskCodes b m i).filter (fun c => c.2 ≠ i + p)) := by
  intro b
  induction b with
  | nil => intro m p i hp; simp at hp
  | cons x xs ih =>
    intro m p i hp
    cases m with
    | nil =>
      rw [List.eraseIdx_nil, maskCodes_nil_mask, maskCodes_nil_mask]
      simp [shiftAbove]
    | cons k ms =>
      cases p with
      | zero =>
        simp only [List.eraseIdx_cons_zero, Nat.add_zero]
        cases k with
        | true =>
          rw [maskCodes, if_pos rfl, maskCodes_shift]
          exact (shift_filter_head i (maskCodes xs ms i)
            (fun c hc => (mem_maskCodes xs ms i c hc).1)).symm
        | false =>
          rw [maskCodes, if_neg Bool.false_ne_true, List.filter_cons]
          rw [if_neg (by simp)]
          rw [maskCodes_shift]
          exact (shift_filter_head i (maskCodes xs ms i)
            (fun c hc => (mem_maskCodes xs ms i c hc).1)).symm
      | succ q =>
        simp only [List.eraseIdx_cons_succ]
        have hq : q < xs.length := by
          simp only [List.length_cons] at hp; omega
        have hih := ih ms q (i + 1) hq
        rw [(show i + 1 + q = i + (q + 1) by omega)] at hih
        cases k with
        | true =>
          rw [maskCodes, if_pos rfl, maskCodes, if_pos rfl]
          exact hih
        | false =>
          rw [maskCodes, if_neg Bool.false_ne_true, maskCodes,
            if_neg Bool.false_ne_true, List.filter_cons,
            if_pos (by simp)]
          simp only [shiftAbove, List.map_cons] at hih ⊢
          rw [if_neg (by omega), hih]

/-- With distinct recorded positions, removing the entries at a present
position drops exactly one element. -/
theorem filter_pos_length :
    ∀ (X : List (Nat × Nat)) (e : Nat × Nat), e ∈ X →
      (X.map Prod.snd).Nodup →
      (X.filter (fun c => c.2 ≠ e.2)).length + 1 = X.length := by
  intro X
  induction X with
  | nil => intro e he _; exact absurd he (by simp)
  | cons y t ih =>
    intro e he hnd
    rw [List.map_cons] at hnd
    have hy : y.2 ∉ t.map Prod.snd := (List.nodup_cons.mp hnd).1
    have hnd1 : (t.map Prod.snd).Nodup := (List.nodup_cons.mp hnd).2
    rcases List.mem_cons.mp he with h | h
    · rw [List.filter_cons, if_neg (by simp [h])]
      have hkeep : List.filter (fun c => c.2 ≠ e.2) t = t := by
        rw [List.filter_eq_self]
        intro a ha
        simp only [decide_eq_true_eq]
        intro hc
        apply hy
        rw [← h, ← hc]
        exact List.mem_map.mpr ⟨a, ha, rfl⟩
      rw [hkeep, List.length_cons]
    · have hyne : y.2 ≠ e.2 := by
        intro hc
        apply hy
        rw [hc]
        exact List.mem_map.mpr ⟨e, h, rfl⟩
      rw [List.filter_cons, if_pos (by simp [hyne])]
      simp only [List.length_cons]
      have h3 := ih e h hnd1
      omega

/-- `codeLe`-sortedness survives the position shift when no entry sits
at the deleted slot. -/
theorem pairwise_shiftAbove (p : Nat) (l : List (Nat × Nat))
    (h : l.Pairwise (fun a c => codeLe a c = true))
    (hne : ∀ c ∈ l, c.2 ≠ p) :
    (shiftAbove p l).Pairwise (fun a c => codeLe a c = true) := by
  rw [shiftAbove, List.pairwise_map]
  refine h.imp_of_mem ?_
  intro a c ha hc hac
  have ha2 := hne a ha
  have hc2 := hne c hc
  simp only [codeLe, decide_eq_true_eq] at hac ⊢
  obtain ⟨a1, a2⟩ := a
  obtain ⟨c1, c2⟩ := c
  simp only at hac ha2 hc2 ⊢
  rcases hac with h1 | ⟨h1, h2⟩
  · exact Or.inl h1
  · exact Or.inr ⟨h1, by split_ifs <;> omega⟩

instance : IsAntisymm (Nat × Nat) (fun a c => codeLe a c = true) := by
  constructor
  intro a c h1 h2
  simp only [codeLe, decide_eq_true_eq] at h1 h2
  obtain ⟨a1, a2⟩ := a
  obtain ⟨c1, c2⟩ := c
  simp only at h1 h2
  simp only [Prod.mk.injEq]
  omega

/-- Replaying instructions with one more appended inserts it last. -/
theorem insertAll_append :
    ∀ (A : List (Nat × Nat)) (L : List Nat) (e : Nat × Nat),
      insertAll L (A ++ [e]) = (insertAll L A).insertIdx e.2 e.1 := by
  intro A
  induction A with
  | nil => intro L e; rfl
  | cons c t ih =>
    intro L e
    rw [List.cons_append, insertAll, insertAll]
    exact ih _ e

/-- Replaying the sorted, position-corrected extended entries over the
kept symbols rebuilds the original stream. -/
theorem insertAll_reconstruct :
    ∀ (n : Nat) (b : List Nat) (m : List Bool), m.length = b.length →
      (maskCodes b m 0).length = n →
      insertAll (maskKeep b m)
        (adjustCodes (sortCodes (maskCodes b m 0))) = b := by
  intro n
  induction n with
  | zero =>
    intro b m hlen h0
    have hnil : maskCodes b m 0 = [] := List.length_eq_zero.mp h0
    rw [hnil]
    simp only [sortCodes, adjustCodes, insertAll]
    exact maskKeep_of_no_codes b m 0 hlen hnil
  | succ n ih =>
    intro b m hlen hn
    set X := maskCodes b m 0 with hX
    set S := sortCodes X with hS
    have hperm : S.Perm X := by rw [hS]; exact sortCodes_perm X
    have hSlen : S.length = n + 1 := hperm.length_eq.trans hn
    have hSne : S ≠ [] := by
      intro hc; rw [hc] at hSlen; simp at hSlen
    set e := S.getLast hSne with he
    have hsplit : S.dropLast ++ [e] = S :=
      List.dropLast_append_getLast hSne
    have heS : e ∈ S := by rw [he]; exact List.getLast_mem hSne
    have heX : e ∈ X := hperm.mem_iff.mp heS
    have heX0 : e ∈ maskCodes b m 0 := by rw [← hX]; exact heX
    have hmem := mem_maskCodes b m 0 e heX0
    simp only [Nat.sub_zero] at hmem
    obtain ⟨-, hlt, hgd, hmk⟩ := hmem
    have hndX : (X.map Prod.snd).Nodup := by
      rw [hX]
      show List.Pairwise (fun a c => a ≠ c)
        (List.map Prod.snd (maskCodes b m 0))
      rw [List.pairwise_map]
      exact (maskCodes_pairwise b m 0).imp (fun h => Nat.ne_of_lt h)
    have hndS : (S.map Prod.snd).Nodup :=
      ((hperm.map Prod.snd).nodup_iff).mpr hndX
    have hdl : ∀ c ∈ S.dropLast, c.2 ≠ e.2 := by
      intro c hc hceq
      have h1 : ((S.dropLast ++ [e]).map Prod.snd).Nodup := by
        rw [hsplit]; exact hndS
      rw [List.map_append, List.nodup_append] at h1
      exact h1.2.2 (List.mem_map.mpr ⟨c, hc, rfl⟩) (by simp [hceq])
    have hpwS : S.Pairwise (fun a c => codeLe a c = true) := by
      rw [hS]; exact sortCodes_pairwise X
    have hpwD : S.dropLast.Pairwise (fun a c => codeLe a c = true) :=
      List.Pairwise.sublist (List.dropLast_sublist S) hpwS
    have hadj : adjustCodes S =
        adjustCodes (shiftAbove e.2 S.dropLast) ++ [e] := by
      conv_lhs => rw [← hsplit]
      exact adjust_append_last S.dropLast e hdl
    have hblen' : (m.eraseIdx e.2).length = (b.eraseIdx e.2).length := by
      rw [List.length_eraseIdx, List.length_eraseIdx,
        if_pos (by omega), if_pos hlt]
      omega
    have hcodes' : maskCodes (b.eraseIdx e.2) (m.eraseIdx e.2) 0 =
        shiftAbove e.2 (X.filter (fun c => c.2 ≠ e.2)) := by
      rw [maskCodes_eraseIdx b m e.2 0 hlt]
      simp only [Nat.zero_add]
    have hlen' :
        (maskCodes (b.eraseIdx e.2) (m.eraseIdx e.2) 0).length = n := by
      rw [hcodes', shiftAbove, List.length_map]
      have h4 := filter_pos_length X e heX hndX
      omega
    have h2 : S.filter (fun c => c.2 ≠ e.2) = S.dropLast := by
      conv_lhs => rw [← hsplit]
      rw [List.filter_append]
      rw [List.filter_eq_self.mpr ?_]
      · rw [(show List.filter (fun c => c.2 ≠ e.2) [e] = [] by simp)]
        simp
      · intro a ha
        simp only [decide_eq_true_eq]
        exact hdl a ha
    have hpermD : (maskCodes (b.eraseIdx e.2) (m.eraseIdx e.2) 0).Perm
        (shiftAbove e.2 S.dropLast) := by
      rw [hcodes']
      simp only [shiftAbove]
      refine List.Perm.map _ ?_
      have h3 : (X.filter (fun c => c.2 ≠ e.2)).Perm
          (S.filter (fun c => c.2 ≠ e.2)) :=
        List.Perm.filter _ hperm.symm
      rw [h2] at h3
      exact h3
    have hsorted' :
        sortCodes (maskCodes (b.eraseIdx e.2) (m.eraseIdx e.2) 0) =
          shiftAbove e.2 S.dropLast := by
      refine @List.eq_of_perm_of_sorted (Nat × Nat)
        (fun a c => codeLe a c = true) _ _ _
        ((sortCodes_perm _).trans hpermD) ?_ ?_
      · exact sortCodes_pairwise _
      · exact pairwise_shiftAbove e.2 S.dropLast hpwD hdl
    have hrec := ih (b.eraseIdx e.2) (m.eraseIdx e.2) hblen' hlen'
    rw [hsorted', maskKeep_eraseIdx b m e.2 hmk] at hrec
    rw [hadj, insertAll_append, hrec]
    have h5 := eraseIdx_insertIdx b e.2 hlt
    rw [hgd] at h5
    exact h5

/-! ## The suffix simulation: the decoder's loop replays the encoder's
entries one for one. -/

/-- Splitting `w * (n + 1) + p` with `p ≤ n` by `n + 1` recovers `w`
and `p` (the decoder's `imaxdiv`). -/
theorem tdiv_tmod_recover (w p n : Nat) (hp : p ≤ n) :
    ((w : Int) * ((n : Int) + 1) + (p : Int)).tdiv ((n : Int) + 1) =
      (w : Int) ∧
    ((w : Int) * ((n : Int) + 1) + (p : Int)).tmod ((n : Int) + 1) =
      (p : Int) := by
  have h0 : (0 : Int) ≤ (w : Int) * ((n : Int) + 1) + (p : Int) := by
    positivity
  have h1 : (0 : Int) ≤ (n : Int) + 1 := by positivity
  constructor
  · rw [Int.tdiv_eq_ediv h0 h1,
      add_comm ((w : Int) * ((n : Int) + 1)) (p : Int),
      Int.add_mul_ediv_right _ _ (by omega : ((n : Int) + 1) ≠ 0),
      Int.ediv_eq_zero_of_lt (by positivity) (by omega)]
    omega
  · rw [Int.tmod_eq_emod h0 h1,
      add_comm ((w : Int) * ((n : Int) + 1)) (p : Int),
      Int.add_mul_emod_self]
    exact Int.emod_eq_of_lt (by positivity) (by omega)

/-- Each suffix entry writes at least one digit. -/
theorem suffixGo_count (cap : Nat) :
    ∀ (cs : List (Nat × Nat)) enc encpos rlen bias last first r,
      suffixGo cap cs enc encpos rlen bias last first = r →
      encpos + cs.length ≤ r.2 := by
  intro cs
  induction cs with
  | nil =>
    intro enc encpos rlen bias last first r heq
    rw [suffixGo] at heq
    subst heq
    simp
  | cons e rest ih =>
    intro enc encpos rlen bias last first r heq
    obtain ⟨w, p⟩ := e
    rw [suffixGo] at heq
    have h1 := ih _ _ _ _ _ _ _ heq
    have h2 : 1 ≤ (encodeDelta enc cap encpos bias
        ((w : Int) * ((rlen : Int) + 1) + (p : Int) - last)).2 :=
      encodeDelta_pos _ _ _ _ _
    simp only [List.length_cons]
    omega

/-- The suffix decoding loop replays the encoder's entries: reading the
final suffix bytes from the suffix start, each delta decodes back, the
quotient/remainder split recovers `(wc, pos)`, and the rebuilt stream
grows by exactly the recorded insertions. -/
theorem suffix_decode_sim (cap : Nat) :
    ∀ (cs : List (Nat × Nat)) enc encpos rlen bias last first r,
      suffixGo cap cs enc encpos rlen bias last first = r →
      enc.length = cap →
      (∀ e ∈ cs, 32 ≤ e.1) →
      sortedAdj rlen cs →
      headDelta last rlen cs →
      ∀ (encB : List Nat) (fuel : Nat) (core : List Nat)
        (encpos0 i : Nat),
        encpos = encpos0 + i →
        core.length = rlen →
        r.2 ≤ cap →
        (∀ j, encpos0 + i ≤ j → j < r.2 →
          encB.getD j 0 = r.1.getD j 0) →
        cs.length < fuel →
        decSuffixCore encB r.2 encpos0 fuel core rlen bias last i
            first = some (insertAll core cs, rlen + cs.length) := by
  intro cs
  induction cs with
  | nil =>
    intro enc encpos rlen bias last first r heq hlen h32 hadj hhd encB
      fuel core encpos0 i hpos hclen hr2cap hagree hfuel
    rw [suffixGo] at heq
    subst heq
    obtain ⟨f, rfl⟩ : ∃ f, fuel = f + 1 := ⟨fuel - 1, by omega⟩
    rw [decSuffixCore, if_neg (by dsimp only; omega)]
    simp [insertAll]
  | cons e rest ih =>
    intro enc encpos rlen bias last first r heq hlen h32 hadj hhd encB
      fuel core encpos0 i hpos hclen hr2cap hagree hfuel
    obtain ⟨w, p⟩ := e
    rw [suffixGo] at heq
    set d : Int := (w : Int) * ((rlen : Int) + 1) + (p : Int) - last
      with hddef
    set r0 := encodeDelta enc cap encpos bias d with hr0
    have hdelta : (0 : Int) ≤ d := by
      simp only [headDelta] at hhd
      omega
    obtain ⟨hE1, hE2, hE3, hE4⟩ := encodeDeltaGo_bytes cap encpos bias
      (d.toNat + 1) enc 0 d r0 (by rw [hr0, encodeDelta]) hdelta hlen
    have hEpos : 1 ≤ r0.2 := by
      rw [hr0]; exact encodeDelta_pos _ _ _ _ _
    have hprest : p ≤ rlen ∧ (rest = [] ∨ sortedAdj (rlen + 1) rest) ∧
        headDelta ((w : Int) * ((rlen : Int) + 2) + (p : Int) + 1)
          (rlen + 1) rest := by
      cases rest with
      | nil =>
        simp only [sortedAdj] at hadj
        exact ⟨hadj, Or.inl rfl, trivial⟩
      | cons e2 rest2 =>
        obtain ⟨w2, p2⟩ := e2
        simp only [sortedAdj] at hadj
        obtain ⟨hp, hrel, hrest⟩ := hadj
        refine ⟨hp, Or.inr hrest, ?_⟩
        simp only [headDelta]
        rcases hrel with h | ⟨heql, hlt⟩
        · have h1 : ((w : Int) + 1) * ((rlen : Int) + 2) ≤
              (w2 : Int) * ((rlen : Int) + 2) :=
            mul_le_mul_of_nonneg_right (by omega) (by omega)
          have hple : (p : Int) ≤ (rlen : Int) := by exact_mod_cast hp
          push_cast
          nlinarith [h1, hple, Int.natCast_nonneg p2]
        · subst heql
          have hplt : (p : Int) < (p2 : Int) := by exact_mod_cast hlt
          push_cast
          linarith
    have hadj' : sortedAdj (rlen + 1) rest := by
      rcases hprest.2.1 with h | h
      · subst h; trivial
      · exact h
    have h32' : ∀ e ∈ rest, 32 ≤ e.1 :=
      fun e he => h32 e (List.mem_cons_of_mem _ he)
    obtain ⟨hS1, hS2, hS3, hS4, hS5⟩ := suffixGo_bytes cap rest r0.1
      (encpos + r0.2) (rlen + 1) (adapt d (rlen + 1) first)
      ((w : Int) * ((rlen : Int) + 2) + (p : Int) + 1) false r heq hE1
      h32' hadj' hprest.2.2
    have hdec : decodeDelta encB r.2 encpos bias = some (r0.2, d) := by
      rw [decodeDelta]
      have hcall := codec_roundtrip cap encpos bias (d.toNat + 1) enc 0
        d r0 (by rw [hr0, encodeDelta]) hdelta (by omega) hlen encB
        r.2 (r.2 - encpos + 1) 0 1 hS2 hr2cap
        (fun j h1 h2 => by rw [hagree j (by omega) (by omega), hS3 j h2])
        (by omega)
      rw [hcall]
      norm_num
    rw [hpos] at hdec
    obtain ⟨f, rfl⟩ : ∃ f, fuel = f + 1 := ⟨fuel - 1, by omega⟩
    rw [decSuffixCore, if_pos (by omega), hdec]
    dsimp only
    have hv : d + last = (w : Int) * ((rlen : Int) + 1) + (p : Int) := by
      rw [hddef]; ring
    rw [hv]
    have hrecover := tdiv_tmod_recover w p rlen hprest.1
    rw [hrecover.1, hrecover.2, Int.toNat_natCast, Int.toNat_natCast]
    simp only [insertAll, List.length_cons]
    rw [(show rlen + (rest.length + 1) = rlen + 1 + rest.length by omega)]
    have hfuel' : rest.length < f := by
      simp only [List.length_cons] at hfuel
      omega
    exact ih r0.1 (encpos + r0.2) (rlen + 1) _ _ false r heq hE1 h32'
      hadj' hprest.2.2 encB f (core.insertIdx p w) encpos0 (i + r0.2)
      (by omega)
      (by rw [List.length_insertIdx _ _ (by omega)]; omega)
      hr2cap (fun j h1 h2 => hagree j (by omega) h2) hfuel'

/-- `memchr` finds the first `'_'`. -/
theorem memchrUnd_found :
    ∀ (l : List Nat) (p : Nat), p < l.length →
      (∀ j, j < p → l.getD j 0 ≠ 95) → l.getD p 0 = 95 →
      memchrUnd l = some p := by
  intro l
  induction l with
  | nil => intro p hp _ _; simp at hp
  | cons c rest ih =>
    intro p hp hbefore hat
    rw [memchrUnd]
    cases p with
    | zero =>
      rw [List.getD_cons_zero] at hat
      rw [if_pos hat]
    | succ q =>
      have hc : c ≠ 95 := by
        have h0 := hbefore 0 (by omega)
        rwa [List.getD_cons_zero] at h0
      rw [if_neg hc]
      rw [ih q (by simp only [List.length_cons] at hp; omega)
        (fun j hj => by
          have h0 := hbefore (j + 1) (by omega)
          rwa [List.getD_cons_succ] at h0)
        (by rwa [List.getD_cons_succ] at hat)]
      rfl

/-- No `'_'` anywhere: `memchr` fails. -/
theorem memchrUnd_none :
    ∀ (l : List Nat), (∀ j, j < l.length → l.getD j 0 ≠ 95) →
      memchrUnd l = none := by
  intro l
  induction l with
  | nil => intro _; rfl
  | cons c rest ih =>
    intro hall
    rw [memchrUnd, if_neg (by
      have h0 := hall 0 (by simp)
      rwa [List.getD_cons_zero] at h0)]
    rw [ih (fun j hj => by
      have h0 := hall (j + 1) (by simp only [List.length_cons]; omega)
      rwa [List.getD_cons_succ] at h0)]
    rfl

/-- Two lists agreeing pointwise below `k` agree on their `k`-prefixes. -/
theorem take_eq_of_getD (l1 l2 : List Nat) (k : Nat)
    (hk1 : k ≤ l1.length) (hk2 : k ≤ l2.length)
    (h : ∀ j, j < k → l1.getD j 0 = l2.getD j 0) :
    l1.take k = l2.take k := by
  apply List.ext_getElem
  · rw [List.length_take, List.length_take]; omega
  · intro n h1 h2
    rw [List.length_take] at h1
    rw [List.getElem_take, List.getElem_take]
    have h3 := h n (by omega)
    rw [List.getD_eq_getElem l1 _ (by omega),
      List.getD_eq_getElem l2 _ (by omega)] at h3
    exact h3

/-- `wfundecode` in terms of the capacity-free suffix decode: split,
copy the prefix, decode the suffix, decompress the rebuilt stream. -/
theorem wfundecode_core (enc : List Nat) (nl : Nat) :
    wfundecode nl enc =
      (decSuffixCore enc (splitEnc enc).2.2 (splitEnc enc).2.1
          ((splitEnc enc).2.2 - (splitEnc enc).2.1 + 1)
          (enc.take (splitEnc enc).1) (splitEnc enc).1 INITIAL_BIAS
          ((INITIAL_N : Int) * (((splitEnc enc).1 : Int) + 1) -
            (if (splitEnc enc).1 = 0 then
              10 * (((splitEnc enc).1 : Int) + 1) else 0))
          0 true).map (fun q =>
        (outW (decompress (List.replicate nl 0) nl q.1).1 nl
            (decompress (List.replicate nl 0) nl q.1).2 0,
          (decompress (List.replicate nl 0) nl q.1).2)) := by
  obtain ⟨hb1, hb2⟩ := splitEnc_bounds enc
  have hlen : (enc.take (splitEnc enc).1).length = (splitEnc enc).1 := by
    rw [List.length_take]
    exact min_eq_left hb1
  rw [wfundecode]
  dsimp only
  rw [copyPrefixGo_eq]
  have hws : writeSeq (List.replicate (max nl (2 * enc.length)) 0)
      (max nl (2 * enc.length)) 0 (enc.take (splitEnc enc).1) =
      enc.take (splitEnc enc).1 ++
        List.replicate (max nl (2 * enc.length) - (splitEnc enc).1) 0 := by
    rw [writeSeq_spec _ _ _ _ (by simp) (by rw [hlen]; omega)]
    simp [List.drop_replicate, hlen]
  rw [hws]
  simp only [Nat.zero_add, hlen]
  rw [decSuffixGo_core enc (splitEnc enc).2.2 (splitEnc enc).2.1
    (max nl (2 * enc.length)) ((splitEnc enc).2.2 - (splitEnc enc).2.1 + 1)
    (enc.take (splitEnc enc).1) (splitEnc enc).1 INITIAL_BIAS
    ((INITIAL_N : Int) * (((splitEnc enc).1 : Int) + 1) -
      (if (splitEnc enc).1 = 0 then
        10 * (((splitEnc enc).1 : Int) + 1) else 0))
    0 true hlen (by omega)]
  cases hC : decSuffixCore enc (splitEnc enc).2.2 (splitEnc enc).2.1
      ((splitEnc enc).2.2 - (splitEnc enc).2.1 + 1)
      (enc.take (splitEnc enc).1) (splitEnc enc).1 INITIAL_BIAS
      ((INITIAL_N : Int) * (((splitEnc enc).1 : Int) + 1) -
        (if (splitEnc enc).1 = 0 then
          10 * (((splitEnc enc).1 : Int) + 1) else 0))
      0 true with
  | none => rfl
  | some pr2 =>
    obtain ⟨core, np⟩ := pr2
    have hnp : core.length = np :=
      decSuffixCore_length enc _ _ _ _ _ _ _ _ _ _ hlen hC
    simp only [Option.map_some']
    rw [List.take_left' hnp]

/-- `basicGo` splits the compressed stream by a keep mask: the output
bytes are the kept symbols written in order, the prefix length counts
them, and the recorded codes are the rest with their positions. -/
theorem basicGo_mask (cap : Nat) :
    ∀ (rest : List Nat) namepos enc encpos codes,
      ∃ mask : List Bool, mask.length = rest.length ∧
        basicGo cap rest namepos enc encpos codes =
          (writeSeq enc cap encpos (maskKeep rest mask),
           encpos + (maskKeep rest mask).length,
           codes ++ maskCodes rest mask namepos) := by
  intro rest
  induction rest with
  | nil =>
    intro namepos enc encpos codes
    refine ⟨[], rfl, ?_⟩
    rw [basicGo]
    simp [maskKeep, maskCodes, writeSeq]
  | cons wc rest' ih =>
    intro namepos enc encpos codes
    by_cases hb : isBasicSym wc (encpos ≠ 0) = true
    · obtain ⟨mask', hm1, hm2⟩ := ih (namepos + 1)
        (outW enc cap encpos wc) (encpos + 1) codes
      refine ⟨true :: mask', by simp [hm1], ?_⟩
      rw [basicGo, if_pos hb, hm2]
      rw [maskKeep, if_pos rfl, maskCodes, if_pos rfl]
      rw [writeSeq]
      simp only [Prod.mk.injEq]
      refine ⟨trivial, ?_, trivial⟩
      simp only [List.length_cons]
      omega
    · obtain ⟨mask', hm1, hm2⟩ := ih (namepos + 1) enc encpos
        (codes ++ [(wc, namepos)])
      refine ⟨false :: mask', by simp [hm1], ?_⟩
      rw [basicGo, if_neg hb, hm2]
      rw [maskKeep, if_neg Bool.false_ne_true, maskCodes,
        if_neg Bool.false_ne_true]
      rw [List.append_assoc, List.singleton_append]

/-- C1 (amended): the round trip.  For every input whose scalars are
all at least 32 and outside the match band `U+D800..U+DFFF`, decoding
the trimmed encoding (produced with the required capacity) under
`namelen` equal to the input length returns exactly the input and its
length. -/
theorem c1_roundtrip (s : List Nat)
    (hwf : ∀ c ∈ s, 32 ≤ c ∧ isBackref c = false)
    (hsmall : s.length < 2 ^ 64) :
    wfundecode s.length (encBytes (wfunencode 0 s).2 s) =
      some (s, s.length) := by
  have h32 : ∀ c ∈ s, 32 ≤ c := fun c hc => (hwf c hc).1
  have hnob : ∀ c ∈ s, isBackref c = false := fun c hc => (hwf c hc).2
  obtain ⟨hb32, -⟩ := compressOut_ge32 s h32
  have hlz := compressOut_lz s hnob hsmall s.length (le_refl _)
  generalize hcap : (wfunencode 0 s).2 = cap
  have hc9 : (wfunencode cap s).2 = cap := by
    rw [← hcap]
    exact (wfunencode_congr s (wfunencode 0 s).2 0 0 (Nat.zero_le _)
      (Nat.zero_le _)).1
  rw [encBytes, hc9]
  set b := compressOut s with hbdef
  set r := basicGo cap b 0 (List.replicate cap 0) 0 [] with hrdef
  obtain ⟨hB1, hB2, hB3, hB4, hB5, hB6, hB7, hB8, hB9⟩ :=
    basicGo_inv cap b 0 (List.replicate cap 0) 0 [] r hrdef.symm hb32
      (by simp) (by simp) (by simp) List.Pairwise.nil (by simp) (by simp)
  obtain ⟨mask, hm1, hm2⟩ :=
    basicGo_mask cap b 0 (List.replicate cap 0) 0 []
  have hrm : r = (writeSeq (List.replicate cap 0) cap 0 (maskKeep b mask),
      0 + (maskKeep b mask).length, [] ++ maskCodes b mask 0) := by
    rw [hrdef]; exact hm2
  have hplen : r.2.1 = (maskKeep b mask).length := by rw [hrm]; simp
  have hcodes : r.2.2 = maskCodes b mask 0 := by rw [hrm]; simp
  have hKlen : (maskKeep b mask).length = r.2.1 := hplen.symm
  have hrecon' : insertAll (maskKeep b mask)
      (adjustCodes (sortCodes r.2.2)) = b := by
    rw [hcodes]
    exact insertAll_reconstruct (maskCodes b mask 0).length b mask hm1 rfl
  have hlenb : r.2.1 + r.2.2.length = b.length := by
    have h0 := hB3; simpa using h0
  have hr1 : r.2.1 ≤ cap → r.1 = maskKeep b mask ++
      List.replicate (cap - r.2.1) 0 := by
    intro hle
    rw [hrm]
    dsimp only
    rw [writeSeq_spec _ _ _ _ (by simp)
      (by simp only [Nat.zero_add]; rw [hKlen]; exact hle)]
    simp only [List.take_zero, List.nil_append, Nat.zero_add,
      List.drop_replicate]
  have hdecomp : decompress (List.replicate s.length 0) s.length b =
      (s, s.length) := by
    rw [decompress, hlz]
    simp
  have hfinish : ∀ (o : Option (List Nat × Nat)),
      o = some (b, b.length) →
      o.map (fun q =>
        (outW (decompress (List.replicate s.length 0) s.length q.1).1
            s.length
            (decompress (List.replicate s.length 0) s.length q.1).2 0,
          (decompress (List.replicate s.length 0) s.length q.1).2)) =
      some (s, s.length) := by
    intro o ho
    rw [ho, Option.map_some']
    dsimp only
    rw [hdecomp]
    dsimp only
    rw [outW, if_neg (by omega)]
  by_cases hemp : r.2.2.isEmpty = true
  · -- every compressed symbol is basic: prefix-only output
    have hE : wfunencode cap s = (outW r.1 cap r.2.1 0, r.2.1) := by
      rw [wfunencode]
      dsimp only
      rw [← hbdef, ← hrdef, if_pos hemp]
    have hcap1 : r.2.1 = cap := by
      have h0 := hc9
      rw [hE] at h0
      exact h0
    have hclen0 : r.2.2.length = 0 := by
      rw [List.isEmpty_iff] at hemp
      rw [hemp]
      rfl
    have hplenb : r.2.1 = b.length := by omega
    have hmc : maskCodes b mask 0 = [] := by
      rw [← hcodes]
      exact List.length_eq_zero.mp hclen0
    have hK : maskKeep b mask = b := maskKeep_of_no_codes b mask 0 hm1 hmc
    have hr1' : r.1 = b ++ List.replicate 0 0 := by
      have h0 := hr1 (by omega)
      rw [hK] at h0
      rw [h0, (show cap - r.2.1 = 0 by omega)]
    have hENC : (wfunencode cap s).1.take cap = b := by
      rw [hE]
      dsimp only
      rw [outW, if_neg (by omega)]
      rw [hr1', List.replicate_zero, List.append_nil,
        (show cap = b.length by omega), List.take_length]
    have hno : ∀ j, j < b.length → b.getD j 0 ≠ 95 := by
      intro j hj hcon
      have h5 := hB5 j (by omega) (by omega) (by omega)
      have hbj : r.1.getD j 0 = b.getD j 0 := by
        rw [hr1']
        simp
      rw [hbj, hcon] at h5
      exact absurd h5 (by decide)
    have hsplit : splitEnc b = (b.length, b.length, b.length) := by
      rw [splitEnc, memchrUnd_none b hno]
    rw [hENC, wfundecode_core b s.length, hsplit]
    dsimp only
    refine hfinish _ ?_
    rw [decSuffixCore, if_neg (by omega), List.take_length]
  · -- extended characters present: separator and suffix
    have hcne : r.2.2.length ≠ 0 := by
      intro hcon
      rw [List.isEmpty_iff] at hemp
      exact hemp (List.length_eq_zero.mp hcon)
    have hperm := sortCodes_perm r.2.2
    have hpairs := sortCodes_pairwise r.2.2
    have hnodup : ((sortCodes r.2.2).map Prod.snd).Nodup := by
      have hmapped : (r.2.2.map Prod.snd).Pairwise (· < ·) :=
        List.pairwise_map.mpr hB7
      exact ((hperm.map Prod.snd).nodup_iff).mpr
        (hmapped.imp fun h => Nat.ne_of_lt h)
    have hbound : ∀ e ∈ sortCodes r.2.2,
        e.2 ≤ r.2.1 + countLtPos e.2 (sortCodes r.2.2) := by
      intro e he
      rw [countLtPos_perm _ _ _ hperm]
      exact hB8 e (hperm.mem_iff.mp he)
    have hadj := adjust_sortedAdj (sortCodes r.2.2) r.2.1 hpairs hnodup
      hbound
    have hwcs : ∀ e ∈ adjustCodes (sortCodes r.2.2), 32 ≤ e.1 :=
      adjustCodes_fst _ (fun e he => hB9 e (hperm.mem_iff.mp he))
    have hsne : adjustCodes (sortCodes r.2.2) ≠ [] := by
      intro hcon
      have hl := adjustCodes_length (sortCodes r.2.2)
      rw [hcon] at hl
      have h0 := hperm.length_eq
      simp at hl
      omega
    have hcslen : (adjustCodes (sortCodes r.2.2)).length =
        r.2.2.length := by
      rw [adjustCodes_length]
      exact hperm.length_eq
    by_cases h1 : r.2.1 = 0
    · -- no basic character: suffix only, trailing underscore
      have h2 : ¬(r.2.1 ≠ 0) := not_not_intro h1
      have hhd : headDelta ((INITIAL_N : Int) * ((r.2.1 : Int) + 1) -
          10 * ((r.2.1 : Int) + 1)) r.2.1
          (adjustCodes (sortCodes r.2.2)) := by
        cases hA : adjustCodes (sortCodes r.2.2) with
        | nil => simp [headDelta]
        | cons e0 tl =>
          obtain ⟨w0, p0⟩ := e0
          have hw0 : 32 ≤ w0 := hwcs (w0, p0) (by rw [hA]; simp)
          simp only [headDelta, INITIAL_N]
          have hm : (32 : Int) * ((r.2.1 : Int) + 1) ≤
              (w0 : Int) * ((r.2.1 : Int) + 1) :=
            mul_le_mul_of_nonneg_right (by omega) (by omega)
          have hp0 : (0 : Int) ≤ (p0 : Int) := Int.natCast_nonneg p0
          push_cast
          push_cast at hm
          linarith
      set r2 := suffixGo cap (adjustCodes (sortCodes r.2.2)) r.1 r.2.1
        r.2.1 INITIAL_BIAS
        ((INITIAL_N : Int) * ((r.2.1 : Int) + 1) -
          10 * ((r.2.1 : Int) + 1)) true with hr2
      obtain ⟨hS1, hS2, hS3, hS4, hS5⟩ := suffixGo_bytes cap
        (adjustCodes (sortCodes r.2.2)) r.1 r.2.1 r.2.1 INITIAL_BIAS
        ((INITIAL_N : Int) * ((r.2.1 : Int) + 1) -
          10 * ((r.2.1 : Int) + 1)) true r2 hr2.symm hB1 hwcs hadj hhd
      have hS5' := hS5 hsne
      have hE : wfunencode cap s =
          (outW (outW r2.1 cap r2.2 95) cap (r2.2 + 1) 0, r2.2 + 1) := by
        rw [wfunencode]
        dsimp only
        rw [← hbdef, ← hrdef, if_neg hemp]
        simp only [if_neg h2, if_pos h1]
      have hcap1 : r2.2 + 1 = cap := by
        have h0 := hc9
        rw [hE] at h0
        exact h0
      have hENC : (wfunencode cap s).1.take cap =
          outW r2.1 cap r2.2 95 := by
        rw [hE]
        dsimp only
        rw [outW, if_neg (by omega)]
        rw [List.take_of_length_le (by rw [outW_length, hS1])]
      have hElen : (outW r2.1 cap r2.2 95).length = cap := by
        rw [outW_length]; exact hS1
      have hfound : memchrUnd (outW r2.1 cap r2.2 95) = some r2.2 := by
        apply memchrUnd_found
        · rw [hElen]; omega
        · intro j hj hcon
          have hvb : validB62 ((outW r2.1 cap r2.2 95).getD j 0) =
              true := by
            rw [outW_getD_ne _ _ _ _ _ (by omega)]
            exact hS4 j (by omega) (by omega) (by omega)
          rw [hcon] at hvb
          exact absurd hvb (by decide)
        · rw [outW_getD_eq _ _ _ _ hS1 (by omega)]
      have hsplit : splitEnc (outW r2.1 cap r2.2 95) = (0, 0, r2.2) := by
        rw [splitEnc, hfound]
        dsimp only
        rw [if_pos (by rw [hElen]; omega), hElen,
          (show cap - 1 = r2.2 by omega)]
      have hK0 : maskKeep b mask = [] := by
        refine List.length_eq_zero.mp ?_
        omega
      have hsim := suffix_decode_sim cap (adjustCodes (sortCodes r.2.2))
        r.1 r.2.1 r.2.1 INITIAL_BIAS
        ((INITIAL_N : Int) * ((r.2.1 : Int) + 1) -
          10 * ((r.2.1 : Int) + 1)) true r2 hr2.symm hB1 hwcs hadj hhd
        (outW r2.1 cap r2.2 95) (r2.2 - 0 + 1) (maskKeep b mask) 0 0
        (by omega) hKlen (by omega)
        (fun j hj1 hj2 => outW_getD_ne _ _ _ _ _ (by omega))
        (by
          have hc := suffixGo_count cap (adjustCodes (sortCodes r.2.2))
            r.1 r.2.1 r.2.1 INITIAL_BIAS
            ((INITIAL_N : Int) * ((r.2.1 : Int) + 1) -
              10 * ((r.2.1 : Int) + 1)) true r2 hr2.symm
          omega)
      rw [hENC, wfundecode_core (outW r2.1 cap r2.2 95) s.length,
        hsplit]
      dsimp only
      rw [if_pos rfl, List.take_zero]
      rw [h1] at hsim
      rw [hK0] at hsim hrecon'
      refine hfinish _ ?_
      rw [hsim, hrecon', hcslen,
        (show 0 + r.2.2.length = b.length by omega)]
    · -- basic prefix, separator, suffix
      have h2 : r.2.1 ≠ 0 := h1
      have hhd : headDelta ((INITIAL_N : Int) * ((r.2.1 : Int) + 1) -
          0) r.2.1 (adjustCodes (sortCodes r.2.2)) := by
        cases hA : adjustCodes (sortCodes r.2.2) with
        | nil => simp [headDelta]
        | cons e0 tl =>
          obtain ⟨w0, p0⟩ := e0
          have hw0 : 32 ≤ w0 := hwcs (w0, p0) (by rw [hA]; simp)
          simp only [headDelta, INITIAL_N]
          have hm : (32 : Int) * ((r.2.1 : Int) + 1) ≤
              (w0 : Int) * ((r.2.1 : Int) + 1) :=
            mul_le_mul_of_nonneg_right (by omega) (by omega)
          have hp0 : (0 : Int) ≤ (p0 : Int) := Int.natCast_nonneg p0
          push_cast
          push_cast at hm
          linarith
      set r2 := suffixGo cap (adjustCodes (sortCodes r.2.2))
        (outW r.1 cap r.2.1 95) (r.2.1 + 1) r.2.1 INITIAL_BIAS
        ((INITIAL_N : Int) * ((r.2.1 : Int) + 1) - 0) true with hr2
      obtain ⟨hS1, hS2, hS3, hS4, hS5⟩ := suffixGo_bytes cap
        (adjustCodes (sortCodes r.2.2)) (outW r.1 cap r.2.1 95)
        (r.2.1 + 1) r.2.1 INITIAL_BIAS
        ((INITIAL_N : Int) * ((r.2.1 : Int) + 1) - 0) true r2 hr2.symm
        (by rw [outW_length]; exact hB1) hwcs hadj hhd
      have hS5' := hS5 hsne
      have hE : wfunencode cap s = (outW r2.1 cap r2.2 0, r2.2) := by
        rw [wfunencode]
        dsimp only
        rw [← hbdef, ← hrdef, if_neg hemp]
        simp only [if_pos h2, if_neg h1]
      have hcap1 : r2.2 = cap := by
        have h0 := hc9
        rw [hE] at h0
        exact h0
      have hENC : (wfunencode cap s).1.take cap = r2.1 := by
        rw [hE]
        dsimp only
        rw [outW, if_neg (by omega)]
        rw [List.take_of_length_le (by rw [hS1])]
      have hENCb : ∀ j, j < r.2.1 → r2.1.getD j 0 = r.1.getD j 0 := by
        intro j hj
        rw [hS3 j (by omega), outW_getD_ne _ _ _ _ _ (by omega)]
      have hfound : memchrUnd r2.1 = some r.2.1 := by
        apply memchrUnd_found
        · rw [hS1]; omega
        · intro j hj hcon
          have h5 := hB5 j (by omega) (by omega) (by omega)
          rw [← hENCb j hj, hcon] at h5
          exact absurd h5 (by decide)
        · rw [hS3 r.2.1 (by omega), outW_getD_eq _ _ _ _ hB1 (by omega)]
      have hsplit : splitEnc r2.1 = (r.2.1, r.2.1 + 1, cap) := by
        rw [splitEnc, hfound]
        dsimp only
        rw [if_neg (by rw [hS1]; omega), hS1]
      have hcore : r2.1.take r.2.1 = maskKeep b mask := by
        have ht : r2.1.take r.2.1 = r.1.take r.2.1 :=
          take_eq_of_getD _ _ _ (by rw [hS1]; omega) (by rw [hB1]; omega)
            (fun j hj => hENCb j hj)
        rw [ht, hr1 (by omega), List.take_left' hKlen]
      have hsim := suffix_decode_sim cap (adjustCodes (sortCodes r.2.2))
        (outW r.1 cap r.2.1 95) (r.2.1 + 1) r.2.1 INITIAL_BIAS
        ((INITIAL_N : Int) * ((r.2.1 : Int) + 1) - 0) true r2 hr2.symm
        (by rw [outW_length]; exact hB1) hwcs hadj hhd
        r2.1 (cap - (r.2.1 + 1) + 1) (maskKeep b mask) (r.2.1 + 1) 0
        (by omega) hKlen (by omega)
        (fun j hj1 hj2 => rfl)
        (by
          have hc := suffixGo_count cap (adjustCodes (sortCodes r.2.2))
            (outW r.1 cap r.2.1 95) (r.2.1 + 1) r.2.1 INITIAL_BIAS
            ((INITIAL_N : Int) * ((r.2.1 : Int) + 1) - 0) true r2
            hr2.symm
          omega)
      rw [hENC, wfundecode_core r2.1 s.length, hsplit]
      dsimp only
      rw [if_neg h1, hcore]
      rw [hcap1] at hsim
      refine hfinish _ ?_
      rw [hsim, hrecon', hcslen,
        (show r.2.1 + r.2.2.length = b.length from hlenb)]

/-- Witness for `c1_roundtrip` at `"bücher"`
(`[98, 252, 99, 104, 101, 114]`). -/
theorem c1_roundtrip_witness :
    wfundecode 6 (encBytes (wfunencode 0 [98, 252, 99, 104, 101, 114]).2
        [98, 252, 99, 104, 101, 114]) =
      some ([98, 252, 99, 104, 101, 114], 6) :=
  c1_roundtrip [98, 252, 99, 104, 101, 114] (by decide) (by decide)

/-! ## Claim C4: sweep versus sort (amended)

The unconditional equivalence is refuted by
`c4_ce_basic_digit_double_emit`: the sweep's counting chain falls
through to the emission test, so a basic digit whose value equals the
current sweep value `n` is both counted and emitted, while the sort
strategy emits each extended entry exactly once.  The collision needs a
digit among the extended entries, which only a digit before the first
letter of the compressed stream can produce.  Ruling that out (and
keeping every scalar in `[32, WCHAR_MAX)` so that the sweep can reach
every extended value), the two strategies produce identical output:
the sweep emits the extended entries in exactly the sorted order with
exactly the position-corrected insertion points. -/

/-- A digit before the first letter of the stream (the only way a basic
digit can become an extended entry). -/
def noLeadingDigit : List Nat → Bool
  | [] => true
  | c :: rest =>
    if (65 ≤ c ∧ c ≤ 90) ∨ (97 ≤ c ∧ c ≤ 122) then true
    else if 48 ≤ c ∧ c ≤ 57 then false
    else noLeadingDigit rest

/-- The two revisions' digit-byte writers agree on in-range values. -/
theorem encodeValue_digitChar (v : Int) (h0 : 0 ≤ v) (h61 : v ≤ 61) :
    encodeValue v = digitChar v.toNat := by
  rw [encodeValue, digitChar]
  split_ifs <;> omega

/-- A symbol the basic pass keeps is alphanumeric. -/
theorem kept_alnum (ch : Nat) (f : Bool) (h : isenc ch f = false) :
    isAlnum ch = true := by
  rw [isenc] at h
  simp only [isAlnum, decide_eq_true_eq]
  split_ifs at h with h1 h2
  · tauto
  · right; right; exact h2.2

/-- The second revision's `encode` writes the same buffer and count as
the first revision's on a non-negative delta. -/
theorem encodeDeltaGo2_eq (len base : Nat) (bias : Int) :
    ∀ fuel buf pos delta, 0 ≤ delta →
      encodeDeltaGo2 len base bias fuel buf pos delta =
        encodeDeltaGo len base bias fuel buf pos delta := by
  intro fuel
  induction fuel with
  | zero => intro buf pos delta hd; rfl
  | succ fuel ih =>
    intro buf pos delta hd
    obtain ⟨ht1, ht52⟩ := tresh_bounds pos bias
    rw [encodeDeltaGo2, encodeDeltaGo]
    split
    · rename_i hlt
      rw [putDigit, if_pos ⟨hd, by simp only [BASE]; omega⟩,
        encodeValue_digitChar delta hd (by omega)]
    · rename_i hge
      have hmod0 : 0 ≤ (delta - tresh pos bias).tmod
          (BASE - tresh pos bias) :=
        Int.tmod_nonneg _ (by omega)
      have hmodlt : (delta - tresh pos bias).tmod
          (BASE - tresh pos bias) < BASE - tresh pos bias :=
        Int.tmod_lt_of_pos _ (by simp only [BASE]; omega)
      rw [putDigit, if_pos ⟨by omega, by simp only [BASE] at *; omega⟩,
        encodeValue_digitChar _ (by omega)
          (by simp only [BASE] at *; omega)]
      exact ih _ _ _ (Int.tdiv_nonneg (by omega) (by simp only [BASE]; omega))

/-- `encode` (second revision) = `encode` (first revision) on
non-negative deltas. -/
theorem encodeDelta2_eq (buf : List Nat) (len base : Nat)
    (bias delta : Int) (hd : 0 ≤ delta) :
    encodeDelta2 buf len base bias delta =
      encodeDelta buf len base bias delta := by
  rw [encodeDelta2, encodeDelta]
  exact encodeDeltaGo2_eq len base bias (delta.toNat + 1) buf 0 delta hd

/-- The adaptation loop returns a non-negative bias from a non-negative
state. -/
theorem adaptGo_nonneg :
    ∀ fuel (delta k : Int), 0 ≤ delta → 0 ≤ k →
      0 ≤ adaptGo fuel delta k := by
  intro fuel
  induction fuel with
  | zero =>
    intro delta k hd hk
    rw [adaptGo]
    have h1 : 0 ≤ ((BASE - TMIN + 1) * delta).tdiv (delta + SKEW) :=
      Int.tdiv_nonneg (by simp only [BASE, TMIN]; omega)
        (by simp only [SKEW]; omega)
    omega
  | succ fuel ih =>
    intro delta k hd hk
    rw [adaptGo]
    split
    · exact ih _ _ (Int.tdiv_nonneg hd (by omega))
        (by simp only [BASE]; omega)
    · have h1 : 0 ≤ ((BASE - TMIN + 1) * delta).tdiv (delta + SKEW) :=
        Int.tdiv_nonneg (by simp only [BASE, TMIN]; omega)
          (by simp only [SKEW]; omega)
      omega

/-- `adapt` of a non-negative delta is non-negative. -/
theorem adapt_nonneg (delta : Int) (outpos : Nat) (first : Bool)
    (hd : 0 ≤ delta) : 0 ≤ adapt delta outpos first := by
  rw [adapt]
  apply adaptGo_nonneg
  · have h1 : 0 ≤ delta.tdiv DAMP := Int.tdiv_nonneg hd (by simp [DAMP])
    have h2 : 0 ≤ delta.tdiv 2 := Int.tdiv_nonneg hd (by omega)
    have h3 : 0 ≤ delta.tdiv (outpos : Int) :=
      Int.tdiv_nonneg hd (Int.natCast_nonneg _)
    split <;> omega
  · exact le_refl 0

/-- A symbol the basic pass rejects is basic for the first pass. -/
theorem isenc_false_basic (wc e : Nat)
    (h : isenc wc (decide (e = 0)) = false) :
    isBasicSym wc (!decide (e = 0)) = true := by
  rw [isenc] at h
  simp only [isBasicSym, decide_eq_true_eq, Bool.not_eq_true',
    decide_eq_false_iff_not]
  split_ifs at h with h1 h2
  · tauto
  · simp only [decide_eq_true_eq] at h2
    exact Or.inr (Or.inr ⟨h2.2.1, h2.2.2, by simpa using h2.1⟩)

/-- A symbol the second revision's basic pass sends to the suffix is
not basic for the first revision's either. -/
theorem isenc_true_basic (wc e : Nat)
    (h : isenc wc (decide (e = 0)) = true) :
    isBasicSym wc (!decide (e = 0)) = false := by
  rw [isenc] at h
  simp only [isBasicSym, decide_eq_true_eq, Bool.not_eq_true',
    decide_eq_false_iff_not]
  split_ifs at h with h1 h2
  simp only [decide_eq_true_eq, not_and] at h2
  intro hcon
  rcases hcon with hc | hc | hc
  · exact h1 (Or.inl hc)
  · exact h1 (Or.inr hc)
  · exact h2 hc.2.2 hc.1 hc.2.1

/-- The two revisions' basic passes write the same bytes and count. -/
theorem basic2Go_eq_basicGo (cap : Nat) :
    ∀ (rest : List Nat) namepos enc encpos codes,
      basic2Go cap rest enc encpos =
        ((basicGo cap rest namepos enc encpos codes).1,
         (basicGo cap rest namepos enc encpos codes).2.1) := by
  intro rest
  induction rest with
  | nil => intro namepos enc encpos codes; rw [basic2Go, basicGo]
  | cons ch rest ih =>
    intro namepos enc encpos codes
    rw [basic2Go, basicGo]
    by_cases hb : isenc ch (decide (encpos = 0)) = true
    · rw [if_neg (by simp [hb]),
        if_neg (by simp [isenc_true_basic ch encpos hb])]
      exact ih (namepos + 1) enc encpos (codes ++ [(ch, namepos)])
    · have hb' : isenc ch (decide (encpos = 0)) = false := by
        simpa using hb
      rw [if_pos (by simp [hb']),
        if_pos (by simp [isenc_false_basic ch encpos hb'])]
      exact ih (namepos + 1) (outW enc cap encpos ch) (encpos + 1) codes

/-- The stream classification the sweep encoder recomputes on each
pass: `true` marks a kept (basic) symbol. -/
def classify : List Nat → Bool → List Bool
  | [], _ => []
  | ch :: rest, first =>
    if isenc ch first then false :: classify rest first
    else true :: classify rest false

/-- The first revision's basic pass realises exactly the `classify`
mask. -/
theorem basicGo_classify (cap : Nat) :
    ∀ (rest : List Nat) namepos enc encpos codes,
      basicGo cap rest namepos enc encpos codes =
        (writeSeq enc cap encpos
           (maskKeep rest (classify rest (decide (encpos = 0)))),
         encpos +
           (maskKeep rest (classify rest (decide (encpos = 0)))).length,
         codes ++
           maskCodes rest (classify rest (decide (encpos = 0))) namepos) := by
  intro rest
  induction rest with
  | nil =>
    intro namepos enc encpos codes
    rw [basicGo, classify]
    simp [maskKeep, maskCodes, writeSeq]
  | cons ch rest ih =>
    intro namepos enc encpos codes
    rw [basicGo, classify]
    by_cases hb : isenc ch (decide (encpos = 0)) = true
    · rw [if_pos hb, if_neg (by simp [isenc_true_basic ch encpos hb])]
      rw [ih (namepos + 1) enc encpos (codes ++ [(ch, namepos)])]
      rw [maskKeep, if_neg Bool.false_ne_true, maskCodes,
        if_neg Bool.false_ne_true]
      rw [List.append_assoc, List.singleton_append]
    · have hb' : isenc ch (decide (encpos = 0)) = false := by
        simpa using hb
      rw [if_neg hb, if_pos (by simp [isenc_false_basic ch encpos hb'])]
      rw [ih (namepos + 1) (outW enc cap encpos ch) (encpos + 1) codes]
      have h1 : decide (encpos + 1 = 0) = false := by simp
      rw [h1]
      rw [maskKeep, if_pos rfl, maskCodes, if_pos rfl, writeSeq]
      simp only [Prod.mk.injEq]
      refine ⟨trivial, ?_, trivial⟩
      simp only [List.length_cons]
      omega

/-- The values of the symbols a sweep classifies as extended. -/
def extVals : List Nat → Bool → List Nat
  | [], _ => []
  | ch :: rest, first =>
    if isenc ch first then ch :: extVals rest first
    else extVals rest false

/-- Extended values occur in the stream. -/
theorem extVals_subset : ∀ (rest : List Nat) (first : Bool) (v : Nat),
    v ∈ extVals rest first → v ∈ rest := by
  intro rest
  induction rest with
  | nil => intro first v hv; rw [extVals] at hv; exact absurd hv (by simp)
  | cons ch rest ih =>
    intro first v hv
    rw [extVals] at hv
    split at hv
    · rcases List.mem_cons.mp hv with h | h
      · exact h ▸ List.mem_cons_self _ _
      · exact List.mem_cons_of_mem _ (ih first v h)
    · exact List.mem_cons_of_mem _ (ih false v hv)

/-- There are no more extended values than stream symbols. -/
theorem extVals_length_le : ∀ (rest : List Nat) (first : Bool),
    (extVals rest first).length ≤ rest.length := by
  intro rest
  induction rest with
  | nil => intro first; rw [extVals]
  | cons ch rest ih =>
    intro first
    rw [extVals]
    split
    · have h0 := ih first
      simp only [List.length_cons]
      omega
    · have h0 := ih false
      simp only [List.length_cons]
      omega

/-- The extended values are the first components of the recorded
codes. -/
theorem extVals_maskCodes :
    ∀ (rest : List Nat) (first : Bool) (i : Nat),
      (maskCodes rest (classify rest first) i).map Prod.fst =
        extVals rest first := by
  intro rest
  induction rest with
  | nil =>
    intro first i
    rw [classify, extVals, maskCodes]
    rfl
  | cons ch rest ih =>
    intro first i
    rw [classify, extVals]
    by_cases hb : isenc ch first = true
    · rw [if_pos hb, if_pos hb, maskCodes, if_neg Bool.false_ne_true]
      rw [List.map_cons, ih first (i + 1)]
    · rw [if_neg hb, if_neg hb, maskCodes, if_pos rfl]
      exact ih false (i + 1)

/-- With no digit before the first letter, no extended value is
alphanumeric. -/
theorem noLeadingDigit_extVals :
    ∀ (rest : List Nat) (first : Bool),
      (first = true → noLeadingDigit rest = true) →
      ∀ v ∈ extVals rest first, isAlnum v = false := by
  intro rest
  induction rest with
  | nil => intro first _ v hv; rw [extVals] at hv; exact absurd hv (by simp)
  | cons ch rest ih =>
    intro first hnl v hv
    rw [extVals] at hv
    split at hv
    · rename_i hb
      have hna : ¬((65 ≤ ch ∧ ch ≤ 90) ∨ (97 ≤ ch ∧ ch ≤ 122)) := by
        intro hc
        rw [isenc, if_pos hc] at hb
        exact absurd hb (by simp)
      rcases List.mem_cons.mp hv with h | h
      · subst h
        rw [isenc, if_neg hna] at hb
        simp only [isAlnum, decide_eq_false_iff_not, decide_eq_true_eq]
        intro hcon
        rcases hcon with hc | hc | hc
        · exact hna (Or.inl hc)
        · exact hna (Or.inr hc)
        · by_cases hf : first = true
          · have hnl' := hnl hf
            rw [noLeadingDigit, if_neg hna, if_pos hc] at hnl'
            exact absurd hnl' (by simp)
          · have hcond : ¬ (first = true) ∧ 48 ≤ v ∧ v ≤ 57 :=
              ⟨hf, hc⟩
            rw [if_pos hcond] at hb
            exact absurd hb (by simp)
      · refine ih first ?_ v h
        intro hf
        have hnl' := hnl hf
        by_cases hdg : 48 ≤ ch ∧ ch ≤ 57
        · rw [noLeadingDigit, if_neg hna, if_pos hdg] at hnl'
          exact absurd hnl' (by simp)
        · rw [noLeadingDigit, if_neg hna, if_neg hdg] at hnl'
          exact hnl'
    · exact ih false (by intro hcon; simp at hcon) v hv

/-- The insertion entries `(n, decpos)` one sweep at value `n` emits,
with the `decpos` threading of `sweepScan` (including the fall-through
double count of a basic digit equal to `n`). -/
def scanEmits (n : Nat) : List Nat → Bool → Nat → List (Nat × Nat)
  | [], _, _ => []
  | ch :: rest', first, decpos =>
    let notEnc := ¬ isenc ch first
    let first' := if notEnc then false else first
    let decpos' := if notEnc ∨ (isenc ch first ∧ ch < n) then decpos + 1
      else decpos
    if ch ≠ n then scanEmits n rest' first' decpos'
    else (ch, decpos') :: scanEmits n rest' first' (decpos' + 1)

/-- The `next` value one sweep at value `n` hands to the outer loop. -/
def scanNext (n : Nat) : List Nat → Bool → Nat → Nat
  | [], _, next => next
  | ch :: rest', first, next =>
    let notEnc := ¬ isenc ch first
    let first' := if notEnc then false else first
    let next' := if isenc ch first ∧ ¬ ch < n ∧ ch > n ∧ ch < next then ch
      else next
    scanNext n rest' first' next'

/-- The `first` flag after one sweep. -/
def scanFirst : List Nat → Bool → Bool
  | [], first => first
  | ch :: rest', first =>
    let notEnc := ¬ isenc ch first
    let first' := if notEnc then false else first
    scanFirst rest' first'

/-- The emission state update of `sweepScan`, separated from the
scanning: process a list of `(value, decoded position)` entries. -/
def emitGo (enclen : Nat) : List (Nat × Nat) → List Nat → Nat → Nat →
    Int → Int → List Nat × Nat × Nat × Int × Int
  | [], enc, encpos, declen, bias, last => (enc, encpos, declen, bias, last)
  | (ch, dp) :: rest, enc, encpos, declen, bias, last =>
    let delta : Int := (ch : Int) * ((declen : Int) + 1) + (dp : Int) - last
    let useB := if bias < 0 then INITIAL_BIAS else bias
    let r := encodeDelta2 enc enclen encpos useB delta
    emitGo enclen rest r.1 (encpos + r.2) (declen + 1)
      (adapt delta (declen + 1) (decide (bias < 0)))
      ((ch : Int) * ((declen : Int) + 2) + (dp : Int) + 1)

/-- `sweepScan` factors through `scanEmits`, `scanNext` and
`scanFirst`. -/
theorem sweepScan_spec (enclen n : Nat) :
    ∀ (rest : List Nat) (enc : List Nat) (encpos declen : Nat)
      (bias last : Int) (decpos next : Nat) (first : Bool),
      sweepScan enclen n rest enc encpos declen bias last decpos next
          first =
        ⟨(emitGo enclen (scanEmits n rest first decpos) enc encpos declen
            bias last).1,
          (emitGo enclen (scanEmits n rest first decpos) enc encpos declen
            bias last).2.1,
          (emitGo enclen (scanEmits n rest first decpos) enc encpos declen
            bias last).2.2.1,
          (emitGo enclen (scanEmits n rest first decpos) enc encpos declen
            bias last).2.2.2.1,
          (emitGo enclen (scanEmits n rest first decpos) enc encpos declen
            bias last).2.2.2.2,
          scanNext n rest first next, scanFirst rest first⟩ := by
  intro rest
  induction rest with
  | nil =>
    intro enc encpos declen bias last decpos next first
    rw [sweepScan, scanEmits, scanNext, scanFirst, emitGo]
  | cons ch rest' ih =>
    intro enc encpos declen bias last decpos next first
    rw [sweepScan, scanEmits, scanNext, scanFirst]
    dsimp only
    by_cases hch : ch ≠ n
    · rw [if_pos hch, if_pos hch]
      exact ih _ _ _ _ _ _ _ _
    · rw [if_neg hch, if_neg hch, emitGo]
      exact ih _ _ _ _ _ _ _ _

/-- `emitGo` over an appended entry list. -/
theorem emitGo_append (enclen : Nat) :
    ∀ (A B : List (Nat × Nat)) (enc : List Nat) (encpos declen : Nat)
      (bias last : Int),
      emitGo enclen (A ++ B) enc encpos declen bias last =
        emitGo enclen B
          (emitGo enclen A enc encpos declen bias last).1
          (emitGo enclen A enc encpos declen bias last).2.1
          (emitGo enclen A enc encpos declen bias last).2.2.1
          (emitGo enclen A enc encpos declen bias last).2.2.2.1
          (emitGo enclen A enc encpos declen bias last).2.2.2.2 := by
  intro A
  induction A with
  | nil =>
    intro B enc encpos declen bias last
    rw [List.nil_append, emitGo]
  | cons e A ih =>
    intro B enc encpos declen bias last
    obtain ⟨ch, dp⟩ := e
    rw [List.cons_append, emitGo, emitGo]
    exact ih _ _ _ _ _ _

/-- A sweep that starts with the flag down keeps it down. -/
theorem scanFirst_false : ∀ (rest : List Nat),
    scanFirst rest false = false := by
  intro rest
  induction rest with
  | nil => rw [scanFirst]
  | cons ch rest' ih =>
    rw [scanFirst]
    split
    · exact ih
    · exact ih

/-- The post-sweep flag says: the flag was up and no symbol was
kept. -/
theorem scanFirst_mask : ∀ (rest : List Nat) (first : Bool),
    scanFirst rest first =
      (first && (maskKeep rest (classify rest first)).isEmpty) := by
  intro rest
  induction rest with
  | nil =>
    intro first
    rw [scanFirst, classify, maskKeep]
    cases first <;> rfl
  | cons ch rest' ih =>
    intro first
    rw [scanFirst, classify]
    by_cases hb : isenc ch first = true
    · rw [if_neg (by simp [hb]), if_pos hb, maskKeep,
        if_neg Bool.false_ne_true]
      exact ih first
    · have hb' : isenc ch first = false := by simpa using hb
      rw [if_pos (by simp [hb']), if_neg hb, maskKeep, if_pos rfl]
      rw [scanFirst_false]
      simp

/-- The concatenated emissions of the outer sweep loop from value `n`
down the `scanNext` chain. -/
def chainEmits (b : List Nat) : Nat → Nat → List (Nat × Nat)
  | 0, _ => []
  | fuel + 1, n =>
    if n < WCHAR_MAX then
      scanEmits n b true 0 ++
        chainEmits b fuel (scanNext n b true WCHAR_MAX)
    else []

/-- The sweep values the outer loop visits from `n`. -/
def chainVals (b : List Nat) : Nat → Nat → List Nat
  | 0, _ => []
  | fuel + 1, n =>
    if n < WCHAR_MAX then
      n :: chainVals b fuel (scanNext n b true WCHAR_MAX)
    else []

/-- The chained emissions grouped by sweep value. -/
theorem chainEmits_eq_join (b : List Nat) :
    ∀ fuel n, chainEmits b fuel n =
      ((chainVals b fuel n).map (fun v => scanEmits v b true 0)).flatten := by
  intro fuel
  induction fuel with
  | zero => intro n; rw [chainEmits, chainVals]; rfl
  | succ fuel ih =>
    intro n
    rw [chainEmits, chainVals]
    by_cases hn : n < WCHAR_MAX
    · rw [if_pos hn, if_pos hn, List.map_cons, List.flatten_cons, ih]
    · rw [if_neg hn, if_neg hn]; rfl

/-- One scanning step of `scanNext`. -/
theorem scanNext_cons (n ch next : Nat) (rest' : List Nat)
    (first : Bool) :
    scanNext n (ch :: rest') first next =
      scanNext n rest' (if ¬ isenc ch first = true then false else first)
        (if isenc ch first = true ∧ ¬ ch < n ∧ ch > n ∧ ch < next then ch
          else next) := rfl

/-- A sweep can only lower `next`. -/
theorem scanNext_le (n : Nat) : ∀ (rest : List Nat) (first : Bool)
    (next : Nat), scanNext n rest first next ≤ next := by
  intro rest
  induction rest with
  | nil => intro first next; rw [scanNext]
  | cons ch rest' ih =>
    intro first next
    rw [scanNext_cons]
    by_cases hc : isenc ch first = true ∧ ¬ ch < n ∧ ch > n ∧ ch < next
    · rw [if_pos hc]
      exact le_trans (ih _ ch) (le_of_lt hc.2.2.2)
    · rw [if_neg hc]
      exact ih _ next

/-- `next` stays strictly above the sweep value. -/
theorem scanNext_gt (n : Nat) : ∀ (rest : List Nat) (first : Bool)
    (next : Nat), n < next → n < scanNext n rest first next := by
  intro rest
  induction rest with
  | nil => intro first next h; rw [scanNext]; exact h
  | cons ch rest' ih =>
    intro first next h
    rw [scanNext_cons]
    by_cases hc : isenc ch first = true ∧ ¬ ch < n ∧ ch > n ∧ ch < next
    · rw [if_pos hc]
      exact ih _ ch hc.2.2.1
    · rw [if_neg hc]
      exact ih _ next h

/-- The updated `next` is either unchanged or an extended value
strictly above the sweep value. -/
theorem scanNext_cases (n : Nat) : ∀ (rest : List Nat) (first : Bool)
    (next : Nat),
    scanNext n rest first next = next ∨
      (scanNext n rest first next ∈ extVals rest first ∧
        n < scanNext n rest first next) := by
  intro rest
  induction rest with
  | nil => intro first next; left; rw [scanNext]
  | cons ch rest' ih =>
    intro first next
    rw [scanNext_cons, extVals]
    by_cases hb : isenc ch first = true
    · rw [if_neg (by simp [hb]), if_pos hb]
      by_cases hc : isenc ch first = true ∧ ¬ ch < n ∧ ch > n ∧ ch < next
      · rw [if_pos hc]
        rcases ih first ch with h | h
        · right
          rw [h]
          exact ⟨List.mem_cons_self _ _, hc.2.2.1⟩
        · exact Or.inr ⟨List.mem_cons_of_mem _ h.1, h.2⟩
      · rw [if_neg hc]
        rcases ih first next with h | h
        · exact Or.inl h
        · exact Or.inr ⟨List.mem_cons_of_mem _ h.1, h.2⟩
    · have hb' : isenc ch first = false := by simpa using hb
      rw [if_pos (by simp [hb']), if_neg hb,
        if_neg (fun hcon => hb hcon.1)]
      exact ih false next

/-- `scanNext` is minimal among the extended values strictly between
the sweep value and `next`. -/
theorem scanNext_min (n : Nat) : ∀ (rest : List Nat) (first : Bool)
    (next v : Nat), v ∈ extVals rest first → n < v → v < next →
      scanNext n rest first next ≤ v := by
  intro rest
  induction rest with
  | nil =>
    intro first next v hv
    rw [extVals] at hv
    exact absurd hv (by simp)
  | cons ch rest' ih =>
    intro first next v hv hnv hvnext
    rw [extVals] at hv
    rw [scanNext_cons]
    by_cases hb : isenc ch first = true
    · rw [if_pos hb] at hv
      rw [if_neg (by simp [hb])]
      by_cases hc : isenc ch first = true ∧ ¬ ch < n ∧ ch > n ∧ ch < next
      · rw [if_pos hc]
        rcases List.mem_cons.mp hv with he | he
        · rw [he]
          exact scanNext_le n rest' first ch
        · rcases lt_or_le v ch with h | h
          · exact ih first ch v he hnv h
          · exact le_trans (scanNext_le n rest' first ch) h
      · rw [if_neg hc]
        rcases List.mem_cons.mp hv with he | he
        · exact absurd ⟨hb, by omega, by omega, by omega⟩ hc
        · exact ih first next v he hnv hvnext
    · have hb' : isenc ch first = false := by simpa using hb
      rw [if_neg hb] at hv
      rw [if_pos (by simp [hb']), if_neg (fun hcon => hb hcon.1)]
      exact ih false next v hv hnv hvnext

/-- The number of distinct extended values still above the sweep value
— the outer loop's termination measure. -/
def remVals (b : List Nat) (n : Nat) : Nat :=
  ((extVals b true).toFinset.filter (fun v => n < v)).card

/-- Advancing to a larger extended value strictly shrinks the
measure. -/
theorem remVals_dec (b : List Nat) (n n' : Nat) (h1 : n < n')
    (h2 : n' ∈ extVals b true) : remVals b n' < remVals b n := by
  have hsub : (extVals b true).toFinset.filter (fun v => n' < v) ⊆
      (extVals b true).toFinset.filter (fun v => n < v) := by
    intro v hv
    rw [Finset.mem_filter] at hv ⊢
    exact ⟨hv.1, by omega⟩
  apply Finset.card_lt_card
  rw [Finset.ssubset_iff_of_subset hsub]
  refine ⟨n', Finset.mem_filter.mpr ⟨List.mem_toFinset.mpr h2, h1⟩, ?_⟩
  intro hc
  have h3 := (Finset.mem_filter.mp hc).2
  omega

/-- The measure is at most the stream length. -/
theorem remVals_le (b : List Nat) (n : Nat) : remVals b n ≤ b.length := by
  have h1 := Finset.card_filter_le (extVals b true).toFinset
    (fun v => n < v)
  have h2 := List.toFinset_card_le (extVals b true)
  have h3 := extVals_length_le b true
  rw [remVals]
  omega

/-- The chain at the top value is empty. -/
theorem chainVals_stop (b : List Nat) : ∀ fuel,
    chainVals b fuel WCHAR_MAX = [] := by
  intro fuel
  cases fuel with
  | zero => rw [chainVals]
  | succ fuel => rw [chainVals, if_neg (lt_irrefl _)]

/-- The chained emissions at the top value are empty. -/
theorem chainEmits_stop (b : List Nat) : ∀ fuel,
    chainEmits b fuel WCHAR_MAX = [] := by
  intro fuel
  cases fuel with
  | zero => rw [chainEmits]
  | succ fuel => rw [chainEmits, if_neg (lt_irrefl _)]

/-- The outer loop at the top value returns its state. -/
theorem sweepOuter_stop (enclen : Nat) (b : List Nat) : ∀ fuel enc
    encpos declen bias last,
    sweepOuter enclen b fuel enc encpos declen bias last WCHAR_MAX =
      (enc, encpos) := by
  intro fuel enc encpos declen bias last
  cases fuel with
  | zero => rw [sweepOuter]
  | succ fuel => rw [sweepOuter, if_neg (lt_irrefl _)]

/-- Chain values are bounded below by the start value. -/
theorem chainVals_lb (b : List Nat) :
    ∀ fuel n, ∀ v ∈ chainVals b fuel n, n ≤ v := by
  intro fuel
  induction fuel with
  | zero => intro n v hv; rw [chainVals] at hv; exact absurd hv (by simp)
  | succ fuel ih =>
    intro n v hv
    rw [chainVals] at hv
    by_cases hn : n < WCHAR_MAX
    · rw [if_pos hn] at hv
      rcases List.mem_cons.mp hv with he | he
      · omega
      · have h1 := ih (scanNext n b true WCHAR_MAX) v he
        have h2 := scanNext_gt n b true WCHAR_MAX hn
        omega
    · rw [if_neg hn] at hv
      exact absurd hv (by simp)

/-- The chain values are strictly increasing. -/
theorem chainVals_pairwise (b : List Nat) :
    ∀ fuel n, List.Pairwise (· < ·) (chainVals b fuel n) := by
  intro fuel
  induction fuel with
  | zero => intro n; rw [chainVals]; exact List.Pairwise.nil
  | succ fuel ih =>
    intro n
    rw [chainVals]
    by_cases hn : n < WCHAR_MAX
    · rw [if_pos hn]
      refine List.pairwise_cons.mpr ⟨?_, ih _⟩
      intro v hv
      have h1 := chainVals_lb b fuel (scanNext n b true WCHAR_MAX) v hv
      have h2 := scanNext_gt n b true WCHAR_MAX hn
      omega
    · rw [if_neg hn]
      exact List.Pairwise.nil

/-- Every chain value is the start value or an extended value above
it. -/
theorem chainVals_mem (b : List Nat) :
    ∀ fuel n, ∀ v ∈ chainVals b fuel n,
      v = n ∨ (v ∈ extVals b true ∧ n < v) := by
  intro fuel
  induction fuel with
  | zero => intro n v hv; rw [chainVals] at hv; exact absurd hv (by simp)
  | succ fuel ih =>
    intro n v hv
    rw [chainVals] at hv
    by_cases hn : n < WCHAR_MAX
    · rw [if_pos hn] at hv
      rcases List.mem_cons.mp hv with he | he
      · exact Or.inl he
      · rcases ih (scanNext n b true WCHAR_MAX) v he with h | h
        · rcases scanNext_cases n b true WCHAR_MAX with h2 | h2
          · rw [h2, chainVals_stop] at he
            exact absurd he (by simp)
          · rw [h]
            exact Or.inr ⟨h2.1, h2.2⟩
        · have h2 := scanNext_gt n b true WCHAR_MAX hn
          exact Or.inr ⟨h.1, by omega⟩
    · rw [if_neg hn] at hv
      exact absurd hv (by simp)

/-- The chain from `n` visits every extended value at least `n`. -/
theorem chainVals_complete (b : List Nat)
    (hwv : ∀ v ∈ extVals b true, v < WCHAR_MAX) :
    ∀ fuel n, remVals b n < fuel → n < WCHAR_MAX →
      ∀ v ∈ extVals b true, n ≤ v → v ∈ chainVals b fuel n := by
  intro fuel
  induction fuel with
  | zero => intro n hrem; omega
  | succ fuel ih =>
    intro n hrem hn v hv hnv
    rw [chainVals, if_pos hn]
    rcases eq_or_lt_of_le hnv with he | hlt
    · rw [← he]
      exact List.mem_cons_self _ _
    · refine List.mem_cons_of_mem _ ?_
      have hvW := hwv v hv
      have hmin := scanNext_min n b true WCHAR_MAX v hv hlt hvW
      rcases scanNext_cases n b true WCHAR_MAX with h | h
      · omega
      · have hdec := remVals_dec b n (scanNext n b true WCHAR_MAX) h.2 h.1
        exact ih (scanNext n b true WCHAR_MAX) (by omega) (by omega) v hv
          hmin

/-- The outer sweep loop emits the chained entries and appends the
trailing underscore exactly when no basic symbol exists. -/
theorem sweepOuter_spec (enclen : Nat) (b : List Nat)
    (hwv : ∀ v ∈ extVals b true, v < WCHAR_MAX) :
    ∀ (fuel n : Nat) (enc : List Nat) (encpos declen : Nat)
      (bias last : Int), remVals b n < fuel → n < WCHAR_MAX →
      sweepOuter enclen b fuel enc encpos declen bias last n =
        (if scanFirst b true = true then
          (outW (emitGo enclen (chainEmits b fuel n) enc encpos declen
              bias last).1 enclen
            (emitGo enclen (chainEmits b fuel n) enc encpos declen bias
              last).2.1 95,
           (emitGo enclen (chainEmits b fuel n) enc encpos declen bias
              last).2.1 + 1)
        else
          ((emitGo enclen (chainEmits b fuel n) enc encpos declen bias
              last).1,
           (emitGo enclen (chainEmits b fuel n) enc encpos declen bias
              last).2.1)) := by
  intro fuel
  induction fuel with
  | zero => intro n enc encpos declen bias last hrem; omega
  | succ fuel ih =>
    intro n enc encpos declen bias last hrem hn
    rw [sweepOuter, if_pos hn, sweepScan_spec]
    dsimp only
    rw [chainEmits, if_pos hn, emitGo_append]
    by_cases hW : scanNext n b true WCHAR_MAX < WCHAR_MAX
    · have hne : scanNext n b true WCHAR_MAX ≠ WCHAR_MAX := by omega
      rw [if_neg (fun hco => hne hco.1), if_neg (fun hco => hne hco.1)]
      rcases scanNext_cases n b true WCHAR_MAX with h | h
      · exact absurd h hne
      · have hdec := remVals_dec b n _ h.2 h.1
        exact ih _ _ _ _ _ _ (by omega) hW
    · have hWe : scanNext n b true WCHAR_MAX = WCHAR_MAX := by
        have h0 := scanNext_le n b true WCHAR_MAX
        omega
      rw [hWe, chainEmits_stop, emitGo]
      by_cases hf : scanFirst b true = true
      · rw [if_pos ⟨rfl, hf⟩, if_pos ⟨rfl, hf⟩, if_pos hf,
          sweepOuter_stop]
      · rw [if_neg (fun hco => hf hco.2), if_neg (fun hco => hf hco.2),
          if_neg hf, sweepOuter_stop]

/-- Recorded code positions are at least the start index. -/
theorem maskCodes_pos_ge :
    ∀ (b : List Nat) (m : List Bool) (i : Nat) (e : Nat × Nat),
      e ∈ maskCodes b m i → i ≤ e.2 := by
  intro b
  induction b with
  | nil => intro m i e he; rw [maskCodes] at he; exact absurd he (by simp)
  | cons x xs ih =>
    intro m i e he
    match m with
    | [] => rw [maskCodes] at he; exact absurd he (by simp)
    | k :: ms =>
      rw [maskCodes] at he
      split at he
      · have h1 := ih ms (i + 1) e he
        omega
      · rcases List.mem_cons.mp he with h | h
        · rw [h]
        · have h1 := ih ms (i + 1) e h
          omega

/-- One sweep step over a kept symbol. -/
theorem scanEmits_kept (n ch : Nat) (rest' : List Nat) (first : Bool)
    (decpos : Nat) (hb : isenc ch first = false) (hch : ch ≠ n) :
    scanEmits n (ch :: rest') first decpos =
      scanEmits n rest' false (decpos + 1) := by
  rw [scanEmits]
  rw [if_pos hch, if_pos (by simp [hb]), if_pos (by simp [hb])]

/-- One sweep step over an extended symbol below the sweep value. -/
theorem scanEmits_ext_lt (n ch : Nat) (rest' : List Nat) (first : Bool)
    (decpos : Nat) (hb : isenc ch first = true) (hlt : ch < n) :
    scanEmits n (ch :: rest') first decpos =
      scanEmits n rest' first (decpos + 1) := by
  rw [scanEmits]
  rw [if_pos (by omega : ch ≠ n), if_neg (by simp [hb]),
    if_pos (Or.inr ⟨hb, hlt⟩)]

/-- One sweep step over an extended symbol equal to the sweep value:
the insertion entry. -/
theorem scanEmits_ext_eq (n ch : Nat) (rest' : List Nat) (first : Bool)
    (decpos : Nat) (hb : isenc ch first = true) (heq : ch = n) :
    scanEmits n (ch :: rest') first decpos =
      (ch, decpos) :: scanEmits n rest' first (decpos + 1) := by
  rw [scanEmits]
  rw [if_neg (by omega : ¬ ch ≠ n), if_neg (by simp [hb]; omega),
    if_neg (by simp [hb])]

/-- One sweep step over an extended symbol above the sweep value. -/
theorem scanEmits_ext_gt (n ch : Nat) (rest' : List Nat) (first : Bool)
    (decpos : Nat) (hb : isenc ch first = true) (hgt : n < ch) :
    scanEmits n (ch :: rest') first decpos =
      scanEmits n rest' first decpos := by
  rw [scanEmits]
  rw [if_pos (by omega : ch ≠ n), if_neg (by simp [hb]),
    if_neg (by simp [hb]; omega)]

/-- The entries one sweep at a non-alphanumeric value `n` emits: the
codes of value `n`, at their stream position corrected down by the
number of extended symbols of larger value occurring earlier. -/
theorem scanEmits_spec (n : Nat) (hn : isAlnum n = false) :
    ∀ (rest : List Nat) (first : Bool) (i d : Nat),
      scanEmits n rest first d =
        ((maskCodes rest (classify rest first) i).filter
            (fun e => e.1 = n)).map
          (fun e => (e.1, d + (e.2 - i) -
            ((maskCodes rest (classify rest first) i).filter
              (fun x => n < x.1 ∧ x.2 < e.2)).length)) := by
  intro rest
  induction rest with
  | nil => intro first i d; rw [scanEmits, classify, maskCodes]; rfl
  | cons ch rest' ih =>
    intro first i d
    rw [classify]
    by_cases hb : isenc ch first = true
    · rw [if_pos hb, maskCodes, if_neg Bool.false_ne_true]
      rcases Nat.lt_trichotomy ch n with hlt | heq | hgt
      · rw [scanEmits_ext_lt n ch rest' first d hb hlt,
          ih first (i + 1) (d + 1)]
        rw [List.filter_cons_of_neg (by simp; omega)]
        refine List.map_congr_left ?_
        intro e he
        have hepos := maskCodes_pos_ge rest' (classify rest' first)
          (i + 1) e (List.mem_filter.mp he).1
        have hee : e.1 = n := by
          have h0 := (List.mem_filter.mp he).2
          simpa using h0
        rw [List.filter_cons_of_neg (by simp; omega)]
        simp only [Prod.mk.injEq, true_and]
        omega
      · rw [scanEmits_ext_eq n ch rest' first d hb heq,
          ih first (i + 1) (d + 1)]
        rw [List.filter_cons_of_pos (by simpa using heq)]
        rw [List.map_cons]
        congr 1
        · simp only [Prod.mk.injEq, true_and]
          rw [List.filter_cons_of_neg (by simp)]
          have hz : ((maskCodes rest' (classify rest' first)
              (i + 1)).filter (fun x => n < x.1 ∧ x.2 < i)).length = 0 := by
            rw [List.length_eq_zero, List.filter_eq_nil_iff]
            intro e he
            have hepos := maskCodes_pos_ge rest' (classify rest' first)
              (i + 1) e he
            simp only [decide_eq_true_eq, not_and]
            omega
          omega
        · refine List.map_congr_left ?_
          intro e he
          have hepos := maskCodes_pos_ge rest' (classify rest' first)
            (i + 1) e (List.mem_filter.mp he).1
          rw [List.filter_cons_of_neg (by simp; omega)]
          simp only [Prod.mk.injEq, true_and]
          omega
      · rw [scanEmits_ext_gt n ch rest' first d hb hgt,
          ih first (i + 1) d]
        rw [List.filter_cons_of_neg (by simp; omega)]
        refine List.map_congr_left ?_
        intro e he
        have hepos := maskCodes_pos_ge rest' (classify rest' first)
          (i + 1) e (List.mem_filter.mp he).1
        rw [List.filter_cons_of_pos (by simp; omega)]
        simp only [Prod.mk.injEq, true_and, List.length_cons]
        omega
    · have hb' : isenc ch first = false := by simpa using hb
      have hch : ch ≠ n := by
        have h1 := kept_alnum ch first hb'
        intro hcon
        rw [hcon, hn] at h1
        exact absurd h1 (by simp)
      rw [if_neg hb, maskCodes, if_pos rfl]
      rw [scanEmits_kept n ch rest' first d hb' hch,
        ih false (i + 1) (d + 1)]
      refine List.map_congr_left ?_
      intro e he
      have hepos := maskCodes_pos_ge rest' (classify rest' false)
        (i + 1) e (List.mem_filter.mp he).1
      simp only [Prod.mk.injEq, true_and]
      omega

/-- On a `codeLe`-sorted list, the position correction of each entry
counts the entries of larger symbol at earlier positions. -/
theorem adjustCodes_count :
    ∀ (S : List (Nat × Nat)),
      List.Pairwise (fun a b => codeLe a b = true) S →
      adjustCodes S = S.map (fun e => (e.1, e.2 -
        (S.filter (fun x => e.1 < x.1 ∧ x.2 < e.2)).length)) := by
  intro S
  induction S with
  | nil => intro _; rw [adjustCodes]; rfl
  | cons c rest ih =>
    intro hsort
    obtain ⟨w, p⟩ := c
    rw [List.pairwise_cons] at hsort
    rw [adjustCodes, List.map_cons]
    congr 1
    · have heq : rest.filter (fun c => c.2 < p) =
          rest.filter (fun x => w < x.1 ∧ x.2 < p) := by
        apply List.filter_congr
        intro x hx
        have hle := hsort.1 x hx
        rw [codeLe, decide_eq_true_eq] at hle
        rw [decide_eq_decide]
        constructor
        · intro h2
          refine ⟨?_, h2⟩
          rcases hle with h3 | h3
          · exact h3
          · omega
        · exact fun h2 => h2.2
      rw [List.filter_cons_of_neg (by simp), countLtPos, heq]
    · rw [ih hsort.2]
      refine List.map_congr_left ?_
      intro e he
      have hle := hsort.1 e he
      rw [codeLe, decide_eq_true_eq] at hle
      rw [List.filter_cons_of_neg (by simp; omega)]

/-- The adjacent sortedness invariant gives strict lexicographic
pairwise order. -/
theorem sortedAdj_pairwise : ∀ (l : List (Nat × Nat)) (f : Nat),
    sortedAdj f l →
      l.Pairwise (fun a b => a.1 < b.1 ∨ (a.1 = b.1 ∧ a.2 < b.2)) := by
  intro l
  induction l with
  | nil => intro f _; exact List.Pairwise.nil
  | cons a l ih =>
    intro f h
    match l with
    | [] => exact List.pairwise_singleton _ _
    | b :: rest =>
      obtain ⟨w1, p1⟩ := a
      obtain ⟨w2, p2⟩ := b
      rw [sortedAdj] at h
      have htail := ih (f + 1) h.2.2
      refine List.pairwise_cons.mpr ⟨?_, htail⟩
      intro x hx
      rcases List.mem_cons.mp hx with he | he
      · rw [he]
        exact h.2.1
      · have hbx := (List.pairwise_cons.mp htail).1 x he
        rcases h.2.1 with h1 | h1 <;> rcases hbx with h2 | h2
        · exact Or.inl (by omega)
        · exact Or.inl (by omega)
        · exact Or.inl (by omega)
        · exact Or.inr ⟨by omega, by omega⟩

/-- Grouping a list by the distinct values of the first components is
a permutation. -/
theorem partition_perm :
    ∀ (vs : List Nat) (X : List (Nat × Nat)), vs.Nodup →
      (∀ e ∈ X, e.1 ∈ vs) →
      ((vs.map (fun v => X.filter (fun e => e.1 = v))).flatten).Perm X := by
  intro vs
  induction vs with
  | nil =>
    intro X _ hall
    match X with
    | [] => exact List.Perm.refl _
    | e :: _ => exact absurd (hall e (by simp)) (by simp)
  | cons v vs ih =>
    intro X hnd hall
    rw [List.map_cons, List.flatten_cons]
    have hsplit := List.filter_append_perm (fun e => e.1 = v) X
    refine List.Perm.trans ?_ hsplit
    refine List.Perm.append_left _ ?_
    rw [List.nodup_cons] at hnd
    have hkey : vs.map (fun w => X.filter (fun e => e.1 = w)) =
        vs.map (fun w =>
          (X.filter (fun x => ! decide (x.1 = v))).filter
            (fun e => e.1 = w)) := by
      apply List.map_congr_left
      intro w hw
      have hwv : ¬ (w = v) := fun hcon => hnd.1 (hcon ▸ hw)
      rw [List.filter_filter]
      apply List.filter_congr
      intro e he
      by_cases hew : e.1 = w
      · simp [hew, hwv]
      · simp [hew]
    rw [hkey]
    refine ih _ hnd.2 ?_
    intro e he
    have h1 := List.mem_filter.mp he
    have h2 := hall e h1.1
    rcases List.mem_cons.mp h2 with h3 | h3
    · exfalso
      have h4 := h1.2
      rw [h3] at h4
      simp at h4
    · exact h3

/-- Sweep emissions carry the sweep value, start at the entry
`decpos`, and have strictly increasing decoded positions. -/
theorem scanEmits_facts (n : Nat) : ∀ (rest : List Nat) (first : Bool)
    (d : Nat), (∀ e ∈ scanEmits n rest first d, e.1 = n ∧ d ≤ e.2) ∧
      (scanEmits n rest first d).Pairwise (fun a b => a.2 < b.2) := by
  intro rest
  induction rest with
  | nil =>
    intro first d
    rw [scanEmits]
    exact ⟨by simp, List.Pairwise.nil⟩
  | cons ch rest' ih =>
    intro first d
    rw [scanEmits]
    split
    · constructor
      · intro e he
        obtain ⟨h1, h2⟩ := (ih _ _).1 e he
        refine ⟨h1, ?_⟩
        split at h2 <;> omega
      · exact (ih _ _).2
    · rename_i hch
      have hchn : ch = n := by omega
      constructor
      · intro e he
        rcases List.mem_cons.mp he with h | h
        · rw [h]
          refine ⟨hchn, ?_⟩
          split <;> omega
        · obtain ⟨h1, h2⟩ := (ih _ _).1 e h
          refine ⟨h1, ?_⟩
          split at h2 <;> omega
      · refine List.pairwise_cons.mpr ⟨?_, (ih _ _).2⟩
        intro e he
        have h2 := ((ih _ _).1 e he).2
        dsimp only
        by_cases hc : ¬ isenc ch first = true ∨
            (isenc ch first = true ∧ ch < n)
        · rw [if_pos hc] at h2 ⊢
          omega
        · rw [if_neg hc] at h2 ⊢
          omega

/-- Strict lexicographic order on code entries is vacuously
antisymmetric. -/
instance : IsAntisymm (Nat × Nat)
    (fun a c => a.1 < c.1 ∨ (a.1 = c.1 ∧ a.2 < c.2)) :=
  ⟨by
    intro a b h1 h2
    obtain ⟨a1, a2⟩ := a
    obtain ⟨b1, b2⟩ := b
    dsimp only at h1 h2
    simp only [Prod.mk.injEq]
    omega⟩

/-- The chained sweep emissions coincide with the sorted,
position-corrected code entries of the sort strategy. -/
theorem chain_eq_adjust (b : List Nat) (fuel : Nat)
    (h32 : ∀ c ∈ b, 32 ≤ c)
    (hmax : ∀ c ∈ b, c < WCHAR_MAX)
    (hnld : noLeadingDigit b = true)
    (hfuel : remVals b INITIAL_N < fuel)
    (hadj : (adjustCodes (sortCodes
        (maskCodes b (classify b true) 0))).Pairwise
      (fun a c => a.1 < c.1 ∨ (a.1 = c.1 ∧ a.2 < c.2))) :
    chainEmits b fuel INITIAL_N =
      adjustCodes (sortCodes (maskCodes b (classify b true) 0)) := by
  have hev32 : ∀ v ∈ extVals b true, 32 ≤ v := fun v hv =>
    h32 v (extVals_subset b true v hv)
  have hevW : ∀ v ∈ extVals b true, v < WCHAR_MAX := fun v hv =>
    hmax v (extVals_subset b true v hv)
  have heva : ∀ v ∈ extVals b true, isAlnum v = false :=
    noLeadingDigit_extVals b true (fun _ => hnld)
  have hNW : INITIAL_N < WCHAR_MAX := by rw [INITIAL_N, WCHAR_MAX]; omega
  have hvs_pw := chainVals_pairwise b fuel INITIAL_N
  have hvs_nd : (chainVals b fuel INITIAL_N).Nodup :=
    hvs_pw.imp (fun hab => Nat.ne_of_lt hab)
  have hvsa : ∀ v ∈ chainVals b fuel INITIAL_N, isAlnum v = false := by
    intro v hv
    rcases chainVals_mem b fuel INITIAL_N v hv with h | h
    · rw [h, INITIAL_N]
      decide
    · exact heva v h.1
  have hXfst : ∀ e ∈ maskCodes b (classify b true) 0,
      e.1 ∈ extVals b true := by
    intro e he
    rw [← extVals_maskCodes b true 0]
    exact List.mem_map_of_mem Prod.fst he
  have hXvs : ∀ e ∈ maskCodes b (classify b true) 0,
      e.1 ∈ chainVals b fuel INITIAL_N := by
    intro e he
    refine chainVals_complete b hevW fuel INITIAL_N hfuel hNW e.1
      (hXfst e he) ?_
    have h1 := hev32 e.1 (hXfst e he)
    rw [INITIAL_N]
    omega
  have hgroup : ∀ v ∈ chainVals b fuel INITIAL_N,
      scanEmits v b true 0 =
        ((maskCodes b (classify b true) 0).filter
            (fun e => e.1 = v)).map
          (fun e => (e.1, e.2 -
            ((maskCodes b (classify b true) 0).filter
              (fun x => e.1 < x.1 ∧ x.2 < e.2)).length)) := by
    intro v hv
    rw [scanEmits_spec v (hvsa v hv) b true 0 0]
    refine List.map_congr_left ?_
    intro e he
    have hee : e.1 = v := by
      have h0 := (List.mem_filter.mp he).2
      simpa using h0
    simp only [Prod.mk.injEq, true_and]
    rw [hee]
    omega
  have hsorted1 : ((chainVals b fuel INITIAL_N).map
      (fun v => scanEmits v b true 0)).flatten.Pairwise
      (fun a c => a.1 < c.1 ∨ (a.1 = c.1 ∧ a.2 < c.2)) := by
    rw [List.pairwise_flatten]
    constructor
    · intro l hl
      rw [List.mem_map] at hl
      obtain ⟨v, hv, hlv⟩ := hl
      rw [← hlv]
      have hf := scanEmits_facts v b true 0
      refine hf.2.imp_of_mem ?_
      intro a c ha hc hac
      have h1 := (hf.1 a ha).1
      have h2 := (hf.1 c hc).1
      right
      exact ⟨by rw [h1, h2], hac⟩
    · rw [List.pairwise_map]
      refine hvs_pw.imp_of_mem ?_
      intro v w hv hw hvw
      intro a ha c hc
      have h1 := (scanEmits_facts v b true 0).1 a ha
      have h2 := (scanEmits_facts w b true 0).1 c hc
      left
      rw [h1.1, h2.1]
      exact hvw
  have hcs : adjustCodes (sortCodes (maskCodes b (classify b true) 0)) =
      (sortCodes (maskCodes b (classify b true) 0)).map
        (fun e => (e.1, e.2 -
          ((maskCodes b (classify b true) 0).filter
            (fun x => e.1 < x.1 ∧ x.2 < e.2)).length)) := by
    rw [adjustCodes_count _ (sortCodes_pairwise _)]
    refine List.map_congr_left ?_
    intro e he
    simp only [Prod.mk.injEq, true_and]
    congr 1
    exact ((sortCodes_perm (maskCodes b (classify b true) 0)).filter
      _).length_eq
  have hcsperm : (adjustCodes (sortCodes
      (maskCodes b (classify b true) 0))).Perm
      ((maskCodes b (classify b true) 0).map
        (fun e => (e.1, e.2 -
          ((maskCodes b (classify b true) 0).filter
            (fun x => e.1 < x.1 ∧ x.2 < e.2)).length))) := by
    rw [hcs]
    exact (sortCodes_perm _).map _
  have hcomp : (chainVals b fuel INITIAL_N).map
      (fun v => ((maskCodes b (classify b true) 0).filter
        (fun e => e.1 = v)).map
        (fun e => (e.1, e.2 -
          ((maskCodes b (classify b true) 0).filter
            (fun x => e.1 < x.1 ∧ x.2 < e.2)).length))) =
      ((chainVals b fuel INITIAL_N).map
        (fun v => (maskCodes b (classify b true) 0).filter
          (fun e => e.1 = v))).map
        (List.map (fun e => (e.1, e.2 -
          ((maskCodes b (classify b true) 0).filter
            (fun x => e.1 < x.1 ∧ x.2 < e.2)).length))) :=
    (List.map_map _ _ _).symm
  have hperm : (((chainVals b fuel INITIAL_N).map
      (fun v => scanEmits v b true 0)).flatten).Perm
      (adjustCodes (sortCodes (maskCodes b (classify b true) 0))) := by
    rw [List.map_congr_left hgroup, hcomp, ← List.map_flatten]
    refine List.Perm.trans
      ((partition_perm _ _ hvs_nd hXvs).map _) ?_
    exact hcsperm.symm
  rw [chainEmits_eq_join b fuel INITIAL_N]
  exact List.eq_of_perm_of_sorted hperm hsorted1 hadj

/-- The sweep strategy's emission loop writes the same buffer and
count as the sort strategy's suffix loop: the sweep's negative initial
bias stands in for the `i == 0` first-delta flag. -/
theorem emitGo_eq_suffixGo (cap : Nat) :
    ∀ (cs : List (Nat × Nat)) (enc : List Nat) (encpos rlen : Nat)
      (bias2 last bias1 : Int) (first1 : Bool),
      ((bias2 < 0 ∧ first1 = true ∧ bias1 = INITIAL_BIAS) ∨
        (0 ≤ bias2 ∧ first1 = false ∧ bias1 = bias2)) →
      sortedAdj rlen cs →
      headDelta last rlen cs →
      (emitGo cap cs enc encpos rlen bias2 last).1 =
          (suffixGo cap cs enc encpos rlen bias1 last first1).1 ∧
        (emitGo cap cs enc encpos rlen bias2 last).2.1 =
          (suffixGo cap cs enc encpos rlen bias1 last first1).2 := by
  intro cs
  induction cs with
  | nil =>
    intro enc encpos rlen bias2 last bias1 first1 hrel hadj hhd
    rw [emitGo, suffixGo]
    exact ⟨rfl, rfl⟩
  | cons e rest ih =>
    intro enc encpos rlen bias2 last bias1 first1 hrel hadj hhd
    obtain ⟨w, p⟩ := e
    rw [emitGo, suffixGo]
    set d : Int := (w : Int) * ((rlen : Int) + 1) + (p : Int) - last
      with hddef
    have hdelta : (0 : Int) ≤ d := by
      simp only [headDelta] at hhd
      omega
    have huse : (if bias2 < 0 then INITIAL_BIAS else bias2) = bias1 := by
      rcases hrel with ⟨h1, h2, h3⟩ | ⟨h1, h2, h3⟩
      · rw [if_pos h1, h3]
      · rw [if_neg (by omega), h3]
    have hdec : decide (bias2 < 0) = first1 := by
      rcases hrel with ⟨h1, h2, h3⟩ | ⟨h1, h2, h3⟩
      · rw [h2]; simpa using h1
      · rw [h2]; simpa using h1
    rw [huse, hdec, encodeDelta2_eq enc cap encpos bias1 d hdelta]
    have hprest : p ≤ rlen ∧ (rest = [] ∨ sortedAdj (rlen + 1) rest) ∧
        headDelta ((w : Int) * ((rlen : Int) + 2) + (p : Int) + 1)
          (rlen + 1) rest := by
      cases rest with
      | nil =>
        simp only [sortedAdj] at hadj
        exact ⟨hadj, Or.inl rfl, trivial⟩
      | cons e2 rest2 =>
        obtain ⟨w2, p2⟩ := e2
        simp only [sortedAdj] at hadj
        obtain ⟨hp, hrel2, hrest⟩ := hadj
        refine ⟨hp, Or.inr hrest, ?_⟩
        simp only [headDelta]
        rcases hrel2 with h | ⟨heql, hlt⟩
        · have h1 : ((w : Int) + 1) * ((rlen : Int) + 2) ≤
              (w2 : Int) * ((rlen : Int) + 2) :=
            mul_le_mul_of_nonneg_right (by omega) (by omega)
          have hple : (p : Int) ≤ (rlen : Int) := by exact_mod_cast hp
          push_cast
          nlinarith [h1, hple, Int.natCast_nonneg p2]
        · subst heql
          have hplt : (p : Int) < (p2 : Int) := by exact_mod_cast hlt
          push_cast
          linarith
    refine ih _ _ _ _ _ _ _
      (Or.inr ⟨adapt_nonneg d (rlen + 1) first1 hdelta, rfl, rfl⟩)
      ?_ hprest.2.2
    rcases hprest.2.1 with h | h
    · subst h; trivial
    · exact h

/-- C4 (amended): the sort-strategy and sweep-strategy encoders agree
— identical buffer, returned length and trimmed output — on every
input whose scalars lie in `[32, WCHAR_MAX)` and whose compressed
stream has no digit before its first letter (so no extended code can
collide with a basic digit); in general they disagree
(`c4_ce_basic_digit_double_emit`). -/
theorem c4_sweep_sort_agree (s : List Nat) (cap : Nat)
    (h32 : ∀ c ∈ s, 32 ≤ c) (hmax : ∀ c ∈ s, c < WCHAR_MAX)
    (hnld : noLeadingDigit (compressOut s) = true) :
    wfunencode cap s = wfunencode2 cap s ∧
      encBytes cap s = encBytes2 cap s := by
  have hb32 : ∀ c ∈ compressOut s, 32 ≤ c := (compressOut_ge32 s h32).1
  have hbmax : ∀ c ∈ compressOut s, c < WCHAR_MAX :=
    compressOut_lt_max s h32 hmax
  have hkey : wfunencode cap s = wfunencode2 cap s := by
    rw [wfunencode, wfunencode2]
    dsimp only
    set r := basicGo cap (compressOut s) 0 (List.replicate cap 0) 0 []
      with hrdef
    obtain ⟨hB1, hB2, hB3, hB4, hB5, hB6, hB7, hB8, hB9⟩ :=
      basicGo_inv cap (compressOut s) 0 (List.replicate cap 0) 0 [] r
        hrdef.symm hb32 (by simp) (by simp) (by simp)
        List.Pairwise.nil (by simp) (by simp)
    simp only [List.length_nil] at hB3
    have hbg := basic2Go_eq_basicGo cap (compressOut s) 0
      (List.replicate cap 0) 0 []
    rw [← hrdef] at hbg
    rw [hbg]
    dsimp only
    have hclass := basicGo_classify cap (compressOut s) 0
      (List.replicate cap 0) 0 []
    rw [← hrdef] at hclass
    have hd0 : (decide ((0 : Nat) = 0)) = true := rfl
    rw [hd0] at hclass
    have hcodes : r.2.2 = maskCodes (compressOut s)
        (classify (compressOut s) true) 0 := by
      rw [hclass]
      simp
    have hplen : r.2.1 = (maskKeep (compressOut s)
        (classify (compressOut s) true)).length := by
      rw [hclass]
      simp
    have hcond : (r.2.1 = (compressOut s).length) ↔
        r.2.2.isEmpty = true := by
      constructor
      · intro h
        rw [List.isEmpty_iff, ← List.length_eq_zero]
        omega
      · intro h
        have h1 := List.length_eq_zero.mpr (List.isEmpty_iff.mp h)
        omega
    by_cases hemp : r.2.2.isEmpty = true
    · rw [if_pos hemp, if_pos (hcond.mpr hemp)]
    · rw [if_neg hemp, if_neg (fun hcon => hemp (hcond.mp hcon))]
      have hperm := sortCodes_perm r.2.2
      have hpairs := sortCodes_pairwise r.2.2
      have hnodup : ((sortCodes r.2.2).map Prod.snd).Nodup := by
        have hmapped : (r.2.2.map Prod.snd).Pairwise (· < ·) :=
          List.pairwise_map.mpr hB7
        exact ((hperm.map Prod.snd).nodup_iff).mpr
          (hmapped.imp fun h => Nat.ne_of_lt h)
      have hbound : ∀ e ∈ sortCodes r.2.2,
          e.2 ≤ r.2.1 + countLtPos e.2 (sortCodes r.2.2) := by
        intro e he
        rw [countLtPos_perm _ _ _ hperm]
        exact hB8 e (hperm.mem_iff.mp he)
      have hadjS := adjust_sortedAdj (sortCodes r.2.2) r.2.1 hpairs
        hnodup hbound
      have hwcs : ∀ e ∈ adjustCodes (sortCodes r.2.2), 32 ≤ e.1 :=
        adjustCodes_fst _ (fun e he => hB9 e (hperm.mem_iff.mp he))
      have hlex := sortedAdj_pairwise _ _ hadjS
      have hchain : chainEmits (compressOut s)
          ((compressOut s).length + 2) INITIAL_N =
          adjustCodes (sortCodes r.2.2) := by
        rw [hcodes]
        refine chain_eq_adjust (compressOut s) _ hb32 hbmax hnld
          (by
            have h1 := remVals_le (compressOut s) INITIAL_N
            omega) ?_
        rw [← hcodes]
        exact hlex
      have hwv : ∀ v ∈ extVals (compressOut s) true, v < WCHAR_MAX :=
        fun v hv => hbmax v (extVals_subset _ _ v hv)
      have hNW : INITIAL_N < WCHAR_MAX := by
        rw [INITIAL_N, WCHAR_MAX]
        omega
      have hrem : remVals (compressOut s) INITIAL_N <
          (compressOut s).length + 2 := by
        have h1 := remVals_le (compressOut s) INITIAL_N
        omega
      have hsf : scanFirst (compressOut s) true = decide (r.2.1 = 0) := by
        rw [scanFirst_mask, Bool.true_and, hplen]
        cases hK : maskKeep (compressOut s)
            (classify (compressOut s) true) with
        | nil => simp
        | cons a l => simp
      by_cases hp0 : r.2.1 = 0
      · have h2 : ¬(r.2.1 ≠ 0) := not_not_intro hp0
        simp only [if_neg h2, if_pos hp0]
        have hlast : (INITIAL_N : Int) * ((r.2.1 : Int) + 1) - 10 =
            (INITIAL_N : Int) * ((r.2.1 : Int) + 1) -
              10 * ((r.2.1 : Int) + 1) := by
          rw [hp0]
          push_cast
          ring
        rw [hlast]
        have hhd : headDelta ((INITIAL_N : Int) * ((r.2.1 : Int) + 1) -
            10 * ((r.2.1 : Int) + 1)) r.2.1
            (adjustCodes (sortCodes r.2.2)) := by
          cases hA : adjustCodes (sortCodes r.2.2) with
          | nil => simp [headDelta]
          | cons e0 tl =>
            obtain ⟨w0, p0⟩ := e0
            have hw0 : 32 ≤ w0 := hwcs (w0, p0) (by rw [hA]; simp)
            simp only [headDelta, INITIAL_N]
            have hm : (32 : Int) * ((r.2.1 : Int) + 1) ≤
                (w0 : Int) * ((r.2.1 : Int) + 1) :=
              mul_le_mul_of_nonneg_right (by omega) (by omega)
            have hp0' : (0 : Int) ≤ (p0 : Int) := Int.natCast_nonneg p0
            push_cast
            push_cast at hm
            linarith
        rw [sweepOuter_spec cap (compressOut s) hwv
          ((compressOut s).length + 2) INITIAL_N _ _ _ _ _ hrem hNW]
        rw [hchain, hsf, if_pos (by simp [hp0])]
        have hES := emitGo_eq_suffixGo cap (adjustCodes (sortCodes r.2.2))
          r.1 r.2.1 r.2.1 (-1)
          ((INITIAL_N : Int) * ((r.2.1 : Int) + 1) -
            10 * ((r.2.1 : Int) + 1)) INITIAL_BIAS true
          (Or.inl ⟨by norm_num, rfl, rfl⟩) hadjS hhd
        rw [← hES.1, ← hES.2]
      · have h2 : r.2.1 ≠ 0 := hp0
        simp only [if_pos h2, if_neg hp0]
        rw [if_neg (by omega : ¬ (r.2.1 + 1 = 0))]
        have hhd : headDelta ((INITIAL_N : Int) * ((r.2.1 : Int) + 1) -
            0) r.2.1 (adjustCodes (sortCodes r.2.2)) := by
          cases hA : adjustCodes (sortCodes r.2.2) with
          | nil => simp [headDelta]
          | cons e0 tl =>
            obtain ⟨w0, p0⟩ := e0
            have hw0 : 32 ≤ w0 := hwcs (w0, p0) (by rw [hA]; simp)
            simp only [headDelta, INITIAL_N]
            have hm : (32 : Int) * ((r.2.1 : Int) + 1) ≤
                (w0 : Int) * ((r.2.1 : Int) + 1) :=
              mul_le_mul_of_nonneg_right (by omega) (by omega)
            have hp0' : (0 : Int) ≤ (p0 : Int) := Int.natCast_nonneg p0
            push_cast
            push_cast at hm
            linarith
        rw [sweepOuter_spec cap (compressOut s) hwv
          ((compressOut s).length + 2) INITIAL_N _ _ _ _ _ hrem hNW]
        rw [hchain, hsf, if_neg (by simp [hp0])]
        have hES := emitGo_eq_suffixGo cap (adjustCodes (sortCodes r.2.2))
          (outW r.1 cap r.2.1 95) (r.2.1 + 1) r.2.1 (-1)
          ((INITIAL_N : Int) * ((r.2.1 : Int) + 1) - 0) INITIAL_BIAS true
          (Or.inl ⟨by norm_num, rfl, rfl⟩) hadjS hhd
        rw [← hES.1, ← hES.2]
  refine ⟨hkey, ?_⟩
  rw [encBytes, encBytes2, hkey]

/-- Witness for `c4_sweep_sort_agree` at `"bücher"` with capacity 16:
the hypotheses hold and the two encoders return the same pair. -/
theorem c4_sweep_sort_agree_witness :
    ((∀ c ∈ [98, 252, 99, 104, 101, 114], 32 ≤ c) ∧
      (∀ c ∈ [98, 252, 99, 104, 101, 114], c < WCHAR_MAX) ∧
      noLeadingDigit (compressOut [98, 252, 99, 104, 101, 114]) = true) ∧
    wfunencode 16 [98, 252, 99, 104, 101, 114] =
      wfunencode2 16 [98, 252, 99, 104, 101, 114] :=
  ⟨⟨by decide, by decide, by rfl⟩,
    (c4_sweep_sort_agree [98, 252, 99, 104, 101, 114] 16 (by decide)
      (by decide) (by rfl)).1⟩

/-- Witness for `c2_identifier_shape` at `"bücher"`. -/
theorem c2_identifier_shape_witness :
    1 ≤ (wfunencode 16 [98, 252, 99, 104, 101, 114]).2 ∧
      identShape (encBytes 16 [98, 252, 99, 104, 101, 114]) = true :=
  c2_identifier_shape [98, 252, 99, 104, 101, 114] 16 (by decide)
    (by decide) (by decide)

end Funycode
